import Mathlib

/-!
# TerrainExplorer: the chunk lifecycle scheduler of `Source/World/World.cpp`

A shallow embedding of `World` (chunk table, hand-off queues, observer position)
and of its member functions, followed by theorems about them.

Conventions of the embedding.

* `int` is the unbounded `Int`: signed overflow is undefined behaviour in C++ and
  lies outside the model.
* `std::unordered_map<glm::ivec3, Chunk*>` is an association list searched from the
  front. `find` returns the first entry of a key, `insert` leaves the table alone
  when the key is present and `erase` removes the key. Iteration order of the real
  container is unspecified; no theorem depends on the order chosen here.
* A `Chunk*` is the key under which the chunk is stored in the table.
* Every member function is one atomic state transformer; the interleaving of the
  generation thread and the render thread is not modelled.
* The terrain generators and the mesh generator are external collaborators. They
  write voxel and mesh buffers only, which the model does not carry; calls of the
  mesh generator and GPU uploads are recorded in two trace fields of `World`.
-/

set_option autoImplicit false
set_option maxRecDepth 100000

namespace TerrainExplorer

/-! ## Data model -/

/-- Chunk coordinate, `glm::ivec3`. -/
structure Coord where
  x : Int
  y : Int
  z : Int
deriving DecidableEq, Repr

/-- The enumerators of `Chunk::State` that `World.cpp` uses. -/
inductive State where
  | GridData
  | Sampling
  | Surface
  | Complete
deriving DecidableEq, Repr

/-- Modelled from the spec: the numeric values of the enumerators of `Chunk::State`.
The enumeration is declared in `Chunk.h`, which is not among the sources, so the
values that `static_cast<int>` yields are parameters. -/
structure StateCodes where
  gridData : Int
  sampling : Int
  surface : Int
  complete : Int
deriving DecidableEq, Repr

/-- Modelled from the spec: the states are "totally ordered, ascending"
`GridData`, `Sampling`, `Surface`, `Complete`, and none is numbered below 0, the value
that stands for an absent neighbour. The numbering 0, 1, 2, 3 that C++ gives to
enumerators without initialisers is of this kind. Where a theorem needs more, namely
that GridData is numbered above 0 (the spec: an absent neighbour "counts as state 0"
and "always blocks progress"), it says so with the hypothesis `0 < gridData`. -/
def StateCodes.Ascending (sc : StateCodes) : Prop :=
  0 ≤ sc.gridData ∧ sc.gridData < sc.sampling ∧ sc.sampling < sc.surface ∧
    sc.surface < sc.complete

instance (sc : StateCodes) : Decidable sc.Ascending := by
  unfold StateCodes.Ascending
  infer_instance

/-- The value of `static_cast<int>(state)`. -/
def State.toInt (sc : StateCodes) : State → Int
  | State.GridData => sc.gridData
  | State.Sampling => sc.sampling
  | State.Surface => sc.surface
  | State.Complete => sc.complete

/-- Position of a state in the sequence GridData, Sampling, Surface, Complete. -/
def State.rank : State → Nat
  | State.GridData => 0
  | State.Sampling => 1
  | State.Surface => 2
  | State.Complete => 3

/-- Constants of `World.h`, which is not among the sources, taken as parameters. -/
structure Config where
  codes : StateCodes
  MAX_MESH_IN_APPLY_QUEUE : Nat
  CHUNK_SIZE : Int

/-- A GPU mesh handle as returned by `Chunk::GetMesh`: the chunk it belonged to and
whether a mesh had been uploaded for it. -/
structure Mesh where
  owner : Coord
  uploaded : Bool
deriving DecidableEq, Repr

/-- Modelled from the spec: the fields of `Chunk` (declared in `Chunk.h`) that
`World.cpp` reads and writes. `canRender` is the value of `CanRender()`: a GPU mesh
has been set with `SetMesh`. -/
structure Chunk where
  chunkPosition : Coord
  state : State
  canRender : Bool
deriving DecidableEq, Repr

/-- The chunk table `m_chunks`. -/
abbrev ChunkTable := List (Coord × Chunk)

/-- The members of `World`, with two trace fields: `generatedMeshes` lists the calls
of `GenerateChunkMesh`, `appliedMeshes` the GPU uploads (`Mesh::SetData`). -/
structure World where
  m_chunks : ChunkTable
  m_applyMeshQueue : List Coord
  m_missingMeshQueue : List Coord
  m_disposeMeshQueue : List Mesh
  lastChunkPos : Coord
  m_lastChunkPosSync : Coord
  m_chunkPosChangedSync : Bool
  generatedMeshes : List Coord
  appliedMeshes : List Coord
deriving DecidableEq, Repr

/-! ## The chunk table -/

/-- The value of `m_chunks.find(p)`: `none` stands for `m_chunks.end()`. -/
def find : ChunkTable → Coord → Option Chunk
  | [], _ => none
  | (k, c) :: t, p => if k = p then some c else find t p

/-- The effect of `m_chunks.insert`: no effect when the key is present. -/
def insert (t : ChunkTable) (p : Coord) (c : Chunk) : ChunkTable :=
  match find t p with
  | some _ => t
  | none => t ++ [(p, c)]

/-- The effect of `m_chunks.erase(p)`. -/
def erase (t : ChunkTable) (p : Coord) : ChunkTable :=
  t.filter (fun e => decide (e.1 ≠ p))

/-- The effect of `chunk->state = s` on the chunk stored under key `p`. -/
def setState : ChunkTable → Coord → State → ChunkTable
  | [], _, _ => []
  | (k, c) :: t, p, s =>
    if k = p then (k, { c with state := s }) :: t else (k, c) :: setState t p s

/-- The effect of `chunk->SetMesh(mesh)` on the chunk stored under key `p`. -/
def setMesh : ChunkTable → Coord → ChunkTable
  | [], _ => []
  | (k, c) :: t, p =>
    if k = p then (k, { c with canRender := true }) :: t else (k, c) :: setMesh t p

/-! ## Loops -/

/-- The values taken by `v` in `for(int v = lo; v <= hi; v++)`. -/
def loopRange (lo hi : Int) : List Int :=
  (List.range (hi + 1 - lo).toNat).map (fun (i : Nat) => lo + (i : Int))

/-- The loop `for(int v = lo; v <= hi; v++) body`, as a state transformer. -/
def forRange {σ : Type} (lo hi : Int) (body : σ → Int → σ) (init : σ) : σ :=
  (loopRange lo hi).foldl body init

/-- The three nested loops shared by `RunInBound` and `RunForChunkInBound`. -/
def forBound {σ : Type} (sizeXZ sizeY : Int) (center : Coord) (inset : Int)
    (body : σ → Coord → σ) (init : σ) : σ :=
  let xMin := center.x - sizeXZ + inset
  let xMax := center.x + sizeXZ - inset
  let yMin := center.y - sizeY + inset
  let yMax := center.y + sizeY - inset
  let zMin := center.z - sizeXZ + inset
  let zMax := center.z + sizeXZ - inset
  forRange xMin xMax (fun s x =>
    forRange yMin yMax (fun s y =>
      forRange zMin zMax (fun s z => body s ⟨x, y, z⟩) s) s) init

/-- The coordinates visited by the three nested loops, in visiting order. -/
def boundCoords (sizeXZ sizeY : Int) (center : Coord) (inset : Int) : List Coord :=
  (loopRange (center.x - sizeXZ + inset) (center.x + sizeXZ - inset)).flatMap fun x =>
    (loopRange (center.y - sizeY + inset) (center.y + sizeY - inset)).flatMap fun y =>
      (loopRange (center.z - sizeXZ + inset) (center.z + sizeXZ - inset)).map fun z =>
        (⟨x, y, z⟩ : Coord)

/-! ## `World` member functions -/

/-- The offsets `(i, j, k)` in the order of the loops of `GetChunkNeighbours`:
`k` outermost, `i` innermost, so that `index = (i+1) + (j+1)*3 + (k+1)*9` counts up
from 0 to 26. -/
def neighbourOffsets : List (Int × Int × Int) :=
  ([-1, 0, 1] : List Int).flatMap fun k =>
    ([-1, 0, 1] : List Int).flatMap fun j =>
      ([-1, 0, 1] : List Int).map fun i => (i, j, k)

/-- The coordinate `chunkPosition + (i, j, k)`. -/
def Coord.offset (p : Coord) (o : Int × Int × Int) : Coord :=
  ⟨p.x + o.1, p.y + o.2.1, p.z + o.2.2⟩

/-- One iteration of the innermost loop body of `GetChunkNeighbours`. The state is
the vector `neighbours` filled so far and the running `minState`. -/
def neighbourStep (sc : StateCodes) (t : ChunkTable) (chunkPosition : Coord)
    (acc : List (Option Chunk) × Int) (o : Int × Int × Int) : List (Option Chunk) × Int :=
  match find t (chunkPosition.offset o) with
  | none => (acc.1 ++ [none], 0)
  | some c =>
    let neighbourState := c.state.toInt sc
    (acc.1 ++ [some c], if acc.2 < neighbourState then acc.2 else neighbourState)

/-- `World::GetChunkNeighbours`: returns the 27 neighbours and the final value of
the reference parameter `minState`. -/
def GetChunkNeighbours (sc : StateCodes) (t : ChunkTable) (chunkPosition : Coord)
    (minState : Int) : List (Option Chunk) × Int :=
  neighbourOffsets.foldl (neighbourStep sc t chunkPosition) ([], minState)

/-- `World::CreateChunk`. Modelled from the spec: the `Chunk` constructor (in
`Chunk.h`) stores the coordinate, has no GPU mesh, and the chunk is "created in
state GridData at construction". -/
def CreateChunk (w : World) (chunkPos : Coord) : World :=
  let newChunk : Chunk :=
    { chunkPosition := chunkPos, state := State.GridData, canRender := false }
  { w with m_chunks := insert w.m_chunks chunkPos newChunk }

/-- `World::TryCreateAndFillChunk`. -/
def TryCreateAndFillChunk (w : World) (p : Coord) : World :=
  match find w.m_chunks p with
  | some _ => w
  | none =>
    let w1 := CreateChunk w p
    { w1 with m_chunks := setState w1.m_chunks p State.GridData }

/-- `World::RunInBound`: the final world and the returned `index`. -/
def RunInBound (sizeXZ sizeY : Int) (center : Coord) (inset : Int)
    (iterator : World → Coord → World) (w : World) : World × Int :=
  forBound sizeXZ sizeY center inset
    (fun (acc : World × Int) p => (iterator acc.1 p, acc.2 + 1)) (w, 0)

/-- The body of the innermost loop of `World::RunForChunkInBound` at coordinate `p`.
The iterator receives `pos`, the key of `chunk` and `neighbours`. -/
def runForChunkBody (sc : StateCodes) (newState minState : State)
    (iterator : World → Coord → Coord → List (Option Chunk) → World)
    (acc : World × Int) (p : Coord) : World × Int :=
  match find acc.1.m_chunks p with
  | none => acc
  | some chunk =>
    if chunk.state.toInt sc ≥ newState.toInt sc then acc
    else
      let chunkPos := chunk.chunkPosition
      let r := GetChunkNeighbours sc acc.1.m_chunks chunkPos (State.Complete.toInt sc)
      let w1 := if r.2 ≥ minState.toInt sc then iterator acc.1 chunkPos p r.1 else acc.1
      (w1, acc.2 + 1)

/-- `World::RunForChunkInBound`: the final world and the returned `index`. -/
def RunForChunkInBound (sc : StateCodes) (sizeXZ sizeY : Int) (center : Coord)
    (inset : Int) (newState minState : State)
    (iterator : World → Coord → Coord → List (Option Chunk) → World)
    (w : World) : World × Int :=
  forBound sizeXZ sizeY center inset (runForChunkBody sc newState minState iterator) (w, 0)

/-- `World::TrySamplingPass`. -/
def TrySamplingPass (w : World) (_pos : Coord) (chunk : Coord)
    (_neighbours : List (Option Chunk)) : World :=
  { w with m_chunks := setState w.m_chunks chunk State.Sampling }

/-- `World::TrySurfacePassAndMesh`. -/
def TrySurfacePassAndMesh (cfg : Config) (w : World) (pos : Coord) (chunk : Coord)
    (_neighbours : List (Option Chunk)) : World :=
  let w1 := { w with m_chunks := setState w.m_chunks chunk State.Surface }
  let meshesInApplyQueue : Int := w1.m_applyMeshQueue.length
  if meshesInApplyQueue ≥ (cfg.MAX_MESH_IN_APPLY_QUEUE : Int) then
    { w1 with m_missingMeshQueue := w1.m_missingMeshQueue ++ [pos] }
  else
    { w1 with
      generatedMeshes := w1.generatedMeshes ++ [chunk]
      m_chunks := setState w1.m_chunks chunk State.Complete
      m_applyMeshQueue := w1.m_applyMeshQueue ++ [pos] }

/-- The `while` loop of `World::TryGeneratingMissingMesh`. The first argument is
`m_missingMeshQueue`, the second the local `meshesInApplyQueue`. -/
def missingMeshLoop (cfg : Config) : List Coord → Int → World → World
  | [], _, w => w
  | pos :: rest, meshesInApplyQueue, w =>
    if meshesInApplyQueue < (cfg.MAX_MESH_IN_APPLY_QUEUE : Int) then
      let w1 := { w with m_missingMeshQueue := rest }
      match find w1.m_chunks pos with
      | none => missingMeshLoop cfg rest meshesInApplyQueue w1
      | some chunk =>
        if chunk.state = State.Complete then missingMeshLoop cfg rest meshesInApplyQueue w1
        else
          let r := GetChunkNeighbours cfg.codes w1.m_chunks pos
            (State.Complete.toInt cfg.codes)
          if r.2 < State.Sampling.toInt cfg.codes then
            missingMeshLoop cfg rest meshesInApplyQueue w1
          else
            missingMeshLoop cfg rest (meshesInApplyQueue + 1)
              { w1 with
                generatedMeshes := w1.generatedMeshes ++ [pos]
                m_chunks := setState w1.m_chunks pos State.Complete
                m_applyMeshQueue := w1.m_applyMeshQueue ++ [pos] }
    else w

/-- `World::TryGeneratingMissingMesh`. -/
def TryGeneratingMissingMesh (cfg : Config) (w : World) : World :=
  missingMeshLoop cfg w.m_missingMeshQueue (w.m_applyMeshQueue.length : Int) w

/-- `glm::abs` on `int`. -/
def glmAbs (a : Int) : Int := if a < 0 then -a else a

/-- `glm::max` on `int`. -/
def glmMax (a b : Int) : Int := if a < b then b else a

/-- The selection test of `World::UnloadFarChunks`. -/
def isFar (center : Coord) (maxRangeXZ maxRangeY : Int) (pos : Coord) : Bool :=
  let distX := glmAbs (center.x - pos.x)
  let distY := glmAbs (center.y - pos.y)
  let distZ := glmAbs (center.z - pos.z)
  decide (distY > maxRangeY) || decide (glmMax distX distZ > maxRangeXZ)

/-- One iteration of the deletion loop of `World::UnloadFarChunks`. -/
def unloadStep (w : World) (pos : Coord) : World :=
  match find w.m_chunks pos with
  | none => w
  | some chunk =>
    { w with
      m_chunks := erase w.m_chunks pos
      m_disposeMeshQueue := w.m_disposeMeshQueue ++ [⟨chunk.chunkPosition, chunk.canRender⟩] }

/-- `World::UnloadFarChunks`. -/
def UnloadFarChunks (center : Coord) (maxRangeXZ maxRangeY : Int) (w : World) : World :=
  let m_chunkToDeleteQueue :=
    (w.m_chunks.filter (fun e => isFar center maxRangeXZ maxRangeY e.1)).map Prod.fst
  m_chunkToDeleteQueue.foldl unloadStep w

/-- One iteration of the apply loop of `World::OnUpdate`. -/
def applyStep (w : World) (pos : Coord) : World :=
  match find w.m_chunks pos with
  | none => w
  | some chunk =>
    if chunk.canRender then w
    else { w with m_chunks := setMesh w.m_chunks pos, appliedMeshes := w.appliedMeshes ++ [pos] }

/-- `World::OnUpdate`. -/
def OnUpdate (w : World) : World :=
  let w1 := w.m_applyMeshQueue.foldl applyStep w
  { w1 with m_applyMeshQueue := [], m_disposeMeshQueue := [] }

/-- The chunk coordinate of a world position in `World::OnPlayerMove`:
`glm::floor(static_cast<glm::dvec3>(position) / (double)CHUNK_SIZE)`, the division
rounding toward minus infinity on every axis. The source divides in `double`; for a
32-bit `int` and a positive `CHUNK_SIZE` the floor of the rounded quotient is the floor
of the exact one: a quotient that is not an integer lies at least `1 / CHUNK_SIZE` from
the next integer, and the rounding error is below `2^-22 / CHUNK_SIZE`. -/
def toChunkPos (cfg : Config) (position : Coord) : Coord :=
  ⟨Int.fdiv position.x cfg.CHUNK_SIZE, Int.fdiv position.y cfg.CHUNK_SIZE,
    Int.fdiv position.z cfg.CHUNK_SIZE⟩

/-- `World::OnPlayerMove`. -/
def OnPlayerMove (cfg : Config) (w : World) (position : Coord) : World :=
  let chunkPos : Coord := toChunkPos cfg position
  if chunkPos = w.lastChunkPos then w
  else { w with lastChunkPos := chunkPos, m_lastChunkPosSync := chunkPos,
                m_chunkPosChangedSync := true }

/-- The create pass of `ThreadUpdate`. -/
def createPass (boundXZ boundY : Int) (chunkPos : Coord) (w : World) : World :=
  (RunInBound boundXZ boundY chunkPos 0 TryCreateAndFillChunk w).1

/-- The sampling pass of `ThreadUpdate`, with the inset as a parameter. -/
def samplingPass (cfg : Config) (boundXZ boundY : Int) (chunkPos : Coord) (inset : Int)
    (w : World) : World :=
  (RunForChunkInBound cfg.codes boundXZ boundY chunkPos inset State.Sampling State.GridData
    TrySamplingPass w).1

/-- The surface and mesh pass of `ThreadUpdate`, with the inset as a parameter. -/
def surfaceMeshPass (cfg : Config) (boundXZ boundY : Int) (chunkPos : Coord) (inset : Int)
    (w : World) : World :=
  (RunForChunkInBound cfg.codes boundXZ boundY chunkPos inset State.Complete State.Sampling
    (TrySurfacePassAndMesh cfg) w).1

/-- The branch of the loop body of `World::ThreadUpdate` taken when a position change
is pending, with the locals `boundXZ` and `boundY` as parameters. -/
def pipelineCycle (cfg : Config) (boundXZ boundY : Int) (w : World) : World :=
  let chunkPos := w.m_lastChunkPosSync
  let w0 := { w with m_chunkPosChangedSync := false }
  let w1 := createPass boundXZ boundY chunkPos w0
  let w2 := samplingPass cfg boundXZ boundY chunkPos 1 w1
  let w3 := surfaceMeshPass cfg boundXZ boundY chunkPos 2 w2
  UnloadFarChunks chunkPos (boundXZ + 1) (boundXZ + 1) w3

/-- One iteration of the `while` loop of `World::ThreadUpdate`. -/
def threadIteration (cfg : Config) (boundXZ boundY : Int) (w : World) : World :=
  if !w.m_chunkPosChangedSync then TryGeneratingMissingMesh cfg w
  else pipelineCycle cfg boundXZ boundY w

/-- `World::ThreadUpdate` runs its iterations with `boundXZ = 16`, `boundY = 6`. -/
def ThreadUpdateIteration (cfg : Config) (w : World) : World :=
  threadIteration cfg 16 6 w

/-- The operations of the system. -/
inductive Op where
  | playerMove (position : Coord)
  | threadStep
  | update
deriving DecidableEq, Repr

/-- The effect of one operation. -/
def applyOp (cfg : Config) (boundXZ boundY : Int) (w : World) : Op → World
  | Op.playerMove position => OnPlayerMove cfg w position
  | Op.threadStep => threadIteration cfg boundXZ boundY w
  | Op.update => OnUpdate w

/-- The effect of a sequence of operations. -/
def runOps (cfg : Config) (boundXZ boundY : Int) (ops : List Op) (w : World) : World :=
  ops.foldl (applyOp cfg boundXZ boundY) w

/-- The world after `World::Init`: empty table, empty queues. The initial values of
the observer fields are declared in `World.h` and are parameters. -/
def initWorld (lastChunkPos sync : Coord) (changed : Bool) : World :=
  { m_chunks := [], m_applyMeshQueue := [], m_missingMeshQueue := [],
    m_disposeMeshQueue := [], lastChunkPos := lastChunkPos, m_lastChunkPosSync := sync,
    m_chunkPosChangedSync := changed, generatedMeshes := [], appliedMeshes := [] }

/-- A world reachable from an initial world by a sequence of operations. -/
def Reachable (cfg : Config) (boundXZ boundY : Int) (w : World) : Prop :=
  ∃ (l s : Coord) (b : Bool) (ops : List Op),
    runOps cfg boundXZ boundY ops (initWorld l s b) = w

/-! ## Definitions used in the statements and proofs -/

/-- The running minimum of `GetChunkNeighbours` without the neighbour vector. -/
def minStep (sc : StateCodes) (t : ChunkTable) (chunkPosition : Coord) (m : Int)
    (o : Int × Int × Int) : Int :=
  match find t (chunkPosition.offset o) with
  | none => 0
  | some c => if m < c.state.toInt sc then m else c.state.toInt sc

/-- The 26 offsets of the 3x3x3 block without the centre. -/
def block26 : List (Int × Int × Int) :=
  neighbourOffsets.filter (fun o => decide (o ≠ (0, 0, 0)))

/-- The value `m` is 0 if a coordinate `chunkPosition + o`, `o` in `offs`, holds no
chunk, and otherwise the minimum state among the chunks at these coordinates. -/
def IsMinStateOver (sc : StateCodes) (t : ChunkTable) (chunkPosition : Coord)
    (offs : List (Int × Int × Int)) (m : Int) : Prop :=
  ((∃ o ∈ offs, find t (chunkPosition.offset o) = none) → m = 0) ∧
  ((∀ o ∈ offs, (find t (chunkPosition.offset o)).isSome) →
    (∀ o ∈ offs, ∀ c ∈ find t (chunkPosition.offset o), m ≤ c.state.toInt sc) ∧
    (∃ o ∈ offs, ∃ c ∈ find t (chunkPosition.offset o), m = c.state.toInt sc))

instance (sc : StateCodes) (t : ChunkTable) (p : Coord) (offs : List (Int × Int × Int))
    (m : Int) : Decidable (IsMinStateOver sc t p offs m) := by
  unfold IsMinStateOver
  infer_instance

/-- The numbering 1, 2, 3, 4 of the states. -/
def codes1234 : StateCodes := ⟨1, 2, 3, 4⟩

/-- A chunk without GPU mesh at coordinate `p` in state `s`. -/
def chunkAt (p : Coord) (s : State) : Chunk :=
  { chunkPosition := p, state := s, canRender := false }

/-- A full 3x3x3 block around the origin: the centre at `centre`, the 26 others
at `others`. -/
def blockTable (centre others : State) : ChunkTable :=
  neighbourOffsets.map fun o =>
    ((⟨0, 0, 0⟩ : Coord).offset o,
      chunkAt ((⟨0, 0, 0⟩ : Coord).offset o) (if o = (0, 0, 0) then centre else others))

/-- All 26 neighbouring coordinates of `p` hold a chunk whose state is `minState` or
later in the sequence GridData, Sampling, Surface, Complete. -/
def NeighboursReady (t : ChunkTable) (p : Coord) (minState : State) : Prop :=
  ∀ o ∈ block26, ∃ c ∈ find t (p.offset o), minState.rank ≤ c.state.rank

instance (t : ChunkTable) (p : Coord) (minState : State) :
    Decidable (NeighboursReady t p minState) := by
  unfold NeighboursReady
  infer_instance

/-- A world with chunk table `t`, empty queues and the observer at the origin. -/
def worldOf (t : ChunkTable) : World :=
  { m_chunks := t, m_applyMeshQueue := [], m_missingMeshQueue := [],
    m_disposeMeshQueue := [], lastChunkPos := ⟨0, 0, 0⟩, m_lastChunkPosSync := ⟨0, 0, 0⟩,
    m_chunkPosChangedSync := false, generatedMeshes := [], appliedMeshes := [] }

/-- A configuration with the numbering 1, 2, 3, 4 and the given queue capacity. -/
def cfgOf (maxMesh : Nat) : Config :=
  { codes := codes1234, MAX_MESH_IN_APPLY_QUEUE := maxMesh, CHUNK_SIZE := 16 }

/-- The loop body of the sampling pass. -/
def samplingBody (cfg : Config) : World × Int → Coord → World × Int :=
  runForChunkBody cfg.codes State.Sampling State.GridData TrySamplingPass

/-- The loop body of the surface and mesh pass. -/
def surfaceMeshBody (cfg : Config) : World × Int → Coord → World × Int :=
  runForChunkBody cfg.codes State.Complete State.Sampling (TrySurfacePassAndMesh cfg)

/-- Scenario 3 of the spec: capacity 1, the apply queue already holds one entry, and
the chunk at (0,0,0) is about to finish its surface pass. -/
def scenario3World : World :=
  { worldOf [((⟨0, 0, 0⟩ : Coord), chunkAt ⟨0, 0, 0⟩ State.Sampling)] with
    m_applyMeshQueue := [⟨5, 5, 5⟩] }

/-- The allowed range of an unload pass, in the words of the spec: vertical distance
at most `rY` and Chebyshev distance on the horizontal axes at most `rXZ`. -/
def InRange (center : Coord) (rXZ rY : Int) (p : Coord) : Prop :=
  |center.y - p.y| ≤ rY ∧ max |center.x - p.x| |center.z - p.z| ≤ rXZ

instance (center : Coord) (rXZ rY : Int) (p : Coord) : Decidable (InRange center rXZ rY p) := by
  unfold InRange
  infer_instance

/-- Every chunk that is in the table of `w` and in the table of `w2` has in `w2` a state
at or after its state in `w`, in the order GridData, Sampling, Surface, Complete. -/
def StateMonotone (w w2 : World) : Prop :=
  ∀ (p : Coord) (c c2 : Chunk), find w.m_chunks p = some c → find w2.m_chunks p = some c2 →
    c.state.rank ≤ c2.state.rank

/-- Every chunk of `w` is still in the table of `w2`, at the same or a later state. -/
def Advances (w w2 : World) : Prop :=
  ∀ (p : Coord) (c : Chunk), find w.m_chunks p = some c →
    ∃ c2, find w2.m_chunks p = some c2 ∧ c.state.rank ≤ c2.state.rank

/-- The apply queue holds at most `MAX_MESH_IN_APPLY_QUEUE` coordinates. -/
def QueueBounded (cfg : Config) (w : World) : Prop :=
  w.m_applyMeshQueue.length ≤ cfg.MAX_MESH_IN_APPLY_QUEUE

instance (cfg : Config) (w : World) : Decidable (QueueBounded cfg w) := by
  unfold QueueBounded
  infer_instance

/-- The loop body of the create pass. -/
def createBody (acc : World × Int) (p : Coord) : World × Int :=
  (TryCreateAndFillChunk acc.1 p, acc.2 + 1)

/-- No coordinate is the key of two entries of the table. -/
def KeysNodup (t : ChunkTable) : Prop := (t.map Prod.fst).Nodup

instance (t : ChunkTable) : Decidable (KeysNodup t) := by
  unfold KeysNodup
  infer_instance

/-- The cuboid of half-sizes `sizeXZ`, `sizeY` around `c`. -/
def InCuboid (c : Coord) (sizeXZ sizeY : Int) (p : Coord) : Prop :=
  (c.x - sizeXZ ≤ p.x ∧ p.x ≤ c.x + sizeXZ) ∧
  (c.y - sizeY ≤ p.y ∧ p.y ≤ c.y + sizeY) ∧
  (c.z - sizeXZ ≤ p.z ∧ p.z ≤ c.z + sizeXZ)

instance (c : Coord) (sizeXZ sizeY : Int) (p : Coord) : Decidable (InCuboid c sizeXZ sizeY p) := by
  unfold InCuboid
  infer_instance

/-- The claim of C9 as stated, for the cycle run on `w`: afterwards the table holds
exactly the coordinates of the cuboid around the centre, `(2*sizeXZ+1)^2 * (2*sizeY+1)`
chunks. -/
def CycleFillsCuboid (cfg : Config) (sizeXZ sizeY : Int) (w : World) : Prop :=
  (∀ p : Coord, (find (pipelineCycle cfg sizeXZ sizeY w).m_chunks p).isSome ↔
    InCuboid w.m_lastChunkPosSync sizeXZ sizeY p) ∧
  ((pipelineCycle cfg sizeXZ sizeY w).m_chunks.length : Int) =
    (2 * sizeXZ + 1) ^ 2 * (2 * sizeY + 1)

/-- The observer fields of `w2` are those of `w`. -/
def SameObserver (w w2 : World) : Prop :=
  w2.lastChunkPos = w.lastChunkPos ∧ w2.m_lastChunkPosSync = w.m_lastChunkPosSync ∧
    w2.m_chunkPosChangedSync = w.m_chunkPosChangedSync

/-- The observer reports a position in chunk (0,2,0), the pipeline runs a cycle, the
observer reports a position in chunk (0,0,0), the pipeline runs a cycle. -/
def descentOps : List Op :=
  [Op.playerMove ⟨0, 32, 0⟩, Op.threadStep, Op.playerMove ⟨0, 0, 0⟩, Op.threadStep]

/-- The numbering 0, 1, 2, 3 of the states: GridData is 0. -/
def codes0123 : StateCodes := ⟨0, 1, 2, 3⟩

/-- The chunk `c` after `OnUpdate` when its coordinate `p` is looked up and the apply
queue was `queue`: render-ready if `p` was queued, otherwise as before. -/
def afterApply (queue : List Coord) (p : Coord) (c : Chunk) : Chunk :=
  if p ∈ queue then { c with canRender := true } else c

/-- Floor division in the words of the spec: the quotient of `a` by `b` as a rational
number, rounded toward minus infinity. -/
def floorDiv (a b : Int) : Int := ⌊(a : ℚ) / (b : ℚ)⌋

/-- A world whose missing-mesh queue holds two coordinates without chunk. -/
def staleQueueWorld : World :=
  { worldOf [] with m_missingMeshQueue := [⟨1, 0, 0⟩, ⟨2, 0, 0⟩] }

/-- The condition under which one iteration of `RunForChunkInBound` at `p` reaches
`std::invoke(iterator, ...)`: a chunk at `p`, below `newState`, and the gate open. -/
def gateOpen (sc : StateCodes) (newState minState : State) (w : World) (p : Coord) : Bool :=
  match find w.m_chunks p with
  | none => false
  | some chunk =>
    decide (¬ chunk.state.toInt sc ≥ newState.toInt sc) &&
      decide ((GetChunkNeighbours sc w.m_chunks chunk.chunkPosition
        (State.Complete.toInt sc)).2 ≥ minState.toInt sc)

/-- The number of times the loop of `RunForChunkInBound` over the coordinates `l`,
started in `w`, executes `std::invoke(iterator, ...)`. -/
def invokedCount (sc : StateCodes) (newState minState : State)
    (iterator : World → Coord → Coord → List (Option Chunk) → World) :
    List Coord → World → Int
  | [], _ => 0
  | p :: l, w =>
    (if gateOpen sc newState minState w p then 1 else 0) +
      invokedCount sc newState minState iterator l
        (runForChunkBody sc newState minState iterator (w, 0) p).1

/-- A world whose table holds one chunk, at (0,0,0) and at Sampling. -/
def loneSampledWorld : World :=
  worldOf [((⟨0, 0, 0⟩ : Coord), chunkAt ⟨0, 0, 0⟩ State.Sampling)]

/-- The coordinate `p` holds in `w` a chunk below `newState`. -/
def isCandidate (sc : StateCodes) (newState : State) (w : World) (p : Coord) : Bool :=
  match find w.m_chunks p with
  | none => false
  | some chunk => decide (chunk.state.toInt sc < newState.toInt sc)

/-- Every chunk of the table is stored under its own `chunkPosition`, as
`World::CreateChunk` stores it. -/
def PositionsMatch (t : ChunkTable) : Prop := ∀ e ∈ t, e.2.chunkPosition = e.1

instance (t : ChunkTable) : Decidable (PositionsMatch t) := by
  unfold PositionsMatch
  infer_instance

/-- The coordinate `p` holds a chunk whose state is `s` or later in the sequence
GridData, Sampling, Surface, Complete. -/
def AtLeast (t : ChunkTable) (p : Coord) (s : State) : Prop :=
  ∃ c ∈ find t p, s.rank ≤ c.state.rank

instance (t : ChunkTable) (p : Coord) (s : State) : Decidable (AtLeast t p s) := by
  unfold AtLeast
  infer_instance

/-- Every coordinate in the apply queue holds no chunk or a chunk at Complete. -/
def PendingSettled (w : World) : Prop :=
  ∀ p ∈ w.m_applyMeshQueue, ∀ c ∈ find w.m_chunks p, c.state = State.Complete

/-- The invariant behind the uniqueness of the apply queue. -/
def UniqueInv (w : World) : Prop :=
  w.m_applyMeshQueue.Nodup ∧ PositionsMatch w.m_chunks ∧ PendingSettled w

/-- Every coordinate of the apply queue that lies in the creation cuboid of the cycle
about to run on `w` holds a chunk: the create pass of that cycle creates no chunk at a
coordinate still in the apply queue. -/
def PendingKept (boundXZ boundY : Int) (w : World) : Prop :=
  ∀ p ∈ w.m_applyMeshQueue, InCuboid w.m_lastChunkPosSync boundXZ boundY p →
    (find w.m_chunks p).isSome

/-- Along the run of `ops` from `w`, every pipeline cycle starts in a world with
`PendingKept`. -/
def NoPendingRecreation (cfg : Config) (boundXZ boundY : Int) : List Op → World → Prop
  | [], _ => True
  | op :: ops, w =>
    (op = Op.threadStep → w.m_chunkPosChangedSync = true → PendingKept boundXZ boundY w) ∧
      NoPendingRecreation cfg boundXZ boundY ops (applyOp cfg boundXZ boundY w op)

/-- The first coordinate visited by the three nested loops of a runner. -/
def firstCoord (sizeXZ sizeY : Int) (center : Coord) (inset : Int) : Coord :=
  ⟨center.x - sizeXZ + inset, center.y - sizeY + inset, center.z - sizeXZ + inset⟩

/-- The second coordinate visited by the three nested loops of a runner. -/
def secondCoord (sizeXZ sizeY : Int) (center : Coord) (inset : Int) : Coord :=
  ⟨center.x - sizeXZ + inset, center.y - sizeY + inset, center.z - sizeXZ + inset + 1⟩

/-- The coordinate `p` lies in the bound of a runner with the given inset. -/
def InBound (center : Coord) (sizeXZ sizeY inset : Int) (p : Coord) : Prop :=
  (center.x - sizeXZ + inset ≤ p.x ∧ p.x ≤ center.x + sizeXZ - inset) ∧
  (center.y - sizeY + inset ≤ p.y ∧ p.y ≤ center.y + sizeY - inset) ∧
  (center.z - sizeXZ + inset ≤ p.z ∧ p.z ≤ center.z + sizeXZ - inset)

instance (center : Coord) (sizeXZ sizeY inset : Int) (p : Coord) :
    Decidable (InBound center sizeXZ sizeY inset p) := by
  unfold InBound
  infer_instance

/-- The observer reports a position in chunk `c`, which differs from the last reported
one, and the pipeline thread runs the cycle for it. -/
def cycleAt (cfg : Config) (boundXZ boundY : Int) (c : Coord) (w : World) : World :=
  pipelineCycle cfg boundXZ boundY
    { w with lastChunkPos := c, m_lastChunkPosSync := c, m_chunkPosChangedSync := true }

/-- The world of a pipeline cycle after its create pass and its sampling pass. -/
def afterSampling (cfg : Config) (boundXZ boundY : Int) (w : World) : World :=
  samplingPass cfg boundXZ boundY w.m_lastChunkPosSync 1
    (createPass boundXZ boundY w.m_lastChunkPosSync { w with m_chunkPosChangedSync := false })

/-- The world of a pipeline cycle after its three passes, before the unload pass. -/
def afterPasses (cfg : Config) (boundXZ boundY : Int) (w : World) : World :=
  surfaceMeshPass cfg boundXZ boundY w.m_lastChunkPosSync 2 (afterSampling cfg boundXZ boundY w)

/-- The observer enters chunk (1,0,0), walks far away to chunk (100,0,0) and comes back
to chunk (3,0,0), the pipeline thread running one cycle after each report; then the
render thread runs `OnUpdate` for the first time. -/
def returnOps : List Op :=
  [Op.playerMove ⟨16, 0, 0⟩, Op.threadStep, Op.playerMove ⟨1600, 0, 0⟩, Op.threadStep,
    Op.playerMove ⟨48, 0, 0⟩, Op.threadStep, Op.update]

/-- The observer enters chunk (1,0,0), walks far away to chunk (100,0,0) and comes back
to chunk (1,0,0), the pipeline thread running one cycle after each report; `OnUpdate`
does not run in between. -/
def roundTripOps : List Op :=
  [Op.playerMove ⟨16, 0, 0⟩, Op.threadStep, Op.playerMove ⟨1600, 0, 0⟩, Op.threadStep,
    Op.playerMove ⟨16, 0, 0⟩, Op.threadStep]

/-- The observer enters chunk (1,0,0), walks far away to chunk (100,0,0), comes back to
chunk (2,-4,-13) and moves on to chunk (-28,-4,-13), the pipeline thread running one
cycle after each report; then the render thread runs `OnUpdate`. -/
def strollOps : List Op :=
  [Op.playerMove ⟨16, 0, 0⟩, Op.threadStep, Op.playerMove ⟨1600, 0, 0⟩, Op.threadStep,
    Op.playerMove ⟨32, -64, -208⟩, Op.threadStep,
    Op.playerMove ⟨-448, -64, -208⟩, Op.threadStep, Op.update]

/-- The observer enters chunk (1,0,0) and moves on to the neighbouring chunk (2,0,0),
the pipeline thread running one cycle after each report; `OnUpdate` does not run. -/
def nearbyOps : List Op :=
  [Op.playerMove ⟨16, 0, 0⟩, Op.threadStep, Op.playerMove ⟨32, 0, 0⟩, Op.threadStep]

theorem find_setState (t : ChunkTable) (p q : Coord) (s : State) :
    find (setState t p s) q =
      if q = p then (find t p).map (fun c => { c with state := s }) else find t q := by
  induction t with
  | nil => simp [setState, find]
  | cons e t ih =>
    obtain ⟨k, c⟩ := e
    by_cases hk : k = p
    · subst hk
      by_cases hq : q = k
      · subst hq
        simp [setState, find]
      · have hq2 : ¬ k = q := fun h => hq h.symm
        simp [setState, find, hq, hq2]
    · by_cases hq : q = p
      · subst hq
        simp [setState, find, hk, ih]
      · by_cases hkq : k = q
        · simp [setState, find, hk, hkq, hq]
        · simp [setState, find, hk, hkq, hq, ih]

theorem find_setMesh (t : ChunkTable) (p q : Coord) :
    find (setMesh t p) q =
      if q = p then (find t p).map (fun c => { c with canRender := true }) else find t q := by
  induction t with
  | nil => simp [setMesh, find]
  | cons e t ih =>
    obtain ⟨k, c⟩ := e
    by_cases hk : k = p
    · subst hk
      by_cases hq : q = k
      · subst hq
        simp [setMesh, find]
      · have hq2 : ¬ k = q := fun h => hq h.symm
        simp [setMesh, find, hq, hq2]
    · by_cases hq : q = p
      · subst hq
        simp [setMesh, find, hk, ih]
      · by_cases hkq : k = q
        · simp [setMesh, find, hk, hkq, hq]
        · simp [setMesh, find, hk, hkq, hq, ih]

theorem find_filter (t : ChunkTable) (f : Coord → Bool) (q : Coord) :
    find (t.filter (fun e => f e.1)) q = if f q then find t q else none := by
  induction t with
  | nil => simp [find]
  | cons e t ih =>
    obtain ⟨k, c⟩ := e
    by_cases hf : f k = true
    · by_cases hkq : k = q
      · subst hkq
        simp [List.filter, hf, find]
      · simp [List.filter, hf, find, hkq, ih]
    · by_cases hkq : k = q
      · subst hkq
        simp [List.filter, hf, find, ih]
      · simp [List.filter, hf, find, hkq, ih]

theorem find_erase (t : ChunkTable) (p q : Coord) :
    find (erase t p) q = if q = p then none else find t q := by
  have h := find_filter t (fun k => decide (k ≠ p)) q
  unfold erase
  rw [h]
  by_cases hq : q = p <;> simp [hq]

theorem find_append (t u : ChunkTable) (q : Coord) :
    find (t ++ u) q = match find t q with
      | some c => some c
      | none => find u q := by
  induction t with
  | nil =>
    simp only [List.nil_append, find]
  | cons e t ih =>
    obtain ⟨k, c⟩ := e
    by_cases hkq : k = q
    · simp [find, hkq]
    · simp [find, hkq, ih]

theorem find_insert (t : ChunkTable) (p q : Coord) (c : Chunk) :
    find (insert t p c) q = match find t q with
      | some d => some d
      | none => if q = p then some c else none := by
  unfold insert
  cases hp : find t p with
  | some d =>
    simp only
    cases hq : find t q with
    | some d2 => rfl
    | none =>
      have : ¬ q = p := by
        intro h
        subst h
        rw [hp] at hq
        cases hq
      simp [this]
  | none =>
    simp only
    rw [find_append]
    cases hq : find t q with
    | some d2 => rfl
    | none =>
      by_cases h : q = p
      · subst h
        simp [find]
      · have h2 : ¬ p = q := fun e => h e.symm
        simp [find, h, h2]

theorem find_eq_none_iff (t : ChunkTable) (q : Coord) :
    find t q = none ↔ q ∉ t.map Prod.fst := by
  induction t with
  | nil => simp [find]
  | cons e t ih =>
    obtain ⟨k, c⟩ := e
    by_cases hkq : k = q
    · subst hkq
      simp [find]
    · have h2 : ¬ q = k := fun e => hkq e.symm
      simp only [find, hkq, if_false, ih, List.map_cons, List.mem_cons, h2, false_or]

theorem find_isSome_iff (t : ChunkTable) (q : Coord) :
    (find t q).isSome ↔ q ∈ t.map Prod.fst := by
  have h := find_eq_none_iff t q
  cases hf : find t q with
  | none =>
    rw [hf] at h
    simp only [Option.isSome_none, Bool.false_eq_true, false_iff]
    exact h.mp rfl
  | some c =>
    rw [hf] at h
    simp only [Option.isSome_some, true_iff]
    by_contra hn
    exact absurd (h.mpr hn) (by simp)

theorem keys_setState (t : ChunkTable) (p : Coord) (s : State) :
    (setState t p s).map Prod.fst = t.map Prod.fst := by
  induction t with
  | nil => rfl
  | cons e t ih =>
    obtain ⟨k, c⟩ := e
    by_cases hk : k = p
    · simp [setState, hk]
    · simp [setState, hk, ih]

theorem keys_setMesh (t : ChunkTable) (p : Coord) :
    (setMesh t p).map Prod.fst = t.map Prod.fst := by
  induction t with
  | nil => rfl
  | cons e t ih =>
    obtain ⟨k, c⟩ := e
    by_cases hk : k = p
    · simp [setMesh, hk]
    · simp [setMesh, hk, ih]

/-! ## Lemmas on the loops -/

theorem foldl_flatMap_eq {α β σ : Type} (f : α → List β) (g : σ → β → σ) (l : List α)
    (init : σ) :
    (l.flatMap f).foldl g init = l.foldl (fun s a => (f a).foldl g s) init := by
  induction l generalizing init with
  | nil => rfl
  | cons a l ih => simp [List.flatMap_cons, List.foldl_append, ih]

theorem forBound_eq_foldl {σ : Type} (sizeXZ sizeY : Int) (center : Coord) (inset : Int)
    (body : σ → Coord → σ) (init : σ) :
    forBound sizeXZ sizeY center inset body init =
      (boundCoords sizeXZ sizeY center inset).foldl body init := by
  unfold forBound boundCoords forRange
  simp only [foldl_flatMap_eq, List.foldl_map]

theorem mem_loopRange (lo hi v : Int) : v ∈ loopRange lo hi ↔ lo ≤ v ∧ v ≤ hi := by
  unfold loopRange
  simp only [List.mem_map, List.mem_range]
  constructor
  · rintro ⟨i, hi1, rfl⟩
    omega
  · rintro ⟨h1, h2⟩
    refine ⟨(v - lo).toNat, ?_, ?_⟩ <;> omega

theorem mem_boundCoords (sizeXZ sizeY : Int) (center : Coord) (inset : Int) (p : Coord) :
    p ∈ boundCoords sizeXZ sizeY center inset ↔
      (center.x - sizeXZ + inset ≤ p.x ∧ p.x ≤ center.x + sizeXZ - inset) ∧
      (center.y - sizeY + inset ≤ p.y ∧ p.y ≤ center.y + sizeY - inset) ∧
      (center.z - sizeXZ + inset ≤ p.z ∧ p.z ≤ center.z + sizeXZ - inset) := by
  unfold boundCoords
  simp only [List.mem_flatMap, List.mem_map, mem_loopRange]
  constructor
  · rintro ⟨x, hx, y, hy, z, hz, rfl⟩
    exact ⟨hx, hy, hz⟩
  · rintro ⟨hx, hy, hz⟩
    exact ⟨p.x, hx, p.y, hy, p.z, hz, rfl⟩

theorem foldl_invariant {α σ : Type} (P : σ → Prop) (f : σ → α → σ) (l : List α) (init : σ)
    (h0 : P init) (hstep : ∀ s a, a ∈ l → P s → P (f s a)) : P (l.foldl f init) := by
  induction l generalizing init with
  | nil => exact h0
  | cons a l ih =>
    simp only [List.foldl_cons]
    apply ih
    · exact hstep init a (List.mem_cons_self a l) h0
    · intro s b hb hs
      exact hstep s b (List.mem_cons_of_mem a hb) hs

/-! ## Lemmas on `GetChunkNeighbours` -/

theorem neighbourFold_snd (sc : StateCodes) (t : ChunkTable) (p : Coord)
    (l : List (Int × Int × Int)) (acc : List (Option Chunk) × Int) :
    (l.foldl (neighbourStep sc t p) acc).2 = l.foldl (minStep sc t p) acc.2 := by
  induction l generalizing acc with
  | nil => rfl
  | cons o l ih =>
    simp only [List.foldl_cons]
    rw [ih]
    congr 1
    unfold neighbourStep minStep
    cases find t (p.offset o) <;> rfl

theorem toInt_nonneg (sc : StateCodes) (hv : sc.Ascending) (s : State) : 0 ≤ s.toInt sc := by
  obtain ⟨h1, h2, h3, h4⟩ := hv
  cases s <;> simp only [State.toInt] <;> omega

theorem toInt_le_complete (sc : StateCodes) (hv : sc.Ascending) (s : State) :
    s.toInt sc ≤ State.Complete.toInt sc := by
  obtain ⟨h1, h2, h3, h4⟩ := hv
  cases s <;> simp only [State.toInt] <;> omega

theorem toInt_le_iff_rank (sc : StateCodes) (hv : sc.Ascending) (s u : State) :
    s.toInt sc ≤ u.toInt sc ↔ s.rank ≤ u.rank := by
  obtain ⟨h1, h2, h3, h4⟩ := hv
  cases s <;> cases u <;> simp only [State.toInt, State.rank] <;> omega

theorem minFold_zero (sc : StateCodes) (hv : sc.Ascending) (t : ChunkTable) (p : Coord)
    (l : List (Int × Int × Int)) : l.foldl (minStep sc t p) 0 = 0 := by
  induction l with
  | nil => rfl
  | cons o l ih =>
    simp only [List.foldl_cons]
    have h : minStep sc t p 0 o = 0 := by
      unfold minStep
      cases hf : find t (p.offset o) with
      | none => rfl
      | some c =>
        have := toInt_nonneg sc hv c.state
        simp only
        split <;> omega
    rw [h, ih]

theorem minFold_absent (sc : StateCodes) (hv : sc.Ascending) (t : ChunkTable) (p : Coord)
    (l : List (Int × Int × Int)) (m : Int)
    (h : ∃ o ∈ l, find t (p.offset o) = none) : l.foldl (minStep sc t p) m = 0 := by
  induction l generalizing m with
  | nil =>
    obtain ⟨o, ho, _⟩ := h
    cases ho
  | cons a l ih =>
    simp only [List.foldl_cons]
    by_cases ha : find t (p.offset a) = none
    · have h0 : minStep sc t p m a = 0 := by
        unfold minStep
        rw [ha]
      rw [h0]
      exact minFold_zero sc hv t p l
    · apply ih
      obtain ⟨o, ho, hn⟩ := h
      rcases List.mem_cons.mp ho with rfl | ho2
      · exact absurd hn ha
      · exact ⟨o, ho2, hn⟩

theorem minFold_present (sc : StateCodes) (t : ChunkTable) (p : Coord)
    (l : List (Int × Int × Int)) (m : Int)
    (h : ∀ o ∈ l, (find t (p.offset o)).isSome) :
    l.foldl (minStep sc t p) m ≤ m ∧
    (∀ o ∈ l, ∀ c, find t (p.offset o) = some c →
      l.foldl (minStep sc t p) m ≤ c.state.toInt sc) ∧
    (l.foldl (minStep sc t p) m = m ∨
      ∃ o ∈ l, ∃ c, find t (p.offset o) = some c ∧
        l.foldl (minStep sc t p) m = c.state.toInt sc) := by
  induction l generalizing m with
  | nil =>
    refine ⟨le_refl _, ?_, Or.inl rfl⟩
    intro o ho
    cases ho
  | cons a l ih =>
    simp only [List.foldl_cons]
    have ha := h a (List.mem_cons_self a l)
    obtain ⟨ca, hca⟩ := Option.isSome_iff_exists.mp ha
    have hstep : minStep sc t p m a = if m < ca.state.toInt sc then m else ca.state.toInt sc := by
      unfold minStep
      rw [hca]
    obtain ⟨i1, i2, i3⟩ := ih (minStep sc t p m a)
      (fun o ho => h o (List.mem_cons_of_mem a ho))
    have hle1 : minStep sc t p m a ≤ m := by
      rw [hstep]; split <;> omega
    have hle2 : minStep sc t p m a ≤ ca.state.toInt sc := by
      rw [hstep]; split <;> omega
    refine ⟨le_trans i1 hle1, ?_, ?_⟩
    · intro o ho c hc
      rcases List.mem_cons.mp ho with rfl | ho2
      · rw [hca] at hc
        cases hc
        exact le_trans i1 hle2
      · exact i2 o ho2 c hc
    · rcases i3 with h3 | ⟨o, ho, c, hc, h3⟩
      · by_cases hlt : m < ca.state.toInt sc
        · left
          rw [h3, hstep, if_pos hlt]
        · right
          refine ⟨a, List.mem_cons_self a l, ca, hca, ?_⟩
          rw [h3, hstep, if_neg hlt]
      · right
        exact ⟨o, List.mem_cons_of_mem a ho, c, hc, h3⟩

theorem minFold_ge_of (sc : StateCodes) (t : ChunkTable) (p : Coord)
    (l : List (Int × Int × Int)) (m g : Int) (hm : g ≤ m)
    (h : ∀ o ∈ l, ∃ c, find t (p.offset o) = some c ∧ g ≤ c.state.toInt sc) :
    g ≤ l.foldl (minStep sc t p) m := by
  have hall : ∀ o ∈ l, (find t (p.offset o)).isSome := by
    intro o ho
    obtain ⟨c, hc, _⟩ := h o ho
    rw [hc]; rfl
  rcases (minFold_present sc t p l m hall).2.2 with h3 | ⟨o, ho, c, hc, h3⟩
  · rw [h3]; exact hm
  · rw [h3]
    obtain ⟨c2, hc2, hg⟩ := h o ho
    rw [hc] at hc2
    cases hc2
    exact hg

/-! ## C6: the minimum computed by `GetChunkNeighbours` -/

/-- C6 (as amended): called with the running minimum initialised to Complete,
`GetChunkNeighbours` yields 0 if any of the 27 coordinates of the 3x3x3 block, the
centre included, holds no chunk, and otherwise the minimum state among the 27 chunks
of the block, the chunk at the centre included. -/
theorem GetChunkNeighbours_minState (sc : StateCodes) (hv : sc.Ascending) (t : ChunkTable)
    (p : Coord) :
    IsMinStateOver sc t p neighbourOffsets
      (GetChunkNeighbours sc t p (State.Complete.toInt sc)).2 := by
  unfold GetChunkNeighbours
  rw [neighbourFold_snd]
  show IsMinStateOver sc t p neighbourOffsets
    (List.foldl (minStep sc t p) (State.Complete.toInt sc) neighbourOffsets)
  refine ⟨fun h => minFold_absent sc hv t p _ _ h, fun hall => ?_⟩
  obtain ⟨_, h2, h3⟩ := minFold_present sc t p neighbourOffsets (State.Complete.toInt sc) hall
  refine ⟨fun o ho c hc => h2 o ho c hc, ?_⟩
  rcases h3 with h3 | ⟨o, ho, c, hc, h3⟩
  · have h0 : ((0, 0, 0) : Int × Int × Int) ∈ neighbourOffsets := by decide
    obtain ⟨c, hc⟩ := Option.isSome_iff_exists.mp (hall _ h0)
    refine ⟨_, h0, c, hc, ?_⟩
    have hle := h2 _ h0 c hc
    have hge := toInt_le_complete sc hv c.state
    omega
  · exact ⟨o, ho, c, hc, h3⟩

/-- Witness of `GetChunkNeighbours_minState`: the numbering 1, 2, 3, 4 on a full block. -/
theorem GetChunkNeighbours_minState_witness :
    codes1234.Ascending ∧
    IsMinStateOver codes1234 (blockTable State.GridData State.Sampling) ⟨0, 0, 0⟩
      neighbourOffsets
      (GetChunkNeighbours codes1234 (blockTable State.GridData State.Sampling) ⟨0, 0, 0⟩
        (State.Complete.toInt codes1234)).2 :=
  ⟨by decide, GetChunkNeighbours_minState codes1234 (by decide) _ _⟩

/-- C6 (counterexample): with all 27 chunks of the block present, the centre at
GridData and the 26 neighbours at Sampling, `GetChunkNeighbours` yields the code of
GridData, which is not the minimum state among the 26 neighbours. -/
theorem GetChunkNeighbours_minState_counterexample :
    (GetChunkNeighbours codes1234 (blockTable State.GridData State.Sampling) ⟨0, 0, 0⟩
        (State.Complete.toInt codes1234)).2 = State.GridData.toInt codes1234 ∧
    ¬ IsMinStateOver codes1234 (blockTable State.GridData State.Sampling) ⟨0, 0, 0⟩
      block26
      (GetChunkNeighbours codes1234 (blockTable State.GridData State.Sampling) ⟨0, 0, 0⟩
        (State.Complete.toInt codes1234)).2 := by
  decide

/-! ## The gated runner -/

theorem mem_block26 (o : Int × Int × Int) (h : o ∈ block26) : o ∈ neighbourOffsets := by
  unfold block26 at h
  exact (List.mem_filter.mp h).1

theorem runForChunkBody_cases (sc : StateCodes) (newState minState : State)
    (it : World → Coord → Coord → List (Option Chunk) → World) (acc : World × Int)
    (p : Coord) :
    (runForChunkBody sc newState minState it acc p).1 = acc.1 ∨
    ∃ chunk, find acc.1.m_chunks p = some chunk ∧
      chunk.state.toInt sc < newState.toInt sc ∧
      minState.toInt sc ≤
        (GetChunkNeighbours sc acc.1.m_chunks chunk.chunkPosition
          (State.Complete.toInt sc)).2 ∧
      (runForChunkBody sc newState minState it acc p).1 =
        it acc.1 chunk.chunkPosition p
          (GetChunkNeighbours sc acc.1.m_chunks chunk.chunkPosition
            (State.Complete.toInt sc)).1 := by
  unfold runForChunkBody
  cases hf : find acc.1.m_chunks p with
  | none => left; rfl
  | some chunk =>
    simp only
    by_cases h1 : chunk.state.toInt sc ≥ newState.toInt sc
    · left
      rw [if_pos h1]
    · rw [if_neg h1]
      by_cases h2 : (GetChunkNeighbours sc acc.1.m_chunks chunk.chunkPosition
          (State.Complete.toInt sc)).2 ≥ minState.toInt sc
      · right
        refine ⟨chunk, rfl, by omega, h2, ?_⟩
        simp only [if_pos h2]
      · left
        simp only [if_neg h2]

theorem find_TrySamplingPass (w : World) (pos chunk : Coord) (n : List (Option Chunk))
    (q : Coord) :
    find (TrySamplingPass w pos chunk n).m_chunks q =
      if q = chunk then (find w.m_chunks chunk).map (fun c => { c with state := State.Sampling })
      else find w.m_chunks q := by
  unfold TrySamplingPass
  exact find_setState _ _ _ _

theorem chunks_TrySurfacePassAndMesh (cfg : Config) (w : World) (pos chunk : Coord)
    (n : List (Option Chunk)) :
    (TrySurfacePassAndMesh cfg w pos chunk n).m_chunks =
      if (w.m_applyMeshQueue.length : Int) ≥ (cfg.MAX_MESH_IN_APPLY_QUEUE : Int) then
        setState w.m_chunks chunk State.Surface
      else setState (setState w.m_chunks chunk State.Surface) chunk State.Complete := by
  unfold TrySurfacePassAndMesh
  simp only
  split <;> rfl

theorem find_TrySurfacePassAndMesh_ne (cfg : Config) (w : World) (pos chunk : Coord)
    (n : List (Option Chunk)) (q : Coord) (hq : q ≠ chunk) :
    find (TrySurfacePassAndMesh cfg w pos chunk n).m_chunks q = find w.m_chunks q := by
  rw [chunks_TrySurfacePassAndMesh]
  split <;> simp [find_setState, hq]

/-! ## C1: neighbour gating -/

/-- C2: let `TrySurfacePassAndMesh` run on a chunk stored in the table with coordinate
`pos`. If the apply queue holds at least `MAX_MESH_IN_APPLY_QUEUE` entries, then
afterwards the chunk is at Surface, `pos` has been appended to the missing-mesh queue,
no mesh was generated and the apply queue is unchanged. If it holds fewer, then
afterwards the chunk is at Complete, `pos` is the last element of the apply queue
behind the earlier elements, and the missing-mesh queue is unchanged. -/
theorem TrySurfacePassAndMesh_backpressure (cfg : Config) (w : World) (pos chunk : Coord)
    (neighbours : List (Option Chunk)) (c : Chunk) (hc : find w.m_chunks chunk = some c) :
    (cfg.MAX_MESH_IN_APPLY_QUEUE ≤ w.m_applyMeshQueue.length →
      find (TrySurfacePassAndMesh cfg w pos chunk neighbours).m_chunks chunk =
        some { c with state := State.Surface } ∧
      (TrySurfacePassAndMesh cfg w pos chunk neighbours).m_missingMeshQueue =
        w.m_missingMeshQueue ++ [pos] ∧
      (TrySurfacePassAndMesh cfg w pos chunk neighbours).generatedMeshes =
        w.generatedMeshes ∧
      (TrySurfacePassAndMesh cfg w pos chunk neighbours).m_applyMeshQueue =
        w.m_applyMeshQueue) ∧
    (w.m_applyMeshQueue.length < cfg.MAX_MESH_IN_APPLY_QUEUE →
      find (TrySurfacePassAndMesh cfg w pos chunk neighbours).m_chunks chunk =
        some { c with state := State.Complete } ∧
      (TrySurfacePassAndMesh cfg w pos chunk neighbours).m_applyMeshQueue =
        w.m_applyMeshQueue ++ [pos] ∧
      (TrySurfacePassAndMesh cfg w pos chunk neighbours).m_missingMeshQueue =
        w.m_missingMeshQueue) := by
  constructor
  · intro hfull
    have hge : (w.m_applyMeshQueue.length : Int) ≥ (cfg.MAX_MESH_IN_APPLY_QUEUE : Int) := by
      omega
    refine ⟨?_, ?_, ?_, ?_⟩
    · rw [chunks_TrySurfacePassAndMesh, if_pos hge, find_setState, if_pos rfl, hc]
      rfl
    all_goals
      unfold TrySurfacePassAndMesh
      simp only [if_pos hge]
  · intro hfree
    have hlt : ¬ (w.m_applyMeshQueue.length : Int) ≥ (cfg.MAX_MESH_IN_APPLY_QUEUE : Int) := by
      omega
    refine ⟨?_, ?_, ?_⟩
    · rw [chunks_TrySurfacePassAndMesh, if_neg hlt, find_setState, if_pos rfl,
        find_setState, if_pos rfl, hc]
      rfl
    all_goals
      unfold TrySurfacePassAndMesh
      simp only [if_neg hlt]

/-- Witness of `TrySurfacePassAndMesh_backpressure`: scenario 3 of the spec, where the
second chunk is deferred, and the same world with capacity 2, where it is not. -/
theorem TrySurfacePassAndMesh_backpressure_witness :
    (find (TrySurfacePassAndMesh (cfgOf 1) scenario3World ⟨0, 0, 0⟩ ⟨0, 0, 0⟩ []).m_chunks
        ⟨0, 0, 0⟩ = some (chunkAt ⟨0, 0, 0⟩ State.Surface) ∧
      (TrySurfacePassAndMesh (cfgOf 1) scenario3World ⟨0, 0, 0⟩ ⟨0, 0, 0⟩
        []).m_missingMeshQueue = [] ++ [(⟨0, 0, 0⟩ : Coord)] ∧
      (TrySurfacePassAndMesh (cfgOf 1) scenario3World ⟨0, 0, 0⟩ ⟨0, 0, 0⟩
        []).generatedMeshes = [] ∧
      (TrySurfacePassAndMesh (cfgOf 1) scenario3World ⟨0, 0, 0⟩ ⟨0, 0, 0⟩
        []).m_applyMeshQueue = [⟨5, 5, 5⟩]) ∧
    (find (TrySurfacePassAndMesh (cfgOf 2) scenario3World ⟨0, 0, 0⟩ ⟨0, 0, 0⟩ []).m_chunks
        ⟨0, 0, 0⟩ = some (chunkAt ⟨0, 0, 0⟩ State.Complete) ∧
      (TrySurfacePassAndMesh (cfgOf 2) scenario3World ⟨0, 0, 0⟩ ⟨0, 0, 0⟩
        []).m_applyMeshQueue = [⟨5, 5, 5⟩] ++ [(⟨0, 0, 0⟩ : Coord)] ∧
      (TrySurfacePassAndMesh (cfgOf 2) scenario3World ⟨0, 0, 0⟩ ⟨0, 0, 0⟩
        []).m_missingMeshQueue = []) :=
  ⟨(TrySurfacePassAndMesh_backpressure (cfgOf 1) scenario3World ⟨0, 0, 0⟩ ⟨0, 0, 0⟩ []
      (chunkAt ⟨0, 0, 0⟩ State.Sampling) (by decide)).1 (by decide),
   (TrySurfacePassAndMesh_backpressure (cfgOf 2) scenario3World ⟨0, 0, 0⟩ ⟨0, 0, 0⟩ []
      (chunkAt ⟨0, 0, 0⟩ State.Sampling) (by decide)).2 (by decide)⟩

/-! ## C3: the unload pass -/

theorem glmAbs_eq (a : Int) : glmAbs a = |a| := by
  unfold glmAbs
  split
  · rw [abs_of_neg (by assumption)]
  · rw [abs_of_nonneg (by omega)]

theorem glmMax_eq (a b : Int) : glmMax a b = max a b := by
  unfold glmMax
  split
  · rw [max_eq_right (by omega)]
  · rw [max_eq_left (by omega)]

theorem isFar_eq_false_iff (center : Coord) (rXZ rY : Int) (p : Coord) :
    isFar center rXZ rY p = false ↔ InRange center rXZ rY p := by
  unfold isFar InRange
  simp only [glmAbs_eq, glmMax_eq, Bool.or_eq_false_iff, decide_eq_false_iff_not, not_lt,
    gt_iff_lt]

theorem erase_of_find_none (t : ChunkTable) (p : Coord) (h : find t p = none) :
    erase t p = t := by
  unfold erase
  rw [List.filter_eq_self]
  intro e he
  have hn := (find_eq_none_iff t p).mp h
  simp only [ne_eq, decide_not, Bool.not_eq_eq_eq_not, Bool.not_true, decide_eq_false_iff_not]
  intro heq
  apply hn
  rw [← heq]
  exact List.mem_map_of_mem Prod.fst he

theorem chunks_unloadStep (w : World) (pos : Coord) :
    (unloadStep w pos).m_chunks = erase w.m_chunks pos := by
  unfold unloadStep
  cases hf : find w.m_chunks pos with
  | none => exact (erase_of_find_none _ _ hf).symm
  | some c => rfl

theorem chunks_unloadFold (l : List Coord) (w : World) :
    (l.foldl unloadStep w).m_chunks = w.m_chunks.filter (fun e => decide (e.1 ∉ l)) := by
  induction l generalizing w with
  | nil => simp
  | cons a l ih =>
    simp only [List.foldl_cons]
    rw [ih, chunks_unloadStep]
    unfold erase
    rw [List.filter_filter]
    apply List.filter_congr
    intro e _
    by_cases h1 : e.1 = a <;> by_cases h2 : e.1 ∈ l <;> simp [h1, h2]

theorem chunks_UnloadFarChunks (center : Coord) (rXZ rY : Int) (w : World) :
    (UnloadFarChunks center rXZ rY w).m_chunks =
      w.m_chunks.filter (fun e => !isFar center rXZ rY e.1) := by
  unfold UnloadFarChunks
  simp only
  rw [chunks_unloadFold]
  apply List.filter_congr
  intro e he
  by_cases hfar : isFar center rXZ rY e.1 = true
  · have : e.1 ∈ (w.m_chunks.filter (fun e => isFar center rXZ rY e.1)).map Prod.fst :=
      List.mem_map_of_mem Prod.fst (List.mem_filter.mpr ⟨he, hfar⟩)
    simp [this, hfar]
  · have : e.1 ∉ (w.m_chunks.filter (fun e => isFar center rXZ rY e.1)).map Prod.fst := by
      intro hmem
      obtain ⟨e2, he2, heq⟩ := List.mem_map.mp hmem
      have := (List.mem_filter.mp he2).2
      rw [heq] at this
      exact hfar this
    simp [this, hfar]

theorem chunks_UnloadFarChunks_inRange (center : Coord) (rXZ rY : Int) (w : World) :
    (UnloadFarChunks center rXZ rY w).m_chunks =
      w.m_chunks.filter (fun e => decide (InRange center rXZ rY e.1)) := by
  rw [chunks_UnloadFarChunks]
  apply List.filter_congr
  intro e _
  by_cases h : InRange center rXZ rY e.1
  · simp [h, (isFar_eq_false_iff center rXZ rY e.1).mpr h]
  · have : isFar center rXZ rY e.1 = true := by
      by_contra hn
      exact h ((isFar_eq_false_iff center rXZ rY e.1).mp (by simpa using hn))
    simp [h, this]

theorem find_UnloadFarChunks (center : Coord) (rXZ rY : Int) (w : World) (p : Coord) :
    find (UnloadFarChunks center rXZ rY w).m_chunks p =
      if InRange center rXZ rY p then find w.m_chunks p else none := by
  rw [chunks_UnloadFarChunks_inRange,
    find_filter w.m_chunks (fun k => decide (InRange center rXZ rY k)) p]
  by_cases h : InRange center rXZ rY p <;> simp [h]

/-- C3: the table after `UnloadFarChunks(C, rXZ, rY)` is the table before restricted to
the coordinates in range of `C`: the entries in range are kept as they are, in their
order, and a lookup afterwards returns the chunk found before, state unchanged, for a
coordinate in range and nothing for a coordinate out of range. -/
theorem UnloadFarChunks_restricts (center : Coord) (rXZ rY : Int) (w : World) :
    (UnloadFarChunks center rXZ rY w).m_chunks =
      w.m_chunks.filter (fun e => decide (InRange center rXZ rY e.1)) ∧
    ∀ p : Coord, find (UnloadFarChunks center rXZ rY w).m_chunks p =
      if InRange center rXZ rY p then find w.m_chunks p else none :=
  ⟨chunks_UnloadFarChunks_inRange center rXZ rY w,
    fun p => find_UnloadFarChunks center rXZ rY w p⟩

/-! ## C4: states never decrease -/

theorem advances_refl (w : World) : Advances w w :=
  fun _ c h => ⟨c, h, le_refl _⟩

theorem advances_trans {w1 w2 w3 : World} (h12 : Advances w1 w2) (h23 : Advances w2 w3) :
    Advances w1 w3 := by
  intro p c hc
  obtain ⟨c2, hc2, hle2⟩ := h12 p c hc
  obtain ⟨c3, hc3, hle3⟩ := h23 p c2 hc2
  exact ⟨c3, hc3, le_trans hle2 hle3⟩

theorem advances_of_chunks_eq {w w2 : World} (h : w2.m_chunks = w.m_chunks) :
    Advances w w2 := by
  intro p c hc
  exact ⟨c, by rw [h]; exact hc, le_refl _⟩

theorem advances_monotone {w w2 : World} (h : Advances w w2) : StateMonotone w w2 := by
  intro p c c2 hc hc2
  obtain ⟨c3, hc3, hle⟩ := h p c hc
  rw [hc2] at hc3
  cases hc3
  exact hle

/-- Setting the state of the chunk at `p` to `s` advances the world when the chunk
was at or below `s`. -/
theorem advances_setState (w w2 : World) (p : Coord) (s : State)
    (h2 : w2.m_chunks = setState w.m_chunks p s)
    (hle : ∀ c, find w.m_chunks p = some c → c.state.rank ≤ s.rank) : Advances w w2 := by
  intro q c hc
  rw [h2, find_setState]
  by_cases hq : q = p
  · subst hq
    rw [if_pos rfl, hc]
    exact ⟨_, rfl, hle c hc⟩
  · rw [if_neg hq]
    exact ⟨c, hc, le_refl _⟩

theorem toInt_lt_iff_rank (sc : StateCodes) (hv : sc.Ascending) (s u : State) :
    s.toInt sc < u.toInt sc ↔ s.rank < u.rank := by
  obtain ⟨h1, h2, h3, h4⟩ := hv
  cases s <;> cases u <;> simp only [State.toInt, State.rank] <;> omega

theorem rank_le_three (s : State) : s.rank ≤ 3 := by
  cases s <;> simp [State.rank]

theorem chunks_TryCreateAndFillChunk (w : World) (p : Coord) :
    (TryCreateAndFillChunk w p).m_chunks =
      match find w.m_chunks p with
      | some _ => w.m_chunks
      | none => setState (w.m_chunks ++ [(p, chunkAt p State.GridData)]) p State.GridData := by
  unfold TryCreateAndFillChunk
  cases hf : find w.m_chunks p with
  | some c => rfl
  | none =>
    simp only [CreateChunk, insert, hf]
    rfl

theorem find_TryCreateAndFillChunk (w : World) (p q : Coord) :
    find (TryCreateAndFillChunk w p).m_chunks q =
      match find w.m_chunks q with
      | some c => some c
      | none => if q = p then some (chunkAt p State.GridData) else none := by
  rw [chunks_TryCreateAndFillChunk]
  cases hp : find w.m_chunks p with
  | some c =>
    simp only
    cases hq : find w.m_chunks q with
    | some d => rfl
    | none =>
      have : ¬ q = p := by
        intro h
        rw [h, hp] at hq
        cases hq
      simp [this]
  | none =>
    simp only
    rw [find_setState, find_append]
    by_cases h : q = p
    · subst h
      simp [hp, find, chunkAt]
    · have h2 : ¬ p = q := fun e => h e.symm
      rw [if_neg h, find_append]
      cases hq : find w.m_chunks q with
      | some d => rfl
      | none => simp [find, h, h2]

theorem advances_TryCreateAndFillChunk (w : World) (p : Coord) :
    Advances w (TryCreateAndFillChunk w p) := by
  intro q c hc
  rw [find_TryCreateAndFillChunk, hc]
  exact ⟨c, rfl, le_refl _⟩

theorem advances_samplingBody (cfg : Config) (hv : cfg.codes.Ascending) (acc : World × Int)
    (p : Coord) : Advances acc.1 (samplingBody cfg acc p).1 := by
  rcases runForChunkBody_cases cfg.codes State.Sampling State.GridData TrySamplingPass acc p
    with h | ⟨chunk, hf, hlt, _, hrun⟩
  · exact advances_of_chunks_eq (by unfold samplingBody; rw [h])
  · apply advances_setState acc.1 _ p State.Sampling
    · unfold samplingBody
      rw [hrun]
      rfl
    · intro c hc
      rw [hf] at hc
      cases hc
      exact le_of_lt ((toInt_lt_iff_rank cfg.codes hv _ _).mp hlt)

theorem advances_surfaceMeshBody (cfg : Config) (hv : cfg.codes.Ascending) (acc : World × Int)
    (p : Coord) : Advances acc.1 (surfaceMeshBody cfg acc p).1 := by
  rcases runForChunkBody_cases cfg.codes State.Complete State.Sampling
    (TrySurfacePassAndMesh cfg) acc p with h | ⟨chunk, hf, hlt, _, hrun⟩
  · exact advances_of_chunks_eq (by unfold surfaceMeshBody; rw [h])
  · have hr := (toInt_lt_iff_rank cfg.codes hv _ _).mp hlt
    have hr2 : chunk.state.rank ≤ State.Surface.rank := by
      simp only [State.rank] at hr ⊢
      omega
    intro q c hc
    unfold surfaceMeshBody
    rw [hrun, chunks_TrySurfacePassAndMesh]
    by_cases hq : q = p
    · subst hq
      rw [hf] at hc
      cases hc
      split
      · rw [find_setState, if_pos rfl, hf]
        exact ⟨_, rfl, hr2⟩
      · rw [find_setState, if_pos rfl, find_setState, if_pos rfl, hf]
        exact ⟨_, rfl, rank_le_three _⟩
    · split
      · rw [find_setState, if_neg hq]
        exact ⟨c, hc, le_refl _⟩
      · rw [find_setState, if_neg hq, find_setState, if_neg hq]
        exact ⟨c, hc, le_refl _⟩

theorem advances_foldl {α : Type} (f : World × Int → α → World × Int) (l : List α)
    (init : World × Int) (hstep : ∀ acc a, Advances acc.1 (f acc a).1) :
    Advances init.1 (l.foldl f init).1 := by
  apply foldl_invariant (fun s => Advances init.1 s.1) f l init (advances_refl _)
  intro s a _ hs
  exact advances_trans hs (hstep s a)

theorem advances_createPass (boundXZ boundY : Int) (chunkPos : Coord) (w : World) :
    Advances w (createPass boundXZ boundY chunkPos w) := by
  unfold createPass RunInBound
  rw [forBound_eq_foldl]
  exact advances_foldl _ _ (w, 0) (fun acc a => advances_TryCreateAndFillChunk acc.1 a)

theorem advances_samplingPass (cfg : Config) (hv : cfg.codes.Ascending) (boundXZ boundY : Int)
    (chunkPos : Coord) (inset : Int) (w : World) :
    Advances w (samplingPass cfg boundXZ boundY chunkPos inset w) := by
  unfold samplingPass RunForChunkInBound
  rw [forBound_eq_foldl]
  exact advances_foldl _ _ (w, 0) (fun acc a => advances_samplingBody cfg hv acc a)

theorem advances_surfaceMeshPass (cfg : Config) (hv : cfg.codes.Ascending) (boundXZ boundY : Int)
    (chunkPos : Coord) (inset : Int) (w : World) :
    Advances w (surfaceMeshPass cfg boundXZ boundY chunkPos inset w) := by
  unfold surfaceMeshPass RunForChunkInBound
  rw [forBound_eq_foldl]
  exact advances_foldl _ _ (w, 0) (fun acc a => advances_surfaceMeshBody cfg hv acc a)

theorem advances_missingMeshLoop (cfg : Config) (queue : List Coord) (n : Int) (w : World) :
    Advances w (missingMeshLoop cfg queue n w) := by
  induction queue generalizing n w with
  | nil => exact advances_refl w
  | cons pos rest ih =>
    unfold missingMeshLoop
    split
    · have h1 : Advances w { w with m_missingMeshQueue := rest } :=
        advances_of_chunks_eq rfl
      simp only
      split
      · exact advances_trans h1 (ih _ _)
      · split
        · exact advances_trans h1 (ih _ _)
        · split
          · exact advances_trans h1 (ih _ _)
          · refine advances_trans (advances_trans h1 ?_) (ih _ _)
            exact advances_setState _ _ pos State.Complete rfl
              (fun c _ => rank_le_three c.state)
    · exact advances_refl w

theorem advances_applyStep (w : World) (pos : Coord) : Advances w (applyStep w pos) := by
  unfold applyStep
  cases hf : find w.m_chunks pos with
  | none => exact advances_refl w
  | some chunk =>
    simp only
    split
    · exact advances_refl w
    · intro q c hc
      simp only [find_setMesh]
      by_cases hq : q = pos
      · subst hq
        rw [if_pos rfl, hc]
        exact ⟨_, rfl, le_refl _⟩
      · rw [if_neg hq]
        exact ⟨c, hc, le_refl _⟩

theorem advances_OnUpdate (w : World) : Advances w (OnUpdate w) := by
  unfold OnUpdate
  have h : Advances w (w.m_applyMeshQueue.foldl applyStep w) :=
    foldl_invariant (fun s => Advances w s) _ _ w (advances_refl w)
      (fun s a _ hs => advances_trans hs (advances_applyStep s a))
  exact advances_trans h (advances_of_chunks_eq rfl)

theorem advances_OnPlayerMove (cfg : Config) (w : World) (position : Coord) :
    Advances w (OnPlayerMove cfg w position) := by
  unfold OnPlayerMove
  simp only
  split
  · exact advances_refl w
  · exact advances_of_chunks_eq rfl

theorem stateMonotone_unload_after {w w2 : World} (center : Coord) (rXZ rY : Int)
    (h : Advances w w2) : StateMonotone w (UnloadFarChunks center rXZ rY w2) := by
  intro p c c2 hc hc2
  rw [find_UnloadFarChunks center rXZ rY w2 p] at hc2
  split at hc2
  · exact advances_monotone h p c c2 hc hc2
  · cases hc2

theorem advances_pipelinePasses (cfg : Config) (hv : cfg.codes.Ascending) (boundXZ boundY : Int)
    (chunkPos : Coord) (w : World) :
    Advances w (surfaceMeshPass cfg boundXZ boundY chunkPos 2
      (samplingPass cfg boundXZ boundY chunkPos 1 (createPass boundXZ boundY chunkPos w))) :=
  advances_trans (advances_trans (advances_createPass _ _ _ _)
    (advances_samplingPass cfg hv _ _ _ _ _)) (advances_surfaceMeshPass cfg hv _ _ _ _ _)

/-- C4: every operation of the system (create pass, sampling pass, surface and mesh
pass, missing-mesh retry, unload pass, `OnUpdate`, `OnPlayerMove`, and a whole pipeline
cycle or thread iteration) leaves every chunk that is in the table before and after
at a state at or after its state before, in the order GridData, Sampling, Surface,
Complete. -/
theorem state_monotone (cfg : Config) (hv : cfg.codes.Ascending) (w : World) :
    (∀ (boundXZ boundY : Int) (chunkPos : Coord),
      StateMonotone w (createPass boundXZ boundY chunkPos w)) ∧
    (∀ (boundXZ boundY : Int) (chunkPos : Coord) (inset : Int),
      StateMonotone w (samplingPass cfg boundXZ boundY chunkPos inset w)) ∧
    (∀ (boundXZ boundY : Int) (chunkPos : Coord) (inset : Int),
      StateMonotone w (surfaceMeshPass cfg boundXZ boundY chunkPos inset w)) ∧
    StateMonotone w (TryGeneratingMissingMesh cfg w) ∧
    (∀ (center : Coord) (maxRangeXZ maxRangeY : Int),
      StateMonotone w (UnloadFarChunks center maxRangeXZ maxRangeY w)) ∧
    StateMonotone w (OnUpdate w) ∧
    (∀ position : Coord, StateMonotone w (OnPlayerMove cfg w position)) ∧
    (∀ boundXZ boundY : Int, StateMonotone w (pipelineCycle cfg boundXZ boundY w)) ∧
    (∀ boundXZ boundY : Int, StateMonotone w (threadIteration cfg boundXZ boundY w)) := by
  have hretry : StateMonotone w (TryGeneratingMissingMesh cfg w) :=
    advances_monotone (advances_missingMeshLoop cfg _ _ w)
  have hcycle : ∀ boundXZ boundY : Int,
      StateMonotone w (pipelineCycle cfg boundXZ boundY w) := by
    intro boundXZ boundY
    unfold pipelineCycle
    apply stateMonotone_unload_after
    exact advances_trans (@advances_of_chunks_eq w { w with m_chunkPosChangedSync := false } rfl)
      (advances_pipelinePasses cfg hv boundXZ boundY _ _)
  refine ⟨fun _ _ _ => advances_monotone (advances_createPass _ _ _ w),
    fun _ _ _ _ => advances_monotone (advances_samplingPass cfg hv _ _ _ _ w),
    fun _ _ _ _ => advances_monotone (advances_surfaceMeshPass cfg hv _ _ _ _ w),
    hretry,
    fun _ _ _ => stateMonotone_unload_after _ _ _ (advances_refl w),
    advances_monotone (advances_OnUpdate w),
    fun _ => advances_monotone (advances_OnPlayerMove cfg w _),
    hcycle, ?_⟩
  intro boundXZ boundY
  unfold threadIteration
  split
  · exact hretry
  · exact hcycle boundXZ boundY

/-- Witness of `state_monotone`: the sampling pass on a full block at GridData moves the
centre from GridData to Sampling. -/
theorem state_monotone_witness :
    (cfgOf 1).codes.Ascending ∧
    find (worldOf (blockTable State.GridData State.GridData)).m_chunks ⟨0, 0, 0⟩ =
      some (chunkAt ⟨0, 0, 0⟩ State.GridData) ∧
    find (samplingPass (cfgOf 1) 0 0 ⟨0, 0, 0⟩ 0
      (worldOf (blockTable State.GridData State.GridData))).m_chunks ⟨0, 0, 0⟩ =
      some (chunkAt ⟨0, 0, 0⟩ State.Sampling) ∧
    (chunkAt ⟨0, 0, 0⟩ State.GridData).state.rank ≤
      (chunkAt ⟨0, 0, 0⟩ State.Sampling).state.rank :=
  ⟨by decide, by decide, by decide,
    (state_monotone (cfgOf 1) (by decide)
      (worldOf (blockTable State.GridData State.GridData))).2.1 0 0 ⟨0, 0, 0⟩ 0 ⟨0, 0, 0⟩
      (chunkAt ⟨0, 0, 0⟩ State.GridData) (chunkAt ⟨0, 0, 0⟩ State.Sampling)
      (by decide) (by decide)⟩

/-! ## C5: the apply queue never exceeds its capacity -/

theorem queueBounded_of_eq (cfg : Config) {w w2 : World}
    (h : w2.m_applyMeshQueue = w.m_applyMeshQueue) (hb : QueueBounded cfg w) :
    QueueBounded cfg w2 := by
  unfold QueueBounded at *
  rw [h]
  exact hb

theorem queueBounded_TrySurfacePassAndMesh (cfg : Config) (w : World) (pos chunk : Coord)
    (n : List (Option Chunk)) (hb : QueueBounded cfg w) :
    QueueBounded cfg (TrySurfacePassAndMesh cfg w pos chunk n) := by
  unfold QueueBounded at *
  unfold TrySurfacePassAndMesh
  simp only
  split
  · exact hb
  · simp only [List.length_append, List.length_singleton]
    omega

theorem applyQueue_TrySamplingPass (w : World) (pos chunk : Coord) (n : List (Option Chunk)) :
    (TrySamplingPass w pos chunk n).m_applyMeshQueue = w.m_applyMeshQueue := rfl

theorem applyQueue_TryCreateAndFillChunk (w : World) (p : Coord) :
    (TryCreateAndFillChunk w p).m_applyMeshQueue = w.m_applyMeshQueue := by
  unfold TryCreateAndFillChunk
  cases find w.m_chunks p <;> rfl

theorem queueBounded_createPass (cfg : Config) (boundXZ boundY : Int) (chunkPos : Coord)
    (w : World) (hb : QueueBounded cfg w) :
    QueueBounded cfg (createPass boundXZ boundY chunkPos w) := by
  unfold createPass RunInBound
  rw [forBound_eq_foldl]
  apply foldl_invariant (fun s : World × Int => QueueBounded cfg s.1) _ _ (w, 0) hb
  intro s a _ hs
  exact queueBounded_of_eq cfg (applyQueue_TryCreateAndFillChunk s.1 a) hs

theorem queueBounded_samplingPass (cfg : Config) (boundXZ boundY : Int) (chunkPos : Coord)
    (inset : Int) (w : World) (hb : QueueBounded cfg w) :
    QueueBounded cfg (samplingPass cfg boundXZ boundY chunkPos inset w) := by
  unfold samplingPass RunForChunkInBound
  rw [forBound_eq_foldl]
  apply foldl_invariant (fun s : World × Int => QueueBounded cfg s.1) _ _ (w, 0) hb
  intro s a _ hs
  rcases runForChunkBody_cases cfg.codes State.Sampling State.GridData TrySamplingPass s a
    with h | ⟨chunk, _, _, _, hrun⟩
  · simp only [h]
    exact hs
  · simp only [hrun]
    exact queueBounded_of_eq cfg (applyQueue_TrySamplingPass _ _ _ _) hs

theorem queueBounded_surfaceMeshPass (cfg : Config) (boundXZ boundY : Int) (chunkPos : Coord)
    (inset : Int) (w : World) (hb : QueueBounded cfg w) :
    QueueBounded cfg (surfaceMeshPass cfg boundXZ boundY chunkPos inset w) := by
  unfold surfaceMeshPass RunForChunkInBound
  rw [forBound_eq_foldl]
  apply foldl_invariant (fun s : World × Int => QueueBounded cfg s.1) _ _ (w, 0) hb
  intro s a _ hs
  rcases runForChunkBody_cases cfg.codes State.Complete State.Sampling
    (TrySurfacePassAndMesh cfg) s a with h | ⟨chunk, _, _, _, hrun⟩
  · simp only [h]
    exact hs
  · simp only [hrun]
    exact queueBounded_TrySurfacePassAndMesh cfg _ _ _ _ hs

theorem queueBounded_missingMeshLoop (cfg : Config) (queue : List Coord) (n : Int)
    (w : World) (hn : n = (w.m_applyMeshQueue.length : Int)) (hb : QueueBounded cfg w) :
    QueueBounded cfg (missingMeshLoop cfg queue n w) := by
  induction queue generalizing n w with
  | nil => exact hb
  | cons pos rest ih =>
    unfold missingMeshLoop
    split
    · rename_i hlt
      simp only
      split
      · exact ih _ _ hn hb
      · split
        · exact ih _ _ hn hb
        · split
          · exact ih _ _ hn hb
          · apply ih
            · simp only [List.length_append, List.length_singleton, Nat.cast_add,
                Nat.cast_one, hn]
            · unfold QueueBounded at *
              simp only [List.length_append, List.length_singleton]
              omega
    · exact hb

theorem queueBounded_TryGeneratingMissingMesh (cfg : Config) (w : World)
    (hb : QueueBounded cfg w) : QueueBounded cfg (TryGeneratingMissingMesh cfg w) :=
  queueBounded_missingMeshLoop cfg _ _ w rfl hb

theorem applyQueue_unloadFold (l : List Coord) (w : World) :
    (l.foldl unloadStep w).m_applyMeshQueue = w.m_applyMeshQueue := by
  apply foldl_invariant (fun s : World => s.m_applyMeshQueue = w.m_applyMeshQueue) _ _ w rfl
  intro s a _ hs
  rw [← hs]
  unfold unloadStep
  cases find s.m_chunks a <;> rfl

theorem queueBounded_UnloadFarChunks (cfg : Config) (center : Coord) (rXZ rY : Int)
    (w : World) (hb : QueueBounded cfg w) :
    QueueBounded cfg (UnloadFarChunks center rXZ rY w) :=
  queueBounded_of_eq cfg (applyQueue_unloadFold _ w) hb

theorem queueBounded_OnUpdate (cfg : Config) (w : World) : QueueBounded cfg (OnUpdate w) := by
  unfold QueueBounded OnUpdate
  simp

theorem queueBounded_OnPlayerMove (cfg : Config) (w : World) (position : Coord)
    (hb : QueueBounded cfg w) : QueueBounded cfg (OnPlayerMove cfg w position) := by
  unfold OnPlayerMove
  simp only
  split
  · exact hb
  · exact hb

theorem queueBounded_pipelineCycle (cfg : Config) (boundXZ boundY : Int) (w : World)
    (hb : QueueBounded cfg w) : QueueBounded cfg (pipelineCycle cfg boundXZ boundY w) := by
  unfold pipelineCycle
  apply queueBounded_UnloadFarChunks
  apply queueBounded_surfaceMeshPass
  apply queueBounded_samplingPass
  apply queueBounded_createPass
  exact hb

theorem queueBounded_applyOp (cfg : Config) (boundXZ boundY : Int) (w : World) (op : Op)
    (hb : QueueBounded cfg w) : QueueBounded cfg (applyOp cfg boundXZ boundY w op) := by
  cases op with
  | playerMove position => exact queueBounded_OnPlayerMove cfg w position hb
  | threadStep =>
    show QueueBounded cfg (threadIteration cfg boundXZ boundY w)
    unfold threadIteration
    split
    · exact queueBounded_TryGeneratingMissingMesh cfg w hb
    · exact queueBounded_pipelineCycle cfg boundXZ boundY w hb
  | update => exact queueBounded_OnUpdate cfg w

/-- C5: if the apply queue holds at most `MAX_MESH_IN_APPLY_QUEUE` coordinates before, it
still does after `TrySurfacePassAndMesh`, after a whole surface and mesh pass, after
`TryGeneratingMissingMesh` and after `OnUpdate`; and in every world reachable from the
initial world (empty table, empty queues) by `OnPlayerMove`, thread iterations and
`OnUpdate` the apply queue holds at most `MAX_MESH_IN_APPLY_QUEUE` coordinates. -/
theorem applyQueue_bounded (cfg : Config) :
    (∀ w : World, QueueBounded cfg w →
      (∀ (pos chunk : Coord) (neighbours : List (Option Chunk)),
        QueueBounded cfg (TrySurfacePassAndMesh cfg w pos chunk neighbours)) ∧
      (∀ (boundXZ boundY : Int) (chunkPos : Coord) (inset : Int),
        QueueBounded cfg (surfaceMeshPass cfg boundXZ boundY chunkPos inset w)) ∧
      QueueBounded cfg (TryGeneratingMissingMesh cfg w) ∧
      QueueBounded cfg (OnUpdate w)) ∧
    (∀ (boundXZ boundY : Int) (w : World), Reachable cfg boundXZ boundY w →
      QueueBounded cfg w) := by
  constructor
  · intro w hb
    exact ⟨fun pos chunk n => queueBounded_TrySurfacePassAndMesh cfg w pos chunk n hb,
      fun boundXZ boundY chunkPos inset =>
        queueBounded_surfaceMeshPass cfg boundXZ boundY chunkPos inset w hb,
      queueBounded_TryGeneratingMissingMesh cfg w hb, queueBounded_OnUpdate cfg w⟩
  · rintro boundXZ boundY w ⟨l, s, b, ops, rfl⟩
    unfold runOps
    apply foldl_invariant (fun s : World => QueueBounded cfg s) _ _ _
    · unfold QueueBounded initWorld
      simp
    · intro s a _ hs
      exact queueBounded_applyOp cfg boundXZ boundY s a hs

/-- Witness of `applyQueue_bounded`: scenario 3 of the spec (capacity 1, one entry
queued), and the world reached by a move of the observer followed by one pipeline
cycle with bounds (2, 2). -/
theorem applyQueue_bounded_witness :
    QueueBounded (cfgOf 1) scenario3World ∧
    QueueBounded (cfgOf 1) (TrySurfacePassAndMesh (cfgOf 1) scenario3World ⟨0, 0, 0⟩ ⟨0, 0, 0⟩ []) ∧
    QueueBounded (cfgOf 1)
      (runOps (cfgOf 1) 2 2 [Op.playerMove ⟨40, 0, 0⟩, Op.threadStep]
        (initWorld ⟨0, 0, 0⟩ ⟨0, 0, 0⟩ false)) :=
  ⟨by decide,
    ((applyQueue_bounded (cfgOf 1)).1 scenario3World (by decide)).1 ⟨0, 0, 0⟩ ⟨0, 0, 0⟩ [],
    (applyQueue_bounded (cfgOf 1)).2 2 2 _ ⟨⟨0, 0, 0⟩, ⟨0, 0, 0⟩, false, _, rfl⟩⟩

/-! ## C7: the sampling pass on a single chunk -/

theorem find_samplingBody_ne (cfg : Config) (acc : World × Int) (a q : Coord) (h : q ≠ a) :
    find (samplingBody cfg acc a).1.m_chunks q = find acc.1.m_chunks q := by
  rcases runForChunkBody_cases cfg.codes State.Sampling State.GridData TrySamplingPass acc a
    with h1 | ⟨chunk, _, _, _, hrun⟩
  · unfold samplingBody
    rw [h1]
  · unfold samplingBody
    rw [hrun, find_TrySamplingPass, if_neg h]

theorem offset_zero (p : Coord) : p.offset (0, 0, 0) = p := by
  unfold Coord.offset
  simp

theorem mem_neighbourOffsets_cases (o : Int × Int × Int) (h : o ∈ neighbourOffsets) :
    o = (0, 0, 0) ∨ o ∈ block26 := by
  by_cases h0 : o = (0, 0, 0)
  · exact Or.inl h0
  · right
    unfold block26
    exact List.mem_filter.mpr ⟨h, by simpa using h0⟩

/-- The gate of `RunForChunkInBound` is open when the chunk and its 26 neighbours are
present and the neighbours are at `minState` or later, the chunk too. -/
theorem gate_open_of_ready (sc : StateCodes) (hv : sc.Ascending) (t : ChunkTable) (p : Coord)
    (minState : State) (c : Chunk) (hc : find t p = some c)
    (hself : minState.rank ≤ c.state.rank) (hready : NeighboursReady t p minState) :
    minState.toInt sc ≤ (GetChunkNeighbours sc t p (State.Complete.toInt sc)).2 := by
  unfold GetChunkNeighbours
  rw [neighbourFold_snd]
  apply minFold_ge_of sc t p neighbourOffsets _ _ (toInt_le_complete sc hv minState)
  intro o ho
  rcases mem_neighbourOffsets_cases o ho with h0 | h26
  · subst h0
    rw [offset_zero]
    exact ⟨c, hc, (toInt_le_iff_rank sc hv _ _).mpr hself⟩
  · obtain ⟨d, hd, hle⟩ := hready o h26
    exact ⟨d, hd, (toInt_le_iff_rank sc hv _ _).mpr hle⟩

theorem neighboursReady_gridData_of_advances {w w2 : World} (h : Advances w w2) (p : Coord)
    (hready : NeighboursReady w.m_chunks p State.GridData) :
    NeighboursReady w2.m_chunks p State.GridData := by
  intro o ho
  obtain ⟨d, hd, _⟩ := hready o ho
  obtain ⟨d2, hd2, _⟩ := h _ d hd
  exact ⟨d2, hd2, Nat.zero_le _⟩

/-- The sampling step at `p` on a chunk at GridData whose neighbours are present. -/
theorem samplingBody_promotes (cfg : Config) (hv : cfg.codes.Ascending) (acc : World × Int)
    (p : Coord) (c : Chunk) (hc : find acc.1.m_chunks p = some c) (hpos : c.chunkPosition = p)
    (hstate : c.state = State.GridData)
    (hready : NeighboursReady acc.1.m_chunks p State.GridData) :
    find (samplingBody cfg acc p).1.m_chunks p = some { c with state := State.Sampling } := by
  subst hpos
  have hlt : ¬ c.state.toInt cfg.codes ≥ State.Sampling.toInt cfg.codes := by
    rw [hstate]
    have := hv.2.1
    simp only [State.toInt]
    omega
  have hgate := gate_open_of_ready cfg.codes hv acc.1.m_chunks _ State.GridData c hc
    (Nat.zero_le _) hready
  unfold samplingBody runForChunkBody
  rw [hc]
  simp only [if_neg hlt]
  rw [if_pos hgate, find_TrySamplingPass, if_pos rfl, hc]
  rfl

/-- The sampling step leaves a chunk that is at Sampling as it is. -/
theorem samplingBody_keeps_sampled (cfg : Config) (acc : World × Int) (a p : Coord)
    (c : Chunk) (hc : find acc.1.m_chunks p = some c) (hstate : c.state = State.Sampling) :
    find (samplingBody cfg acc a).1.m_chunks p = some c := by
  by_cases hq : p = a
  · subst hq
    unfold samplingBody runForChunkBody
    rw [hc]
    simp only [hstate, ge_iff_le, le_refl, if_true]
    exact hc
  · rw [find_samplingBody_ne cfg acc a p hq]
    exact hc

theorem createPass_eq_foldl (boundXZ boundY : Int) (chunkPos : Coord) (w : World) :
    createPass boundXZ boundY chunkPos w =
      ((boundCoords boundXZ boundY chunkPos 0).foldl createBody (w, 0)).1 := by
  unfold createPass RunInBound
  rw [forBound_eq_foldl]
  rfl

theorem TryCreateAndFillChunk_of_present (w : World) (p : Coord)
    (h : (find w.m_chunks p).isSome) : TryCreateAndFillChunk w p = w := by
  unfold TryCreateAndFillChunk
  cases hf : find w.m_chunks p with
  | some c => rfl
  | none =>
    rw [hf] at h
    cases h

theorem present_TryCreateAndFillChunk (w : World) (p : Coord) :
    (find (TryCreateAndFillChunk w p).m_chunks p).isSome := by
  rw [find_TryCreateAndFillChunk]
  cases find w.m_chunks p with
  | some c => rfl
  | none => simp

theorem present_of_advances {w w2 : World} (h : Advances w w2) (p : Coord)
    (hp : (find w.m_chunks p).isSome) : (find w2.m_chunks p).isSome := by
  obtain ⟨c, hc⟩ := Option.isSome_iff_exists.mp hp
  obtain ⟨c2, hc2, _⟩ := h p c hc
  rw [hc2]
  rfl

theorem advances_createFold (l : List Coord) (acc : World × Int) :
    Advances acc.1 (l.foldl createBody acc).1 :=
  advances_foldl createBody l acc (fun s a => advances_TryCreateAndFillChunk s.1 a)

/-- After the create loop every visited coordinate holds a chunk. -/
theorem present_createFold (l : List Coord) (acc : World × Int) (p : Coord) (hp : p ∈ l) :
    (find (l.foldl createBody acc).1.m_chunks p).isSome := by
  induction l generalizing acc with
  | nil => cases hp
  | cons a l ih =>
    simp only [List.foldl_cons]
    rcases List.mem_cons.mp hp with rfl | hl
    · exact present_of_advances (advances_createFold l (createBody acc p)) p
        (present_TryCreateAndFillChunk acc.1 p)
    · exact ih _ hl

/-- The create loop changes nothing when every visited coordinate holds a chunk. -/
theorem createFold_of_present (l : List Coord) (acc : World × Int)
    (h : ∀ p ∈ l, (find acc.1.m_chunks p).isSome) :
    (l.foldl createBody acc).1 = acc.1 := by
  apply foldl_invariant (fun s : World × Int => s.1 = acc.1) createBody l acc rfl
  intro s a ha hs
  show TryCreateAndFillChunk s.1 a = acc.1
  rw [hs]
  exact TryCreateAndFillChunk_of_present acc.1 a (h a ha)

theorem keysNodup_TryCreateAndFillChunk (w : World) (p : Coord) (h : KeysNodup w.m_chunks) :
    KeysNodup (TryCreateAndFillChunk w p).m_chunks := by
  unfold KeysNodup at *
  rw [chunks_TryCreateAndFillChunk]
  cases hf : find w.m_chunks p with
  | some c => exact h
  | none =>
    simp only [keys_setState, List.map_append, List.map_cons, List.map_nil]
    rw [List.nodup_append]
    refine ⟨h, List.nodup_singleton p, ?_⟩
    intro q hq hq2
    rw [List.mem_singleton] at hq2
    subst hq2
    exact (find_eq_none_iff _ _).mp hf hq

theorem keysNodup_createPass (boundXZ boundY : Int) (chunkPos : Coord) (w : World)
    (h : KeysNodup w.m_chunks) : KeysNodup (createPass boundXZ boundY chunkPos w).m_chunks := by
  rw [createPass_eq_foldl]
  apply foldl_invariant (fun s : World × Int => KeysNodup s.1.m_chunks) createBody _ (w, 0) h
  intro s a _ hs
  exact keysNodup_TryCreateAndFillChunk s.1 a hs

/-- C8: running the create pass a second time over the same bound changes nothing: the
world, and so the table, is exactly as after the first run. A create pass leaves every
chunk that already existed as it was, and a table without duplicate coordinates has
none afterwards. -/
theorem create_pass_idempotent (sizeXZ sizeY : Int) (center : Coord) (w : World) :
    createPass sizeXZ sizeY center (createPass sizeXZ sizeY center w) =
      createPass sizeXZ sizeY center w ∧
    (∀ (p : Coord) (c : Chunk), find w.m_chunks p = some c →
      find (createPass sizeXZ sizeY center w).m_chunks p = some c) ∧
    (KeysNodup w.m_chunks → KeysNodup (createPass sizeXZ sizeY center w).m_chunks) := by
  refine ⟨?_, ?_, keysNodup_createPass sizeXZ sizeY center w⟩
  · rw [createPass_eq_foldl sizeXZ sizeY center (createPass sizeXZ sizeY center w)]
    apply createFold_of_present
    intro p hp
    show (find (createPass sizeXZ sizeY center w).m_chunks p).isSome
    rw [createPass_eq_foldl]
    exact present_createFold _ _ p hp
  · intro p c hc
    rw [createPass_eq_foldl]
    have h : ∀ q d, find w.m_chunks q = some d →
        find ((boundCoords sizeXZ sizeY center 0).foldl createBody (w, 0)).1.m_chunks q =
          some d := by
      apply foldl_invariant (fun s : World × Int =>
        ∀ q d, find w.m_chunks q = some d → find s.1.m_chunks q = some d) createBody
      · exact fun _ _ h => h
      · intro s a _ hs q d hd
        show find (TryCreateAndFillChunk s.1 a).m_chunks q = some d
        rw [find_TryCreateAndFillChunk, hs q d hd]
    exact h p c hc

/-- Witness of `create_pass_idempotent`: a table holding one chunk at Sampling; the
create pass with sizes (1, 0) around the origin keeps that chunk and adds 8 others. -/
theorem create_pass_idempotent_witness :
    find (createPass 1 0 ⟨0, 0, 0⟩
        (worldOf [((⟨0, 0, 0⟩ : Coord), chunkAt ⟨0, 0, 0⟩ State.Sampling)])).m_chunks
        ⟨0, 0, 0⟩ = some (chunkAt ⟨0, 0, 0⟩ State.Sampling) ∧
    KeysNodup (createPass 1 0 ⟨0, 0, 0⟩
        (worldOf [((⟨0, 0, 0⟩ : Coord), chunkAt ⟨0, 0, 0⟩ State.Sampling)])).m_chunks ∧
    (createPass 1 0 ⟨0, 0, 0⟩
        (worldOf [((⟨0, 0, 0⟩ : Coord), chunkAt ⟨0, 0, 0⟩ State.Sampling)])).m_chunks.length
      = 9 :=
  ⟨(create_pass_idempotent 1 0 ⟨0, 0, 0⟩ _).2.1 ⟨0, 0, 0⟩ _ (by decide),
    (create_pass_idempotent 1 0 ⟨0, 0, 0⟩ _).2.2 (by decide), by decide⟩

/-! ## Lemmas on the visited coordinates -/

theorem nodup_loopRange (lo hi : Int) : (loopRange lo hi).Nodup := by
  unfold loopRange
  apply List.Nodup.map _ (List.nodup_range _)
  intro a b h
  simp only at h
  omega

theorem length_loopRange (lo hi : Int) : (loopRange lo hi).length = (hi + 1 - lo).toNat := by
  unfold loopRange
  simp

theorem length_flatMap_const {α β : Type} (l : List α) (f : α → List β) (n : Nat)
    (h : ∀ a ∈ l, (f a).length = n) : (l.flatMap f).length = l.length * n := by
  induction l with
  | nil => simp
  | cons a l ih =>
    rw [List.flatMap_cons, List.length_append, h a (List.mem_cons_self a l),
      ih (fun b hb => h b (List.mem_cons_of_mem a hb)), List.length_cons]
    ring

theorem nodup_boundCoords (sizeXZ sizeY : Int) (center : Coord) (inset : Int) :
    (boundCoords sizeXZ sizeY center inset).Nodup := by
  unfold boundCoords
  rw [List.nodup_flatMap]
  refine ⟨fun x _ => ?_, ?_⟩
  · rw [List.nodup_flatMap]
    refine ⟨fun y _ => ?_, ?_⟩
    · apply List.Nodup.map _ (nodup_loopRange _ _)
      intro a b h
      simp only [Coord.mk.injEq, true_and] at h
      exact h
    · apply List.Pairwise.imp _ (nodup_loopRange _ _)
      intro a b hab
      simp only [Function.onFun, List.disjoint_left, List.mem_map]
      rintro p ⟨z1, _, rfl⟩ ⟨z2, _, h2⟩
      simp only [Coord.mk.injEq] at h2
      exact hab h2.2.1.symm
  · apply List.Pairwise.imp _ (nodup_loopRange _ _)
    intro a b hab
    simp only [Function.onFun, List.disjoint_left, List.mem_flatMap, List.mem_map]
    rintro p ⟨y1, _, z1, _, rfl⟩ ⟨y2, _, z2, _, h2⟩
    simp only [Coord.mk.injEq] at h2
    exact hab h2.1.symm

theorem length_boundCoords (sizeXZ sizeY : Int) (center : Coord) (inset : Int) :
    (boundCoords sizeXZ sizeY center inset).length =
      (center.x + sizeXZ - inset + 1 - (center.x - sizeXZ + inset)).toNat *
        ((center.y + sizeY - inset + 1 - (center.y - sizeY + inset)).toNat *
          (center.z + sizeXZ - inset + 1 - (center.z - sizeXZ + inset)).toNat) := by
  unfold boundCoords
  rw [length_flatMap_const _ _ _ (fun x _ => length_flatMap_const _ _ _ (fun y _ => by
    rw [List.length_map, length_loopRange]))]
  rw [length_loopRange, length_loopRange]

theorem mem_boundCoords_zero (sizeXZ sizeY : Int) (center p : Coord) :
    p ∈ boundCoords sizeXZ sizeY center 0 ↔ InCuboid center sizeXZ sizeY p := by
  rw [mem_boundCoords]
  unfold InCuboid
  simp only [add_zero, sub_zero]

/-! ## C9: the table after one cycle from an empty table -/

theorem keys_runForChunkFold (sc : StateCodes) (newState minState : State)
    (it : World → Coord → Coord → List (Option Chunk) → World)
    (hit : ∀ w pos chunk n, (it w pos chunk n).m_chunks.map Prod.fst = w.m_chunks.map Prod.fst)
    (l : List Coord) (acc : World × Int) :
    (l.foldl (runForChunkBody sc newState minState it) acc).1.m_chunks.map Prod.fst =
      acc.1.m_chunks.map Prod.fst := by
  apply foldl_invariant (fun s : World × Int =>
    s.1.m_chunks.map Prod.fst = acc.1.m_chunks.map Prod.fst) _ l acc rfl
  intro s a _ hs
  rcases runForChunkBody_cases sc newState minState it s a with h | ⟨chunk, _, _, _, hrun⟩
  · rw [h]
    exact hs
  · rw [hrun, hit]
    exact hs

theorem keys_samplingPass (cfg : Config) (boundXZ boundY : Int) (chunkPos : Coord)
    (inset : Int) (w : World) :
    (samplingPass cfg boundXZ boundY chunkPos inset w).m_chunks.map Prod.fst =
      w.m_chunks.map Prod.fst := by
  unfold samplingPass RunForChunkInBound
  rw [forBound_eq_foldl]
  apply keys_runForChunkFold
  intro w pos chunk n
  exact keys_setState _ _ _

theorem keys_surfaceMeshPass (cfg : Config) (boundXZ boundY : Int) (chunkPos : Coord)
    (inset : Int) (w : World) :
    (surfaceMeshPass cfg boundXZ boundY chunkPos inset w).m_chunks.map Prod.fst =
      w.m_chunks.map Prod.fst := by
  unfold surfaceMeshPass RunForChunkInBound
  rw [forBound_eq_foldl]
  apply keys_runForChunkFold
  intro w pos chunk n
  rw [chunks_TrySurfacePassAndMesh]
  split <;> simp only [keys_setState]

theorem isSome_find_createFold (l : List Coord) (acc : World × Int) (p : Coord) :
    (find (l.foldl createBody acc).1.m_chunks p).isSome ↔
      (find acc.1.m_chunks p).isSome ∨ p ∈ l := by
  induction l generalizing acc with
  | nil => simp
  | cons a l ih =>
    rw [List.foldl_cons, ih]
    show (find (TryCreateAndFillChunk acc.1 a).m_chunks p).isSome ∨ p ∈ l ↔ _
    rw [find_TryCreateAndFillChunk]
    cases hf : find acc.1.m_chunks p with
    | some c => simp
    | none =>
      by_cases hpa : p = a
      · simp [hpa]
      · simp [hpa]

/-- The keys of the table after the three passes of a cycle. -/
theorem keys_pipelinePasses (cfg : Config) (boundXZ boundY : Int) (chunkPos : Coord)
    (w : World) :
    (surfaceMeshPass cfg boundXZ boundY chunkPos 2 (samplingPass cfg boundXZ boundY chunkPos 1
      (createPass boundXZ boundY chunkPos w))).m_chunks.map Prod.fst =
      (createPass boundXZ boundY chunkPos w).m_chunks.map Prod.fst := by
  rw [keys_surfaceMeshPass, keys_samplingPass]

/-- The table after a cycle is the table after its three passes restricted to the
unload range. -/
theorem chunks_pipelineCycle (cfg : Config) (boundXZ boundY : Int) (w : World) :
    (pipelineCycle cfg boundXZ boundY w).m_chunks =
      (surfaceMeshPass cfg boundXZ boundY w.m_lastChunkPosSync 2
        (samplingPass cfg boundXZ boundY w.m_lastChunkPosSync 1
          (createPass boundXZ boundY w.m_lastChunkPosSync
            { w with m_chunkPosChangedSync := false }))).m_chunks.filter
        (fun e => decide (InRange w.m_lastChunkPosSync (boundXZ + 1) (boundXZ + 1) e.1)) := by
  unfold pipelineCycle
  exact chunks_UnloadFarChunks_inRange _ _ _ _

theorem isSome_find_of_keys_eq {t u : ChunkTable} (h : t.map Prod.fst = u.map Prod.fst)
    (p : Coord) : (find t p).isSome ↔ (find u p).isSome := by
  rw [find_isSome_iff, find_isSome_iff, h]

/-- Remark on C10: the vertical radius `boundXZ + 1` of the unload pass shows in a cycle
of its own once `sizeY > sizeXZ + 1`, sizes that `ThreadUpdate` does not use. With sizes
(0, 2) around the origin the cuboid has 5 coordinates, and after one cycle from an empty
table 3 chunks remain: the unload pass removes (0,2,0) and (0,-2,0). -/
theorem cycle_unload_cuts_tall_cuboid :
    (worldOf []).m_chunks = [] ∧
    (pipelineCycle (cfgOf 1) 0 2 (worldOf [])).m_chunks.length = 3 ∧
    InCuboid ⟨0, 0, 0⟩ 0 2 ⟨0, 2, 0⟩ ∧
    find (pipelineCycle (cfgOf 1) 0 2 (worldOf [])).m_chunks ⟨0, 2, 0⟩ = none ∧
    ¬ CycleFillsCuboid (cfgOf 1) 0 2 (worldOf []) :=
  ⟨rfl, by decide, by decide, by decide, fun h => absurd h.2 (by decide)⟩

/-! ## C10: the unload region of a cycle -/

theorem sameObserver_refl (w : World) : SameObserver w w := ⟨rfl, rfl, rfl⟩

theorem sameObserver_trans {w1 w2 w3 : World} (h12 : SameObserver w1 w2)
    (h23 : SameObserver w2 w3) : SameObserver w1 w3 :=
  ⟨h23.1.trans h12.1, h23.2.1.trans h12.2.1, h23.2.2.trans h12.2.2⟩

theorem sameObserver_foldl {α : Type} (f : World × Int → α → World × Int) (l : List α)
    (init : World × Int) (hstep : ∀ acc a, SameObserver acc.1 (f acc a).1) :
    SameObserver init.1 (l.foldl f init).1 := by
  apply foldl_invariant (fun s => SameObserver init.1 s.1) f l init (sameObserver_refl _)
  intro s a _ hs
  exact sameObserver_trans hs (hstep s a)

theorem sameObserver_createPass (boundXZ boundY : Int) (chunkPos : Coord) (w : World) :
    SameObserver w (createPass boundXZ boundY chunkPos w) := by
  rw [createPass_eq_foldl]
  apply sameObserver_foldl createBody _ (w, 0)
  intro acc a
  show SameObserver acc.1 (TryCreateAndFillChunk acc.1 a)
  unfold TryCreateAndFillChunk
  cases find acc.1.m_chunks a <;> exact ⟨rfl, rfl, rfl⟩

theorem sameObserver_runForChunkFold (sc : StateCodes) (newState minState : State)
    (it : World → Coord → Coord → List (Option Chunk) → World)
    (hit : ∀ w pos chunk n, SameObserver w (it w pos chunk n))
    (l : List Coord) (acc : World × Int) :
    SameObserver acc.1 (l.foldl (runForChunkBody sc newState minState it) acc).1 := by
  apply sameObserver_foldl
  intro s a
  rcases runForChunkBody_cases sc newState minState it s a with h | ⟨chunk, _, _, _, hrun⟩
  · rw [h]
    exact sameObserver_refl _
  · rw [hrun]
    exact hit _ _ _ _

theorem sameObserver_samplingPass (cfg : Config) (boundXZ boundY : Int) (chunkPos : Coord)
    (inset : Int) (w : World) :
    SameObserver w (samplingPass cfg boundXZ boundY chunkPos inset w) := by
  unfold samplingPass RunForChunkInBound
  rw [forBound_eq_foldl]
  exact sameObserver_runForChunkFold cfg.codes State.Sampling State.GridData TrySamplingPass
    (fun _ _ _ _ => ⟨rfl, rfl, rfl⟩) _ (w, 0)

theorem sameObserver_surfaceMeshPass (cfg : Config) (boundXZ boundY : Int) (chunkPos : Coord)
    (inset : Int) (w : World) :
    SameObserver w (surfaceMeshPass cfg boundXZ boundY chunkPos inset w) := by
  unfold surfaceMeshPass RunForChunkInBound
  rw [forBound_eq_foldl]
  apply sameObserver_runForChunkFold _ _ _ _ _ _ (w, 0)
  intro w pos chunk n
  unfold TrySurfacePassAndMesh
  simp only
  split <;> exact ⟨rfl, rfl, rfl⟩

theorem sameObserver_UnloadFarChunks (center : Coord) (rXZ rY : Int) (w : World) :
    SameObserver w (UnloadFarChunks center rXZ rY w) := by
  unfold UnloadFarChunks
  apply foldl_invariant (fun s : World => SameObserver w s) unloadStep _ w (sameObserver_refl w)
  intro s a _ hs
  apply sameObserver_trans hs
  unfold unloadStep
  cases find s.m_chunks a <;> exact ⟨rfl, rfl, rfl⟩

/-- A cycle keeps the observer coordinates and clears the changed flag. -/
theorem observer_pipelineCycle (cfg : Config) (boundXZ boundY : Int) (w : World) :
    (pipelineCycle cfg boundXZ boundY w).lastChunkPos = w.lastChunkPos ∧
    (pipelineCycle cfg boundXZ boundY w).m_lastChunkPosSync = w.m_lastChunkPosSync ∧
    (pipelineCycle cfg boundXZ boundY w).m_chunkPosChangedSync = false := by
  have h : SameObserver { w with m_chunkPosChangedSync := false }
      (pipelineCycle cfg boundXZ boundY w) := by
    unfold pipelineCycle
    exact sameObserver_trans (sameObserver_trans (sameObserver_trans
      (sameObserver_createPass _ _ _ _) (sameObserver_samplingPass cfg _ _ _ _ _))
      (sameObserver_surfaceMeshPass cfg _ _ _ _ _)) (sameObserver_UnloadFarChunks _ _ _ _)
  exact h

/-- After a cycle, a coordinate within the unload range holds a chunk if and only if it
held one before or lies in the creation cuboid; a coordinate outside holds none. -/
theorem isSome_find_pipelineCycle (cfg : Config) (boundXZ boundY : Int) (w : World)
    (p : Coord) :
    (find (pipelineCycle cfg boundXZ boundY w).m_chunks p).isSome ↔
      InRange w.m_lastChunkPosSync (boundXZ + 1) (boundXZ + 1) p ∧
      ((find w.m_chunks p).isSome ∨ InCuboid w.m_lastChunkPosSync boundXZ boundY p) := by
  rw [chunks_pipelineCycle,
    find_filter _ (fun k => decide (InRange w.m_lastChunkPosSync (boundXZ + 1) (boundXZ + 1) k))]
  by_cases hr : InRange w.m_lastChunkPosSync (boundXZ + 1) (boundXZ + 1) p
  · simp only [hr, decide_True, if_true, true_and]
    rw [isSome_find_of_keys_eq (keys_pipelinePasses cfg boundXZ boundY _ _) p,
      createPass_eq_foldl, isSome_find_createFold, mem_boundCoords_zero]
  · simp [hr]

theorem OnPlayerMove_moved (cfg : Config) (w : World) (position : Coord)
    (h : toChunkPos cfg position ≠ w.lastChunkPos) :
    OnPlayerMove cfg w position =
      { w with lastChunkPos := toChunkPos cfg position,
               m_lastChunkPosSync := toChunkPos cfg position,
               m_chunkPosChangedSync := true } := by
  unfold OnPlayerMove
  simp only [if_neg h]

theorem threadIteration_of_changed (cfg : Config) (boundXZ boundY : Int) (w : World)
    (h : w.m_chunkPosChangedSync = true) :
    threadIteration cfg boundXZ boundY w = pipelineCycle cfg boundXZ boundY w := by
  unfold threadIteration
  simp only [h, Bool.not_true, Bool.false_eq_true, if_false]

theorem runOps_cons (cfg : Config) (boundXZ boundY : Int) (op : Op) (ops : List Op)
    (w : World) :
    runOps cfg boundXZ boundY (op :: ops) w =
      runOps cfg boundXZ boundY ops (applyOp cfg boundXZ boundY w op) := rfl

theorem runOps_nil (cfg : Config) (boundXZ boundY : Int) (w : World) :
    runOps cfg boundXZ boundY [] w = w := rfl

theorem applyOp_playerMove (cfg : Config) (boundXZ boundY : Int) (w : World)
    (position : Coord) :
    applyOp cfg boundXZ boundY w (Op.playerMove position) = OnPlayerMove cfg w position := rfl

theorem applyOp_threadStep (cfg : Config) (boundXZ boundY : Int) (w : World) :
    applyOp cfg boundXZ boundY w Op.threadStep = threadIteration cfg boundXZ boundY w := rfl

theorem applyOp_update (cfg : Config) (boundXZ boundY : Int) (w : World) :
    applyOp cfg boundXZ boundY w Op.update = OnUpdate w := rfl

/-- A move of the observer to chunk (0,0,0) followed by a cycle with bounds 16 and 6
keeps a chunk at (0,8,0). -/
theorem descent_second_cycle (w2 : World) (hpos : w2.lastChunkPos = ⟨0, 2, 0⟩)
    (hp : (find w2.m_chunks ⟨0, 8, 0⟩).isSome) :
    (threadIteration (cfgOf 1) 16 6
      (OnPlayerMove (cfgOf 1) w2 ⟨0, 0, 0⟩)).m_lastChunkPosSync = ⟨0, 0, 0⟩ ∧
    (find (threadIteration (cfgOf 1) 16 6
      (OnPlayerMove (cfgOf 1) w2 ⟨0, 0, 0⟩)).m_chunks ⟨0, 8, 0⟩).isSome := by
  have h0 : toChunkPos (cfgOf 1) ⟨0, 0, 0⟩ = ⟨0, 0, 0⟩ := by decide
  have hne : toChunkPos (cfgOf 1) ⟨0, 0, 0⟩ ≠ w2.lastChunkPos := by
    rw [hpos]
    decide
  rw [OnPlayerMove_moved _ _ _ hne, h0, threadIteration_of_changed _ _ _ _ rfl]
  constructor
  · rw [(observer_pipelineCycle _ _ _ _).2.1]
  · rw [isSome_find_pipelineCycle]
    refine ⟨?_, Or.inl hp⟩
    show InRange ⟨0, 0, 0⟩ (16 + 1) (16 + 1) ⟨0, 8, 0⟩
    decide

/-- C10 (the code at the failing input): with the bounds 16 and 6 of `ThreadUpdate`, let
the observer report a position in chunk (0,2,0), the pipeline run a cycle, the observer
report a position in chunk (0,0,0) and the pipeline run a cycle. The chunk at (0,8,0),
created by the first cycle, is still in the table after the second, at vertical
distance 8 from the centre (0,0,0), beyond `boundY + 1 = 7`. -/
theorem cycle_keeps_chunk_beyond_vertical_ring :
    (runOps (cfgOf 1) 16 6 descentOps (initWorld ⟨0, 0, 0⟩ ⟨0, 0, 0⟩ false)).m_lastChunkPosSync
      = ⟨0, 0, 0⟩ ∧
    (find (runOps (cfgOf 1) 16 6 descentOps
      (initWorld ⟨0, 0, 0⟩ ⟨0, 0, 0⟩ false)).m_chunks ⟨0, 8, 0⟩).isSome ∧
    |(0 : Int) - 8| > 6 + 1 := by
  have h1 : OnPlayerMove (cfgOf 1) (initWorld ⟨0, 0, 0⟩ ⟨0, 0, 0⟩ false) ⟨0, 32, 0⟩ =
      initWorld ⟨0, 2, 0⟩ ⟨0, 2, 0⟩ true := by decide
  have hobs : (pipelineCycle (cfgOf 1) 16 6
      (initWorld ⟨0, 2, 0⟩ ⟨0, 2, 0⟩ true)).lastChunkPos = ⟨0, 2, 0⟩ :=
    (observer_pipelineCycle _ _ _ _).1
  have hfirst : (find (pipelineCycle (cfgOf 1) 16 6
      (initWorld ⟨0, 2, 0⟩ ⟨0, 2, 0⟩ true)).m_chunks ⟨0, 8, 0⟩).isSome := by
    rw [isSome_find_pipelineCycle]
    refine ⟨?_, Or.inr ?_⟩
    · show InRange ⟨0, 2, 0⟩ (16 + 1) (16 + 1) ⟨0, 8, 0⟩
      decide
    · show InCuboid ⟨0, 2, 0⟩ 16 6 ⟨0, 8, 0⟩
      decide
  have hsecond := descent_second_cycle _ hobs hfirst
  unfold descentOps
  rw [runOps_cons, applyOp_playerMove, h1, runOps_cons, applyOp_threadStep,
    threadIteration_of_changed (cfgOf 1) 16 6 (initWorld ⟨0, 2, 0⟩ ⟨0, 2, 0⟩ true) rfl,
    runOps_cons, applyOp_playerMove, runOps_cons, applyOp_threadStep, runOps_nil]
  exact ⟨hsecond.1, hsecond.2, by decide⟩

/-! ## C12: `OnUpdate` drains both hand-off queues -/

theorem setRender_of_canRender (c : Chunk) (h : c.canRender = true) :
    { c with canRender := true } = c := by
  cases c
  simp only at h
  subst h
  rfl

theorem find_applyStep (w : World) (a p : Coord) :
    find (applyStep w a).m_chunks p = (find w.m_chunks p).map (afterApply [a] p) := by
  unfold applyStep afterApply
  by_cases hp : p = a
  · subst hp
    cases hf : find w.m_chunks p with
    | none => simp [hf]
    | some chunk =>
      simp only [List.mem_singleton, if_true, Option.map_some']
      by_cases hr : chunk.canRender = true
      · simp only [hr, if_true, hf, setRender_of_canRender chunk hr]
      · simp only [hr, if_false, Bool.false_eq_true, find_setMesh, hf, if_true,
          Option.map_some']
  · have hmap : (find w.m_chunks p).map (fun c => if p ∈ [a] then
        ({ c with canRender := true } : Chunk) else c) = find w.m_chunks p := by
      simp [hp]
    rw [hmap]
    cases hf : find w.m_chunks a with
    | none => rfl
    | some chunk =>
      simp only
      split
      · rfl
      · simp only [find_setMesh, if_neg hp]

theorem afterApply_cons (a : Coord) (l : List Coord) (p : Coord) (c : Chunk) :
    afterApply l p (afterApply [a] p c) = afterApply (a :: l) p c := by
  unfold afterApply
  by_cases h1 : p = a <;> by_cases h2 : p ∈ l <;> simp [h1, h2]

theorem find_applyFold (l : List Coord) (w : World) (p : Coord) :
    find (l.foldl applyStep w).m_chunks p = (find w.m_chunks p).map (afterApply l p) := by
  induction l generalizing w with
  | nil =>
    have h : afterApply [] p = id := by
      funext c
      simp [afterApply]
    simp [h]
  | cons a l ih =>
    rw [List.foldl_cons, ih, find_applyStep, Option.map_map]
    congr 1
    funext c
    exact afterApply_cons a l p c

theorem keys_applyStep (w : World) (a : Coord) :
    (applyStep w a).m_chunks.map Prod.fst = w.m_chunks.map Prod.fst := by
  unfold applyStep
  cases find w.m_chunks a with
  | none => rfl
  | some chunk =>
    simp only
    split
    · rfl
    · exact keys_setMesh _ _

theorem keys_applyFold (l : List Coord) (w : World) :
    (l.foldl applyStep w).m_chunks.map Prod.fst = w.m_chunks.map Prod.fst := by
  apply foldl_invariant (fun s : World => s.m_chunks.map Prod.fst = w.m_chunks.map Prod.fst)
    applyStep l w rfl
  intro s a _ hs
  rw [keys_applyStep, hs]

/-- The uploads of the apply loop: each is for a queued coordinate whose chunk was not
render-ready, and no coordinate gets two. -/
theorem uploads_applyFold (l : List Coord) (w : World) :
    ∃ new : List Coord, (l.foldl applyStep w).appliedMeshes = w.appliedMeshes ++ new ∧
      new.Nodup ∧
      ∀ p ∈ new, p ∈ l ∧ ∃ c, find w.m_chunks p = some c ∧ c.canRender = false := by
  induction l generalizing w with
  | nil => exact ⟨[], by simp, List.nodup_nil, fun p hp => by cases hp⟩
  | cons a l ih =>
    rw [List.foldl_cons]
    obtain ⟨new, hnew, hnd, hall⟩ := ih (applyStep w a)
    cases hf : find w.m_chunks a with
    | none =>
      have hw : applyStep w a = w := by
        unfold applyStep
        rw [hf]
      rw [hw] at hnew hall ⊢
      exact ⟨new, hnew, hnd, fun p hp =>
        ⟨List.mem_cons_of_mem a (hall p hp).1, (hall p hp).2⟩⟩
    | some chunk =>
      by_cases hr : chunk.canRender = true
      · have hw : applyStep w a = w := by
          unfold applyStep
          rw [hf]
          simp only [hr, if_true]
        rw [hw] at hnew hall ⊢
        exact ⟨new, hnew, hnd, fun p hp =>
          ⟨List.mem_cons_of_mem a (hall p hp).1, (hall p hp).2⟩⟩
      · have hrf : chunk.canRender = false := by
          cases h : chunk.canRender
          · rfl
          · exact absurd h hr
        have hlog : (applyStep w a).appliedMeshes = w.appliedMeshes ++ [a] := by
          unfold applyStep
          rw [hf]
          simp only [hr, if_false, Bool.false_eq_true]
        have hnot : ∀ p ∈ new, p ≠ a := by
          intro p hp hpa
          obtain ⟨_, c, hc, hcr⟩ := hall p hp
          rw [hpa, find_applyStep, hf] at hc
          simp only [Option.map_some', afterApply, List.mem_singleton, if_true,
            Option.some.injEq] at hc
          rw [← hc] at hcr
          simp at hcr
        refine ⟨a :: new, ?_, ?_, ?_⟩
        · rw [hnew, hlog, List.append_assoc]
          rfl
        · exact List.nodup_cons.mpr ⟨fun h => hnot a h rfl, hnd⟩
        · intro p hp
          rcases List.mem_cons.mp hp with rfl | hp2
          · exact ⟨List.mem_cons_self _ _, chunk, hf, hrf⟩
          · obtain ⟨hl, c, hc, hcr⟩ := hall p hp2
            refine ⟨List.mem_cons_of_mem a hl, ?_⟩
            rw [find_applyStep] at hc
            have hpa : ¬ p = a := hnot p hp2
            cases hfp : find w.m_chunks p with
            | none =>
              rw [hfp] at hc
              cases hc
            | some d =>
              rw [hfp] at hc
              simp only [Option.map_some', afterApply, List.mem_singleton, hpa, if_false,
                Option.some.injEq] at hc
              subst hc
              exact ⟨d, rfl, hcr⟩

/-- C12: after `OnUpdate` the apply queue and the dispose queue are empty. A lookup in
the table returns the chunk found before, with the same generation state, made
render-ready if its coordinate was in the apply queue and otherwise with its
render-ready flag as before; the coordinates of the table are unchanged. The GPU uploads
of the call are for queued coordinates whose chunk existed and was not render-ready,
at most one per coordinate. -/
theorem OnUpdate_drains (w : World) :
    (OnUpdate w).m_applyMeshQueue = [] ∧ (OnUpdate w).m_disposeMeshQueue = [] ∧
    (∀ p : Coord, find (OnUpdate w).m_chunks p =
      (find w.m_chunks p).map (afterApply w.m_applyMeshQueue p)) ∧
    (∀ (p : Coord) (c : Chunk), find w.m_chunks p = some c →
      (afterApply w.m_applyMeshQueue p c).state = c.state ∧
      (p ∈ w.m_applyMeshQueue → (afterApply w.m_applyMeshQueue p c).canRender = true) ∧
      (p ∉ w.m_applyMeshQueue → afterApply w.m_applyMeshQueue p c = c)) ∧
    (OnUpdate w).m_chunks.map Prod.fst = w.m_chunks.map Prod.fst ∧
    ∃ new : List Coord, (OnUpdate w).appliedMeshes = w.appliedMeshes ++ new ∧ new.Nodup ∧
      ∀ p ∈ new, p ∈ w.m_applyMeshQueue ∧
        ∃ c, find w.m_chunks p = some c ∧ c.canRender = false := by
  refine ⟨rfl, rfl, fun p => find_applyFold _ w p, ?_, keys_applyFold _ w,
    uploads_applyFold _ w⟩
  intro p c _
  unfold afterApply
  refine ⟨?_, ?_, ?_⟩
  · split <;> rfl
  · intro h
    rw [if_pos h]
  · intro h
    rw [if_neg h]

/-- Witness of `OnUpdate_drains`: a table with a chunk at (0,0,0) that is Complete and
not render-ready, the coordinate queued twice: one upload, chunk render-ready. -/
theorem OnUpdate_drains_witness :
    find (OnUpdate { worldOf [((⟨0, 0, 0⟩ : Coord), chunkAt ⟨0, 0, 0⟩ State.Complete)] with
        m_applyMeshQueue := [⟨0, 0, 0⟩, ⟨0, 0, 0⟩] }).m_chunks ⟨0, 0, 0⟩ =
      some { chunkAt ⟨0, 0, 0⟩ State.Complete with canRender := true } ∧
    (afterApply [⟨0, 0, 0⟩, ⟨0, 0, 0⟩] ⟨0, 0, 0⟩ (chunkAt ⟨0, 0, 0⟩ State.Complete)).canRender
      = true ∧
    (OnUpdate { worldOf [((⟨0, 0, 0⟩ : Coord), chunkAt ⟨0, 0, 0⟩ State.Complete)] with
        m_applyMeshQueue := [⟨0, 0, 0⟩, ⟨0, 0, 0⟩] }).appliedMeshes = [⟨0, 0, 0⟩] :=
  ⟨by
      rw [(OnUpdate_drains _).2.2.1 ⟨0, 0, 0⟩]
      decide,
    ((OnUpdate_drains { worldOf [((⟨0, 0, 0⟩ : Coord), chunkAt ⟨0, 0, 0⟩ State.Complete)] with
        m_applyMeshQueue := [⟨0, 0, 0⟩, ⟨0, 0, 0⟩] }).2.2.2.1 ⟨0, 0, 0⟩
        (chunkAt ⟨0, 0, 0⟩ State.Complete) (by decide)).2.1 (by decide),
    by decide⟩

/-! ## C13: `OnPlayerMove` -/

theorem fdiv_eq_floorDiv (a b : Int) (hb : 0 < b) : Int.fdiv a b = floorDiv a b := by
  unfold floorDiv
  rw [Int.fdiv_eq_ediv a (le_of_lt hb)]
  have hcast : (b : ℚ) = ((b.toNat : ℕ) : ℚ) := by
    have : ((b.toNat : ℕ) : ℤ) = b := Int.toNat_of_nonneg (le_of_lt hb)
    exact_mod_cast this.symm
  rw [hcast, Rat.floor_intCast_div_natCast, Int.toNat_of_nonneg (le_of_lt hb)]

theorem lastChunkPos_OnPlayerMove (cfg : Config) (w : World) (position : Coord) :
    (OnPlayerMove cfg w position).lastChunkPos = toChunkPos cfg position := by
  unfold OnPlayerMove
  simp only
  split
  · rename_i h
    exact h.symm
  · rfl

theorem OnPlayerMove_same (cfg : Config) (w : World) (position : Coord)
    (h : toChunkPos cfg position = w.lastChunkPos) : OnPlayerMove cfg w position = w := by
  unfold OnPlayerMove
  simp only [if_pos h]

/-- C13: with a positive `CHUNK_SIZE`, the chunk coordinate `c` that `OnPlayerMove`
computes from a position is the floor division of the position by `CHUNK_SIZE` on every
axis. If `c` is the last reported coordinate the call changes nothing, whatever the
changed flag; otherwise the last reported and the published coordinate become `c` and
the changed flag is set. A second call with a position of the same chunk coordinate
changes nothing. -/
theorem OnPlayerMove_publishes (cfg : Config) (hcs : 0 < cfg.CHUNK_SIZE) (w : World)
    (position : Coord) :
    toChunkPos cfg position =
      ⟨floorDiv position.x cfg.CHUNK_SIZE, floorDiv position.y cfg.CHUNK_SIZE,
        floorDiv position.z cfg.CHUNK_SIZE⟩ ∧
    (toChunkPos cfg position = w.lastChunkPos → OnPlayerMove cfg w position = w) ∧
    (toChunkPos cfg position ≠ w.lastChunkPos →
      OnPlayerMove cfg w position =
        { w with lastChunkPos := toChunkPos cfg position,
                 m_lastChunkPosSync := toChunkPos cfg position,
                 m_chunkPosChangedSync := true }) ∧
    (∀ position2 : Coord, toChunkPos cfg position2 = toChunkPos cfg position →
      OnPlayerMove cfg (OnPlayerMove cfg w position) position2 =
        OnPlayerMove cfg w position) := by
  refine ⟨?_, OnPlayerMove_same cfg w position, OnPlayerMove_moved cfg w position, ?_⟩
  · unfold toChunkPos
    rw [fdiv_eq_floorDiv _ _ hcs, fdiv_eq_floorDiv _ _ hcs, fdiv_eq_floorDiv _ _ hcs]
  · intro position2 h2
    apply OnPlayerMove_same
    rw [h2, lastChunkPos_OnPlayerMove]

/-- Witness of `OnPlayerMove_publishes`: `CHUNK_SIZE = 16`, observer last reported in
chunk (0,0,0). Position (-1,17,0) lies in chunk (-1,1,0) and is published; position
(-16,31,15) lies in the same chunk and changes nothing more; position (5,5,5) lies in
chunk (0,0,0) and changes nothing. -/
theorem OnPlayerMove_publishes_witness :
    (0 : Int) < (cfgOf 1).CHUNK_SIZE ∧
    toChunkPos (cfgOf 1) ⟨-1, 17, 0⟩ = ⟨-1, 1, 0⟩ ∧
    OnPlayerMove (cfgOf 1) (worldOf []) ⟨5, 5, 5⟩ = worldOf [] ∧
    OnPlayerMove (cfgOf 1) (worldOf []) ⟨-1, 17, 0⟩ =
      { worldOf [] with lastChunkPos := toChunkPos (cfgOf 1) ⟨-1, 17, 0⟩,
                        m_lastChunkPosSync := toChunkPos (cfgOf 1) ⟨-1, 17, 0⟩,
                        m_chunkPosChangedSync := true } ∧
    OnPlayerMove (cfgOf 1) (OnPlayerMove (cfgOf 1) (worldOf []) ⟨-1, 17, 0⟩) ⟨-16, 31, 15⟩ =
      OnPlayerMove (cfgOf 1) (worldOf []) ⟨-1, 17, 0⟩ :=
  ⟨by decide, by decide,
    (OnPlayerMove_publishes (cfgOf 1) (by decide) (worldOf []) ⟨5, 5, 5⟩).2.1 (by decide),
    (OnPlayerMove_publishes (cfgOf 1) (by decide) (worldOf []) ⟨-1, 17, 0⟩).2.2.1 (by decide),
    (OnPlayerMove_publishes (cfgOf 1) (by decide) (worldOf []) ⟨-1, 17, 0⟩).2.2.2 ⟨-16, 31, 15⟩
      (by decide)⟩

/-! ## C14: the missing-mesh retry stops at capacity -/

theorem missingMeshLoop_stops (cfg : Config) (queue : List Coord) (n : Int) (w : World)
    (hq : w.m_missingMeshQueue = queue) (hn : n = (w.m_applyMeshQueue.length : Int)) :
    ((missingMeshLoop cfg queue n w).m_missingMeshQueue = [] ∨
      cfg.MAX_MESH_IN_APPLY_QUEUE ≤ (missingMeshLoop cfg queue n w).m_applyMeshQueue.length) ∧
    ∃ popped : List Coord,
      queue = popped ++ (missingMeshLoop cfg queue n w).m_missingMeshQueue := by
  induction queue generalizing n w with
  | nil =>
    unfold missingMeshLoop
    exact ⟨Or.inl hq, [], by simp [hq]⟩
  | cons pos rest ih =>
    have hcons : ∀ (n2 : Int) (w2 : World), w2.m_missingMeshQueue = rest →
        n2 = (w2.m_applyMeshQueue.length : Int) →
        ((missingMeshLoop cfg rest n2 w2).m_missingMeshQueue = [] ∨
          cfg.MAX_MESH_IN_APPLY_QUEUE ≤
            (missingMeshLoop cfg rest n2 w2).m_applyMeshQueue.length) ∧
        ∃ popped : List Coord,
          pos :: rest = popped ++ (missingMeshLoop cfg rest n2 w2).m_missingMeshQueue := by
      intro n2 w2 h2 hn2
      obtain ⟨h1, popped, hp⟩ := ih n2 w2 h2 hn2
      exact ⟨h1, pos :: popped, by rw [List.cons_append, ← hp]⟩
    unfold missingMeshLoop
    split
    · simp only
      split
      · exact hcons _ _ rfl hn
      · split
        · exact hcons _ _ rfl hn
        · split
          · exact hcons _ _ rfl hn
          · apply hcons _ _ rfl
            simp only [List.length_append, List.length_singleton, Nat.cast_add, Nat.cast_one,
              hn]
    · rename_i hfull
      refine ⟨Or.inr (by omega), [], ?_⟩
      simp [hq]

theorem TryGeneratingMissingMesh_of_full (cfg : Config) (w : World)
    (h : cfg.MAX_MESH_IN_APPLY_QUEUE ≤ w.m_applyMeshQueue.length) :
    TryGeneratingMissingMesh cfg w = w := by
  unfold TryGeneratingMissingMesh
  cases hq : w.m_missingMeshQueue with
  | nil => rfl
  | cons pos rest =>
    unfold missingMeshLoop
    have hn : ¬ (w.m_applyMeshQueue.length : Int) < (cfg.MAX_MESH_IN_APPLY_QUEUE : Int) := by
      omega
    rw [if_neg hn]

/-- C14: `TryGeneratingMissingMesh` is a total function: its loop removes one coordinate
from the missing-mesh queue in every iteration. On return the missing-mesh queue is
empty or the apply queue holds at least `MAX_MESH_IN_APPLY_QUEUE` coordinates; the
missing-mesh queue is what is left of the queue before after removing coordinates from
its front; and if the apply queue already held `MAX_MESH_IN_APPLY_QUEUE` coordinates
on entry, the world is unchanged. -/
theorem TryGeneratingMissingMesh_stops (cfg : Config) (w : World) :
    ((TryGeneratingMissingMesh cfg w).m_missingMeshQueue = [] ∨
      cfg.MAX_MESH_IN_APPLY_QUEUE ≤
        (TryGeneratingMissingMesh cfg w).m_applyMeshQueue.length) ∧
    (∃ popped : List Coord,
      w.m_missingMeshQueue = popped ++ (TryGeneratingMissingMesh cfg w).m_missingMeshQueue) ∧
    (cfg.MAX_MESH_IN_APPLY_QUEUE ≤ w.m_applyMeshQueue.length →
      TryGeneratingMissingMesh cfg w = w) := by
  have h := missingMeshLoop_stops cfg w.m_missingMeshQueue (w.m_applyMeshQueue.length : Int)
    w rfl rfl
  exact ⟨h.1, h.2, TryGeneratingMissingMesh_of_full cfg w⟩

/-- Witness of `TryGeneratingMissingMesh_stops`: with the apply queue at capacity the
world is unchanged; with capacity left, two stale coordinates are both removed. -/
theorem TryGeneratingMissingMesh_stops_witness :
    TryGeneratingMissingMesh (cfgOf 1)
        { scenario3World with m_missingMeshQueue := [⟨0, 0, 0⟩] } =
      { scenario3World with m_missingMeshQueue := [⟨0, 0, 0⟩] } ∧
    (TryGeneratingMissingMesh (cfgOf 1) staleQueueWorld).m_missingMeshQueue = [] :=
  ⟨(TryGeneratingMissingMesh_stops (cfgOf 1)
      { scenario3World with m_missingMeshQueue := [⟨0, 0, 0⟩] }).2.2 (by decide),
    by decide⟩

/-! ## C15: which operations change the set of coordinates of the table -/

theorem keys_missingMeshLoop (cfg : Config) (queue : List Coord) (n : Int) (w : World) :
    (missingMeshLoop cfg queue n w).m_chunks.map Prod.fst = w.m_chunks.map Prod.fst := by
  induction queue generalizing n w with
  | nil => rfl
  | cons pos rest ih =>
    unfold missingMeshLoop
    split
    · simp only
      split
      · rw [ih]
      · split
        · rw [ih]
        · split
          · rw [ih]
          · rw [ih]
            exact keys_setState _ _ _
    · rfl

theorem keys_OnPlayerMove (cfg : Config) (w : World) (position : Coord) :
    (OnPlayerMove cfg w position).m_chunks = w.m_chunks := by
  unfold OnPlayerMove
  simp only
  split <;> rfl

/-- C15: the sampling pass, the surface and mesh pass, `TryGeneratingMissingMesh`,
`OnUpdate` and `OnPlayerMove` leave the coordinates of the table as they are
(`GetChunkNeighbours` is a function of the table and returns no table). A coordinate
that holds a chunk before the create pass holds one after it, and a coordinate that
holds a chunk after the unload pass held one before it. -/
theorem table_frame (cfg : Config) (w : World) :
    (∀ (boundXZ boundY : Int) (chunkPos : Coord) (inset : Int),
      (samplingPass cfg boundXZ boundY chunkPos inset w).m_chunks.map Prod.fst =
        w.m_chunks.map Prod.fst) ∧
    (∀ (boundXZ boundY : Int) (chunkPos : Coord) (inset : Int),
      (surfaceMeshPass cfg boundXZ boundY chunkPos inset w).m_chunks.map Prod.fst =
        w.m_chunks.map Prod.fst) ∧
    (TryGeneratingMissingMesh cfg w).m_chunks.map Prod.fst = w.m_chunks.map Prod.fst ∧
    (OnUpdate w).m_chunks.map Prod.fst = w.m_chunks.map Prod.fst ∧
    (∀ position : Coord,
      (OnPlayerMove cfg w position).m_chunks.map Prod.fst = w.m_chunks.map Prod.fst) ∧
    (∀ (boundXZ boundY : Int) (chunkPos p : Coord), (find w.m_chunks p).isSome →
      (find (createPass boundXZ boundY chunkPos w).m_chunks p).isSome) ∧
    (∀ (center : Coord) (maxRangeXZ maxRangeY : Int) (p : Coord),
      (find (UnloadFarChunks center maxRangeXZ maxRangeY w).m_chunks p).isSome →
      (find w.m_chunks p).isSome) := by
  refine ⟨fun _ _ _ _ => keys_samplingPass cfg _ _ _ _ w,
    fun _ _ _ _ => keys_surfaceMeshPass cfg _ _ _ _ w,
    keys_missingMeshLoop cfg _ _ w, keys_applyFold _ w,
    fun position => by rw [keys_OnPlayerMove], ?_, ?_⟩
  · intro boundXZ boundY chunkPos p hp
    exact present_of_advances (advances_createPass boundXZ boundY chunkPos w) p hp
  · intro center rXZ rY p hp
    rw [find_UnloadFarChunks] at hp
    split at hp
    · exact hp
    · cases hp

/-- Witness of `table_frame`: a table with one chunk at (0,0,0). The create pass keeps
it, and what the unload pass around (0,0,0) leaves was there before. -/
theorem table_frame_witness :
    (find (createPass 1 1 ⟨5, 5, 5⟩
      (worldOf [((⟨0, 0, 0⟩ : Coord), chunkAt ⟨0, 0, 0⟩ State.Surface)])).m_chunks
      ⟨0, 0, 0⟩).isSome ∧
    (find (worldOf [((⟨0, 0, 0⟩ : Coord), chunkAt ⟨0, 0, 0⟩ State.Surface)]).m_chunks
      ⟨0, 0, 0⟩).isSome :=
  ⟨(table_frame (cfgOf 1)
      (worldOf [((⟨0, 0, 0⟩ : Coord), chunkAt ⟨0, 0, 0⟩ State.Surface)])).2.2.2.2.2.1
      1 1 ⟨5, 5, 5⟩ ⟨0, 0, 0⟩ (by decide),
    (table_frame (cfgOf 1)
      (worldOf [((⟨0, 0, 0⟩ : Coord), chunkAt ⟨0, 0, 0⟩ State.Surface)])).2.2.2.2.2.2
      ⟨0, 0, 0⟩ 1 1 ⟨0, 0, 0⟩ (by decide)⟩

/-! ## C16: the values returned by the runners -/

theorem RunInBound_eq_foldl (sizeXZ sizeY : Int) (center : Coord) (inset : Int)
    (it : World → Coord → World) (w : World) :
    RunInBound sizeXZ sizeY center inset it w =
      ((boundCoords sizeXZ sizeY center inset).foldl it w,
        ((boundCoords sizeXZ sizeY center inset).length : Int)) := by
  unfold RunInBound
  rw [forBound_eq_foldl]
  have h : ∀ (l : List Coord) (acc : World × Int),
      l.foldl (fun (acc : World × Int) p => (it acc.1 p, acc.2 + 1)) acc =
        (l.foldl it acc.1, acc.2 + (l.length : Int)) := by
    intro l
    induction l with
    | nil => intro acc; simp
    | cons a l ih =>
      intro acc
      rw [List.foldl_cons, ih, List.foldl_cons]
      simp only [List.length_cons, Nat.cast_add, Nat.cast_one]
      congr 1
      ring
  rw [h]
  simp

theorem snd_runForChunkBody (sc : StateCodes) (newState minState : State)
    (it : World → Coord → Coord → List (Option Chunk) → World) (acc : World × Int)
    (p : Coord) :
    (runForChunkBody sc newState minState it acc p).2 =
      acc.2 + (if isCandidate sc newState acc.1 p then 1 else 0) := by
  unfold runForChunkBody isCandidate
  cases hf : find acc.1.m_chunks p with
  | none => simp
  | some chunk =>
    simp only
    by_cases h : chunk.state.toInt sc ≥ newState.toInt sc
    · have h2 : ¬ chunk.state.toInt sc < newState.toInt sc := by omega
      simp [h, h2]
    · have h2 : chunk.state.toInt sc < newState.toInt sc := by omega
      simp [h, h2]

theorem fst_runForChunkBody (sc : StateCodes) (newState minState : State)
    (it : World → Coord → Coord → List (Option Chunk) → World) (acc : World × Int)
    (p : Coord) :
    (runForChunkBody sc newState minState it acc p).1 =
      (runForChunkBody sc newState minState it (acc.1, 0) p).1 := by
  unfold runForChunkBody
  cases find acc.1.m_chunks p with
  | none => rfl
  | some chunk =>
    simp only
    split <;> rfl

theorem isCandidate_congr (sc : StateCodes) (newState : State) (w w2 : World) (p : Coord)
    (h : find w2.m_chunks p = find w.m_chunks p) :
    isCandidate sc newState w2 p = isCandidate sc newState w p := by
  unfold isCandidate
  rw [h]

/-- The index returned by the gated loop when the action changes only the chunk it is
invoked on: the number of visited coordinates that hold a chunk below `newState`. -/
theorem snd_runForChunkFold (sc : StateCodes) (newState minState : State)
    (it : World → Coord → Coord → List (Option Chunk) → World)
    (hit : ∀ w pos chunk n q, q ≠ chunk →
      find (it w pos chunk n).m_chunks q = find w.m_chunks q)
    (l : List Coord) (hnd : l.Nodup) (acc : World × Int) :
    (l.foldl (runForChunkBody sc newState minState it) acc).2 =
      acc.2 + ((l.filter (isCandidate sc newState acc.1)).length : Int) := by
  induction l generalizing acc with
  | nil => simp
  | cons a l ih =>
    have hnd2 := (List.nodup_cons.mp hnd).2
    have ha : a ∉ l := (List.nodup_cons.mp hnd).1
    rw [List.foldl_cons, ih hnd2, snd_runForChunkBody]
    have hframe : ∀ q ∈ l, isCandidate sc newState
        (runForChunkBody sc newState minState it acc a).1 q =
          isCandidate sc newState acc.1 q := by
      intro q hq
      apply isCandidate_congr
      have hqa : q ≠ a := fun h => ha (h ▸ hq)
      rcases runForChunkBody_cases sc newState minState it acc a with h | ⟨_, _, _, _, hrun⟩
      · rw [h]
      · rw [hrun, hit _ _ _ _ _ hqa]
    rw [List.filter_congr hframe, List.filter_cons]
    by_cases hc : isCandidate sc newState acc.1 a = true
    · simp only [hc, if_true, List.length_cons, Nat.cast_add, Nat.cast_one]
      ring
    · simp only [hc, if_false, Bool.false_eq_true]
      ring

theorem gateOpen_imp_isCandidate (sc : StateCodes) (newState minState : State) (w : World)
    (p : Coord) (h : gateOpen sc newState minState w p = true) :
    isCandidate sc newState w p = true := by
  unfold gateOpen at h
  unfold isCandidate
  cases hf : find w.m_chunks p with
  | none =>
    rw [hf] at h
    cases h
  | some chunk =>
    rw [hf] at h
    simp only [Bool.and_eq_true, decide_eq_true_eq] at h ⊢
    omega

theorem invokedCount_le (sc : StateCodes) (newState minState : State)
    (it : World → Coord → Coord → List (Option Chunk) → World) (l : List Coord)
    (acc : World × Int) :
    acc.2 + invokedCount sc newState minState it l acc.1 ≤
      (l.foldl (runForChunkBody sc newState minState it) acc).2 := by
  induction l generalizing acc with
  | nil => simp [invokedCount]
  | cons a l ih =>
    rw [List.foldl_cons]
    have h1 := ih (runForChunkBody sc newState minState it acc a)
    rw [snd_runForChunkBody, fst_runForChunkBody] at h1
    unfold invokedCount
    by_cases hg : gateOpen sc newState minState acc.1 a = true
    · have hc := gateOpen_imp_isCandidate sc newState minState acc.1 a hg
      simp only [hg, if_true]
      simp only [hc, if_true] at h1
      omega
    · simp only [hg, if_false, Bool.false_eq_true]
      by_cases hc : isCandidate sc newState acc.1 a = true
      · simp only [hc, if_true] at h1
        omega
      · simp only [hc, if_false, Bool.false_eq_true] at h1
        omega

/-- C16 (as amended): `RunInBound` invokes the action once on every coordinate of the
inset cuboid, in visiting order, and returns their number. `RunForChunkInBound`, run as
the sampling pass or as the surface and mesh pass, returns the number of coordinates of
the inset cuboid that hold a chunk below `newState` when the pass starts, whether or
not the gate lets the action run on them; the number of chunks on which the action is
invoked is at most the returned value. -/
theorem runner_return_values (cfg : Config) (sizeXZ sizeY : Int) (center : Coord)
    (inset : Int) (w : World) :
    (∀ it : World → Coord → World,
      RunInBound sizeXZ sizeY center inset it w =
        ((boundCoords sizeXZ sizeY center inset).foldl it w,
          ((boundCoords sizeXZ sizeY center inset).length : Int))) ∧
    (RunForChunkInBound cfg.codes sizeXZ sizeY center inset State.Sampling State.GridData
        TrySamplingPass w).2 =
      (((boundCoords sizeXZ sizeY center inset).filter
        (isCandidate cfg.codes State.Sampling w)).length : Int) ∧
    (RunForChunkInBound cfg.codes sizeXZ sizeY center inset State.Complete State.Sampling
        (TrySurfacePassAndMesh cfg) w).2 =
      (((boundCoords sizeXZ sizeY center inset).filter
        (isCandidate cfg.codes State.Complete w)).length : Int) ∧
    (∀ (newState minState : State)
      (it : World → Coord → Coord → List (Option Chunk) → World),
      invokedCount cfg.codes newState minState it (boundCoords sizeXZ sizeY center inset) w ≤
        (RunForChunkInBound cfg.codes sizeXZ sizeY center inset newState minState it w).2) := by
  refine ⟨fun it => RunInBound_eq_foldl _ _ _ _ it w, ?_, ?_, ?_⟩
  · unfold RunForChunkInBound
    rw [forBound_eq_foldl, snd_runForChunkFold _ _ _ _ _ _ (nodup_boundCoords _ _ _ _)]
    · simp
    · intro w pos chunk n q hq
      rw [find_TrySamplingPass, if_neg hq]
  · unfold RunForChunkInBound
    rw [forBound_eq_foldl, snd_runForChunkFold _ _ _ _ _ _ (nodup_boundCoords _ _ _ _)]
    · simp
    · intro w pos chunk n q hq
      exact find_TrySurfacePassAndMesh_ne cfg w pos chunk n q hq
  · intro newState minState it
    unfold RunForChunkInBound
    rw [forBound_eq_foldl]
    have h := invokedCount_le cfg.codes newState minState it
      (boundCoords sizeXZ sizeY center inset) (w, 0)
    simpa using h

/-- C16 (counterexample): a chunk at Sampling alone in the table, surface and mesh pass
over the single coordinate (0,0,0). The gate is closed, the action is not invoked and
the world is unchanged, but the pass returns 1. This holds with the states numbered
1, 2, 3, 4 and with the states numbered 0, 1, 2, 3. -/
theorem runner_return_values_counterexample :
    ((RunForChunkInBound codes1234 0 0 ⟨0, 0, 0⟩ 0 State.Complete State.Sampling
        (TrySurfacePassAndMesh (cfgOf 1)) loneSampledWorld).2 = 1 ∧
      (RunForChunkInBound codes1234 0 0 ⟨0, 0, 0⟩ 0 State.Complete State.Sampling
        (TrySurfacePassAndMesh (cfgOf 1)) loneSampledWorld).1 = loneSampledWorld ∧
      invokedCount codes1234 State.Complete State.Sampling (TrySurfacePassAndMesh (cfgOf 1))
        (boundCoords 0 0 ⟨0, 0, 0⟩ 0) loneSampledWorld = 0 ∧
      ¬ (RunForChunkInBound codes1234 0 0 ⟨0, 0, 0⟩ 0 State.Complete State.Sampling
          (TrySurfacePassAndMesh (cfgOf 1)) loneSampledWorld).2 =
        invokedCount codes1234 State.Complete State.Sampling
          (TrySurfacePassAndMesh (cfgOf 1)) (boundCoords 0 0 ⟨0, 0, 0⟩ 0) loneSampledWorld) ∧
    ((RunForChunkInBound codes0123 0 0 ⟨0, 0, 0⟩ 0 State.Complete State.Sampling
        (TrySurfacePassAndMesh (cfgOf 1)) loneSampledWorld).2 = 1 ∧
      invokedCount codes0123 State.Complete State.Sampling (TrySurfacePassAndMesh (cfgOf 1))
        (boundCoords 0 0 ⟨0, 0, 0⟩ 0) loneSampledWorld = 0) := by
  decide

/-! ## Chunks stored under their own position -/

theorem mem_of_find (t : ChunkTable) (p : Coord) (c : Chunk) (h : find t p = some c) :
    (p, c) ∈ t := by
  induction t with
  | nil => cases h
  | cons e t ih =>
    obtain ⟨k, d⟩ := e
    unfold find at h
    by_cases hk : k = p
    · rw [if_pos hk] at h
      cases h
      rw [hk]
      exact List.mem_cons_self _ _
    · rw [if_neg hk] at h
      exact List.mem_cons_of_mem _ (ih h)

theorem positionsMatch_find {t : ChunkTable} (h : PositionsMatch t) {p : Coord} {c : Chunk}
    (hc : find t p = some c) : c.chunkPosition = p :=
  h (p, c) (mem_of_find t p c hc)

theorem positionsMatch_setState (t : ChunkTable) (p : Coord) (s : State)
    (h : PositionsMatch t) : PositionsMatch (setState t p s) := by
  induction t with
  | nil => exact h
  | cons e t ih =>
    obtain ⟨k, c⟩ := e
    have ht : PositionsMatch t := fun e he => h e (List.mem_cons_of_mem _ he)
    have hk : c.chunkPosition = k := h (k, c) (List.mem_cons_self _ _)
    unfold setState
    split
    · intro e he
      rcases List.mem_cons.mp he with rfl | he2
      · exact hk
      · exact ht e he2
    · intro e he
      rcases List.mem_cons.mp he with rfl | he2
      · exact hk
      · exact ih ht e he2

theorem positionsMatch_setMesh (t : ChunkTable) (p : Coord)
    (h : PositionsMatch t) : PositionsMatch (setMesh t p) := by
  induction t with
  | nil => exact h
  | cons e t ih =>
    obtain ⟨k, c⟩ := e
    have ht : PositionsMatch t := fun e he => h e (List.mem_cons_of_mem _ he)
    have hk : c.chunkPosition = k := h (k, c) (List.mem_cons_self _ _)
    unfold setMesh
    split
    · intro e he
      rcases List.mem_cons.mp he with rfl | he2
      · exact hk
      · exact ht e he2
    · intro e he
      rcases List.mem_cons.mp he with rfl | he2
      · exact hk
      · exact ih ht e he2

theorem positionsMatch_filter (t : ChunkTable) (f : Coord × Chunk → Bool)
    (h : PositionsMatch t) : PositionsMatch (t.filter f) :=
  fun e he => h e (List.mem_filter.mp he).1

theorem positionsMatch_TryCreateAndFillChunk (w : World) (p : Coord)
    (h : PositionsMatch w.m_chunks) : PositionsMatch (TryCreateAndFillChunk w p).m_chunks := by
  rw [chunks_TryCreateAndFillChunk]
  cases find w.m_chunks p with
  | some c => exact h
  | none =>
    apply positionsMatch_setState
    intro e he
    rcases List.mem_append.mp he with he1 | he2
    · exact h e he1
    · rw [List.mem_singleton] at he2
      subst he2
      rfl

theorem positionsMatch_createPass (boundXZ boundY : Int) (chunkPos : Coord) (w : World)
    (h : PositionsMatch w.m_chunks) :
    PositionsMatch (createPass boundXZ boundY chunkPos w).m_chunks := by
  rw [createPass_eq_foldl]
  apply foldl_invariant (fun s : World × Int => PositionsMatch s.1.m_chunks) createBody _
    (w, 0) h
  intro s a _ hs
  exact positionsMatch_TryCreateAndFillChunk s.1 a hs

theorem positionsMatch_runForChunkBody (sc : StateCodes) (newState minState : State)
    (it : World → Coord → Coord → List (Option Chunk) → World)
    (hit : ∀ w pos chunk n, PositionsMatch w.m_chunks →
      PositionsMatch (it w pos chunk n).m_chunks)
    (acc : World × Int) (a : Coord) (h : PositionsMatch acc.1.m_chunks) :
    PositionsMatch (runForChunkBody sc newState minState it acc a).1.m_chunks := by
  rcases runForChunkBody_cases sc newState minState it acc a with h1 | ⟨_, _, _, _, hrun⟩
  · rw [h1]
    exact h
  · rw [hrun]
    exact hit _ _ _ _ h

theorem positionsMatch_TrySurfacePassAndMesh (cfg : Config) (w : World) (pos chunk : Coord)
    (n : List (Option Chunk)) (h : PositionsMatch w.m_chunks) :
    PositionsMatch (TrySurfacePassAndMesh cfg w pos chunk n).m_chunks := by
  rw [chunks_TrySurfacePassAndMesh]
  split
  · exact positionsMatch_setState _ _ _ h
  · exact positionsMatch_setState _ _ _ (positionsMatch_setState _ _ _ h)

theorem positionsMatch_samplingBody (cfg : Config) (acc : World × Int) (a : Coord)
    (h : PositionsMatch acc.1.m_chunks) :
    PositionsMatch (samplingBody cfg acc a).1.m_chunks :=
  positionsMatch_runForChunkBody _ _ _ _
    (fun w _ chunk _ hw => positionsMatch_setState w.m_chunks chunk State.Sampling hw) acc a h

theorem positionsMatch_surfaceMeshBody (cfg : Config) (acc : World × Int) (a : Coord)
    (h : PositionsMatch acc.1.m_chunks) :
    PositionsMatch (surfaceMeshBody cfg acc a).1.m_chunks :=
  positionsMatch_runForChunkBody _ _ _ _
    (fun w pos chunk n hw => positionsMatch_TrySurfacePassAndMesh cfg w pos chunk n hw) acc a h

theorem samplingPass_eq_foldl (cfg : Config) (boundXZ boundY : Int) (chunkPos : Coord)
    (inset : Int) (w : World) :
    samplingPass cfg boundXZ boundY chunkPos inset w =
      ((boundCoords boundXZ boundY chunkPos inset).foldl (samplingBody cfg) (w, 0)).1 := by
  unfold samplingPass RunForChunkInBound
  rw [forBound_eq_foldl]
  rfl

theorem surfaceMeshPass_eq_foldl (cfg : Config) (boundXZ boundY : Int) (chunkPos : Coord)
    (inset : Int) (w : World) :
    surfaceMeshPass cfg boundXZ boundY chunkPos inset w =
      ((boundCoords boundXZ boundY chunkPos inset).foldl (surfaceMeshBody cfg) (w, 0)).1 := by
  unfold surfaceMeshPass RunForChunkInBound
  rw [forBound_eq_foldl]
  rfl

theorem positionsMatch_samplingPass (cfg : Config) (boundXZ boundY : Int) (chunkPos : Coord)
    (inset : Int) (w : World) (h : PositionsMatch w.m_chunks) :
    PositionsMatch (samplingPass cfg boundXZ boundY chunkPos inset w).m_chunks := by
  rw [samplingPass_eq_foldl]
  apply foldl_invariant (fun s : World × Int => PositionsMatch s.1.m_chunks) _ _ (w, 0) h
  intro s a _ hs
  exact positionsMatch_samplingBody cfg s a hs

theorem positionsMatch_surfaceMeshPass (cfg : Config) (boundXZ boundY : Int)
    (chunkPos : Coord) (inset : Int) (w : World) (h : PositionsMatch w.m_chunks) :
    PositionsMatch (surfaceMeshPass cfg boundXZ boundY chunkPos inset w).m_chunks := by
  rw [surfaceMeshPass_eq_foldl]
  apply foldl_invariant (fun s : World × Int => PositionsMatch s.1.m_chunks) _ _ (w, 0) h
  intro s a _ hs
  exact positionsMatch_surfaceMeshBody cfg s a hs

/-! ## C18: the shrinking insets -/

theorem atLeast_of_advances {w w2 : World} (h : Advances w w2) (p : Coord) (s : State)
    (hp : AtLeast w.m_chunks p s) : AtLeast w2.m_chunks p s := by
  obtain ⟨c, hc, hle⟩ := hp
  obtain ⟨c2, hc2, hle2⟩ := h p c hc
  exact ⟨c2, hc2, le_trans hle hle2⟩

theorem neighbourOffsets_bounds (o : Int × Int × Int) (h : o ∈ neighbourOffsets) :
    (-1 ≤ o.1 ∧ o.1 ≤ 1) ∧ (-1 ≤ o.2.1 ∧ o.2.1 ≤ 1) ∧ (-1 ≤ o.2.2 ∧ o.2.2 ≤ 1) := by
  have hall : ∀ o ∈ neighbourOffsets,
      (-1 ≤ o.1 ∧ o.1 ≤ 1) ∧ (-1 ≤ o.2.1 ∧ o.2.1 ≤ 1) ∧ (-1 ≤ o.2.2 ∧ o.2.2 ≤ 1) := by
    decide
  exact hall o h

/-- The 27 coordinates around a coordinate of the bound with inset `k + 1` lie in the
bound with inset `k`. -/
theorem offset_mem_boundCoords (sizeXZ sizeY : Int) (center : Coord) (k : Int) (p : Coord)
    (hp : p ∈ boundCoords sizeXZ sizeY center (k + 1)) (o : Int × Int × Int)
    (ho : o ∈ neighbourOffsets) : p.offset o ∈ boundCoords sizeXZ sizeY center k := by
  rw [mem_boundCoords] at hp ⊢
  obtain ⟨⟨h1, h2⟩, ⟨h3, h4⟩, h5, h6⟩ := neighbourOffsets_bounds o ho
  obtain ⟨⟨a1, a2⟩, ⟨a3, a4⟩, a5, a6⟩ := hp
  unfold Coord.offset
  simp only
  refine ⟨⟨?_, ?_⟩, ⟨?_, ?_⟩, ?_, ?_⟩ <;> omega

/-- The sampling step at `a` leaves the chunk at `a` at Sampling or later when the 27
coordinates around `a` hold chunks. -/
theorem samplingBody_atLeast (cfg : Config) (hv : cfg.codes.Ascending) (acc : World × Int)
    (a : Coord) (hpm : PositionsMatch acc.1.m_chunks)
    (hpres : ∀ o ∈ neighbourOffsets, (find acc.1.m_chunks (a.offset o)).isSome) :
    AtLeast (samplingBody cfg acc a).1.m_chunks a State.Sampling := by
  have h0 : ((0, 0, 0) : Int × Int × Int) ∈ neighbourOffsets := by decide
  have hself := hpres _ h0
  rw [offset_zero] at hself
  obtain ⟨c, hc⟩ := Option.isSome_iff_exists.mp hself
  have hpos := positionsMatch_find hpm hc
  by_cases hge : c.state.toInt cfg.codes ≥ State.Sampling.toInt cfg.codes
  · have hrun : (samplingBody cfg acc a).1 = acc.1 := by
      unfold samplingBody runForChunkBody
      rw [hc]
      simp only [if_pos hge]
    rw [hrun]
    exact ⟨c, hc, (toInt_le_iff_rank cfg.codes hv _ _).mp hge⟩
  · have hready : NeighboursReady acc.1.m_chunks a State.GridData := by
      intro o ho
      obtain ⟨d, hd⟩ := Option.isSome_iff_exists.mp (hpres o (mem_block26 o ho))
      exact ⟨d, hd, Nat.zero_le _⟩
    have hgate := gate_open_of_ready cfg.codes hv acc.1.m_chunks a State.GridData c hc
      (Nat.zero_le _) hready
    have hrun : (samplingBody cfg acc a).1 =
        TrySamplingPass acc.1 a a
          (GetChunkNeighbours cfg.codes acc.1.m_chunks a
            (State.Complete.toInt cfg.codes)).1 := by
      unfold samplingBody runForChunkBody
      rw [hc]
      simp only [if_neg hge, hpos]
      rw [if_pos hgate]
    refine ⟨{ c with state := State.Sampling }, ?_, le_refl _⟩
    rw [hrun, find_TrySamplingPass, if_pos rfl, hc]
    rfl

theorem samplingFold_atLeast (cfg : Config) (hv : cfg.codes.Ascending) (l : List Coord)
    (acc : World × Int) (hpm : PositionsMatch acc.1.m_chunks)
    (hpres : ∀ a ∈ l, ∀ o ∈ neighbourOffsets, (find acc.1.m_chunks (a.offset o)).isSome)
    (p : Coord) (hp : p ∈ l) :
    AtLeast (l.foldl (samplingBody cfg) acc).1.m_chunks p State.Sampling := by
  induction l generalizing acc with
  | nil => cases hp
  | cons a l ih =>
    rw [List.foldl_cons]
    have hadv := advances_samplingBody cfg hv acc a
    rcases List.mem_cons.mp hp with rfl | hl
    · have h1 := samplingBody_atLeast cfg hv acc p hpm (hpres p (List.mem_cons_self _ _))
      exact atLeast_of_advances
        (advances_foldl _ l _ (fun s b => advances_samplingBody cfg hv s b)) p _ h1
    · apply ih _ (positionsMatch_samplingBody cfg acc a hpm) _ hl
      intro b hb o ho
      exact present_of_advances hadv _ (hpres b (List.mem_cons_of_mem _ hb) o ho)

/-- The surface and mesh step at `a` leaves the chunk at `a` at Surface or later when the
27 coordinates around `a` hold chunks at Sampling or later. -/
theorem surfaceMeshBody_atLeast (cfg : Config) (hv : cfg.codes.Ascending)
    (acc : World × Int) (a : Coord) (hpm : PositionsMatch acc.1.m_chunks)
    (hready : ∀ o ∈ neighbourOffsets, AtLeast acc.1.m_chunks (a.offset o) State.Sampling) :
    AtLeast (surfaceMeshBody cfg acc a).1.m_chunks a State.Surface := by
  have h0 : ((0, 0, 0) : Int × Int × Int) ∈ neighbourOffsets := by decide
  have hself := hready _ h0
  rw [offset_zero] at hself
  obtain ⟨c, hc, hrank⟩ := hself
  have hpos := positionsMatch_find hpm hc
  by_cases hge : c.state.toInt cfg.codes ≥ State.Complete.toInt cfg.codes
  · have hrun : (surfaceMeshBody cfg acc a).1 = acc.1 := by
      unfold surfaceMeshBody runForChunkBody
      rw [hc]
      simp only [if_pos hge]
    rw [hrun]
    have h3 := (toInt_le_iff_rank cfg.codes hv _ _).mp hge
    exact ⟨c, hc, le_trans (by decide) h3⟩
  · have hgate := gate_open_of_ready cfg.codes hv acc.1.m_chunks a State.Sampling c hc
      hrank (fun o ho => hready o (mem_block26 o ho))
    have hrun : (surfaceMeshBody cfg acc a).1 =
        TrySurfacePassAndMesh cfg acc.1 a a
          (GetChunkNeighbours cfg.codes acc.1.m_chunks a
            (State.Complete.toInt cfg.codes)).1 := by
      unfold surfaceMeshBody runForChunkBody
      rw [hc]
      simp only [if_neg hge, hpos]
      rw [if_pos hgate]
    rw [hrun, chunks_TrySurfacePassAndMesh]
    split
    · refine ⟨{ c with state := State.Surface }, ?_, le_refl _⟩
      rw [find_setState, if_pos rfl, hc]
      rfl
    · refine ⟨{ c with state := State.Complete }, ?_,
        (show State.Surface.rank ≤ State.Complete.rank by decide)⟩
      rw [find_setState, if_pos rfl, find_setState, if_pos rfl, hc]
      rfl

theorem surfaceMeshFold_atLeast (cfg : Config) (hv : cfg.codes.Ascending) (l : List Coord)
    (acc : World × Int) (hpm : PositionsMatch acc.1.m_chunks)
    (hready : ∀ a ∈ l, ∀ o ∈ neighbourOffsets,
      AtLeast acc.1.m_chunks (a.offset o) State.Sampling)
    (p : Coord) (hp : p ∈ l) :
    AtLeast (l.foldl (surfaceMeshBody cfg) acc).1.m_chunks p State.Surface := by
  induction l generalizing acc with
  | nil => cases hp
  | cons a l ih =>
    rw [List.foldl_cons]
    have hadv := advances_surfaceMeshBody cfg hv acc a
    rcases List.mem_cons.mp hp with rfl | hl
    · have h1 := surfaceMeshBody_atLeast cfg hv acc p hpm (hready p (List.mem_cons_self _ _))
      exact atLeast_of_advances
        (advances_foldl _ l _ (fun s b => advances_surfaceMeshBody cfg hv s b)) p _ h1
    · apply ih _ (positionsMatch_surfaceMeshBody cfg acc a hpm) _ hl
      intro b hb o ho
      exact atLeast_of_advances hadv _ _ (hready b (List.mem_cons_of_mem _ hb) o ho)

/-- After the create pass and the sampling pass with inset 1, every coordinate of the
inset-1 bound holds a chunk at Sampling or later. -/
theorem atLeast_sampling_after_passes (cfg : Config) (hv : cfg.codes.Ascending)
    (sizeXZ sizeY : Int) (center : Coord) (w : World) (hpm : PositionsMatch w.m_chunks)
    (p : Coord) (hp : p ∈ boundCoords sizeXZ sizeY center 1) :
    AtLeast (samplingPass cfg sizeXZ sizeY center 1
      (createPass sizeXZ sizeY center w)).m_chunks p State.Sampling := by
  rw [samplingPass_eq_foldl]
  apply samplingFold_atLeast cfg hv _ (createPass sizeXZ sizeY center w, 0)
    (positionsMatch_createPass _ _ _ w hpm) _ p hp
  intro a ha o ho
  show (find (createPass sizeXZ sizeY center w).m_chunks (a.offset o)).isSome
  rw [createPass_eq_foldl]
  apply present_createFold
  exact offset_mem_boundCoords sizeXZ sizeY center 0 a (by simpa using ha) o ho

/-- C18: let every chunk of the table be stored under its own position. After the
create pass over the full bound, the sampling pass with inset 1 and the surface and
mesh pass with inset 2, every coordinate of the inset-1 bound holds a chunk at
Sampling or later and every coordinate of the inset-2 bound holds a chunk at Surface
or later. -/
theorem shrinking_insets (cfg : Config) (hv : cfg.codes.Ascending) (w : World)
    (hpm : PositionsMatch w.m_chunks) (sizeXZ sizeY : Int) (center : Coord) :
    (∀ p ∈ boundCoords sizeXZ sizeY center 1,
      AtLeast (surfaceMeshPass cfg sizeXZ sizeY center 2 (samplingPass cfg sizeXZ sizeY center 1
        (createPass sizeXZ sizeY center w))).m_chunks p State.Sampling) ∧
    (∀ p ∈ boundCoords sizeXZ sizeY center 2,
      AtLeast (surfaceMeshPass cfg sizeXZ sizeY center 2 (samplingPass cfg sizeXZ sizeY center 1
        (createPass sizeXZ sizeY center w))).m_chunks p State.Surface) := by
  constructor
  · intro p hp
    exact atLeast_of_advances (advances_surfaceMeshPass cfg hv _ _ _ _ _) p _
      (atLeast_sampling_after_passes cfg hv sizeXZ sizeY center w hpm p hp)
  · intro p hp
    rw [surfaceMeshPass_eq_foldl]
    apply surfaceMeshFold_atLeast cfg hv _
      (samplingPass cfg sizeXZ sizeY center 1 (createPass sizeXZ sizeY center w), 0)
      (positionsMatch_samplingPass cfg _ _ _ _ _ (positionsMatch_createPass _ _ _ w hpm)) _ p hp
    intro a ha o ho
    exact atLeast_sampling_after_passes cfg hv sizeXZ sizeY center w hpm _
      (offset_mem_boundCoords sizeXZ sizeY center 1 a (by simpa using ha) o ho)

/-- Witness of `shrinking_insets`: an empty table, sizes (2, 2) around the origin: the
centre is in the inset-2 bound and holds a chunk at Surface or later afterwards. -/
theorem shrinking_insets_witness :
    (cfgOf 1).codes.Ascending ∧ PositionsMatch (worldOf []).m_chunks ∧
    (⟨0, 0, 0⟩ : Coord) ∈ boundCoords 2 2 ⟨0, 0, 0⟩ 2 ∧
    AtLeast (surfaceMeshPass (cfgOf 1) 2 2 ⟨0, 0, 0⟩ 2 (samplingPass (cfgOf 1) 2 2 ⟨0, 0, 0⟩ 1
      (createPass 2 2 ⟨0, 0, 0⟩ (worldOf [])))).m_chunks ⟨0, 0, 0⟩ State.Surface :=
  ⟨by decide, by decide, by decide,
    (shrinking_insets (cfgOf 1) (by decide) (worldOf []) (by decide) 2 2 ⟨0, 0, 0⟩).2
      ⟨0, 0, 0⟩ (by decide)⟩

/-! ## C11: uniqueness in the apply queue -/

theorem not_mem_queue_of_not_complete {w : World} (h : PendingSettled w) {a : Coord}
    {c : Chunk} (hc : find w.m_chunks a = some c) (hs : c.state ≠ State.Complete) :
    a ∉ w.m_applyMeshQueue :=
  fun hmem => hs (h a hmem c hc)

/-- Changing the state of a chunk that is not Complete, without touching the apply
queue, keeps the invariant. -/
theorem uniqueInv_setState (w w2 : World) (a : Coord) (s : State) (c : Chunk)
    (hk : UniqueInv w) (hc : find w.m_chunks a = some c) (hs : c.state ≠ State.Complete)
    (h2 : w2.m_chunks = setState w.m_chunks a s)
    (hq : w2.m_applyMeshQueue = w.m_applyMeshQueue) : UniqueInv w2 := by
  obtain ⟨hnd, hpm, hps⟩ := hk
  refine ⟨by rw [hq]; exact hnd, by rw [h2]; exact positionsMatch_setState _ _ _ hpm, ?_⟩
  intro p hp d hd
  rw [hq] at hp
  have hpa : p ≠ a := fun h => not_mem_queue_of_not_complete hps hc hs (h ▸ hp)
  rw [h2, find_setState, if_neg hpa] at hd
  exact hps p hp d hd

/-- Setting a chunk that is not Complete to Complete and appending its coordinate to the
apply queue keeps the invariant. -/
theorem uniqueInv_push (w w2 : World) (a : Coord) (c : Chunk)
    (hk : UniqueInv w) (hc : find w.m_chunks a = some c) (hs : c.state ≠ State.Complete)
    (h2 : ∀ q, find w2.m_chunks q =
      if q = a then some { c with state := State.Complete } else find w.m_chunks q)
    (hpm2 : PositionsMatch w2.m_chunks)
    (hq : w2.m_applyMeshQueue = w.m_applyMeshQueue ++ [a]) : UniqueInv w2 := by
  obtain ⟨hnd, _, hps⟩ := hk
  have hnot := not_mem_queue_of_not_complete hps hc hs
  refine ⟨?_, hpm2, ?_⟩
  · rw [hq, List.nodup_append]
    refine ⟨hnd, List.nodup_singleton a, ?_⟩
    intro p hp hp2
    rw [List.mem_singleton] at hp2
    exact hnot (hp2 ▸ hp)
  · intro p hp d hd
    rw [h2] at hd
    by_cases hpa : p = a
    · rw [if_pos hpa] at hd
      simp only [Option.mem_def, Option.some.injEq] at hd
      rw [← hd]
    · rw [if_neg hpa] at hd
      rw [hq] at hp
      rcases List.mem_append.mp hp with hp1 | hp1
      · exact hps p hp1 d hd
      · rw [List.mem_singleton] at hp1
        exact absurd hp1 hpa

theorem uniqueInv_TrySurfacePassAndMesh (cfg : Config) (w : World) (a : Coord)
    (n : List (Option Chunk)) (c : Chunk) (hk : UniqueInv w)
    (hc : find w.m_chunks a = some c) (hs : c.state ≠ State.Complete) :
    UniqueInv (TrySurfacePassAndMesh cfg w a a n) := by
  by_cases hfull : (w.m_applyMeshQueue.length : Int) ≥ (cfg.MAX_MESH_IN_APPLY_QUEUE : Int)
  · apply uniqueInv_setState w _ a State.Surface c hk hc hs
    · rw [chunks_TrySurfacePassAndMesh, if_pos hfull]
    · unfold TrySurfacePassAndMesh
      simp only [if_pos hfull]
  · apply uniqueInv_push w _ a c hk hc hs
    · intro q
      rw [chunks_TrySurfacePassAndMesh, if_neg hfull, find_setState]
      by_cases hq : q = a
      · rw [if_pos hq, if_pos hq, find_setState, if_pos rfl, hc]
        rfl
      · rw [if_neg hq, if_neg hq, find_setState, if_neg hq]
    · exact positionsMatch_TrySurfacePassAndMesh cfg w a a n hk.2.1
    · unfold TrySurfacePassAndMesh
      simp only [if_neg hfull]

theorem uniqueInv_surfaceMeshBody (cfg : Config) (acc : World × Int) (a : Coord)
    (hk : UniqueInv acc.1) : UniqueInv (surfaceMeshBody cfg acc a).1 := by
  rcases runForChunkBody_cases cfg.codes State.Complete State.Sampling
    (TrySurfacePassAndMesh cfg) acc a with h | ⟨chunk, hf, hlt, _, hrun⟩
  · unfold surfaceMeshBody
    rw [h]
    exact hk
  · unfold surfaceMeshBody
    rw [hrun, positionsMatch_find hk.2.1 hf]
    apply uniqueInv_TrySurfacePassAndMesh cfg acc.1 a _ chunk hk hf
    intro hs
    rw [hs] at hlt
    exact lt_irrefl _ hlt

theorem uniqueInv_samplingBody (cfg : Config) (hv : cfg.codes.Ascending) (acc : World × Int)
    (a : Coord) (hk : UniqueInv acc.1) : UniqueInv (samplingBody cfg acc a).1 := by
  rcases runForChunkBody_cases cfg.codes State.Sampling State.GridData TrySamplingPass acc a
    with h | ⟨chunk, hf, hlt, _, hrun⟩
  · unfold samplingBody
    rw [h]
    exact hk
  · unfold samplingBody
    rw [hrun]
    refine uniqueInv_setState acc.1 (TrySamplingPass acc.1 chunk.chunkPosition a _) a
      State.Sampling chunk hk hf ?_ rfl rfl
    intro hs
    rw [hs] at hlt
    have h3 := hv.2.2.1
    have h4 := hv.2.2.2
    simp only [State.toInt] at hlt
    omega

theorem uniqueInv_samplingPass (cfg : Config) (hv : cfg.codes.Ascending)
    (boundXZ boundY : Int) (chunkPos : Coord) (inset : Int) (w : World) (hk : UniqueInv w) :
    UniqueInv (samplingPass cfg boundXZ boundY chunkPos inset w) := by
  rw [samplingPass_eq_foldl]
  apply foldl_invariant (fun s : World × Int => UniqueInv s.1) _ _ (w, 0) hk
  intro s a _ hs
  exact uniqueInv_samplingBody cfg hv s a hs

theorem uniqueInv_surfaceMeshPass (cfg : Config) (boundXZ boundY : Int) (chunkPos : Coord)
    (inset : Int) (w : World) (hk : UniqueInv w) :
    UniqueInv (surfaceMeshPass cfg boundXZ boundY chunkPos inset w) := by
  rw [surfaceMeshPass_eq_foldl]
  apply foldl_invariant (fun s : World × Int => UniqueInv s.1) _ _ (w, 0) hk
  intro s a _ hs
  exact uniqueInv_surfaceMeshBody cfg s a hs

theorem uniqueInv_missingMeshLoop (cfg : Config) (queue : List Coord) (n : Int) (w : World)
    (hk : UniqueInv w) : UniqueInv (missingMeshLoop cfg queue n w) := by
  induction queue generalizing n w with
  | nil => exact hk
  | cons pos rest ih =>
    have hk1 : UniqueInv { w with m_missingMeshQueue := rest } := hk
    unfold missingMeshLoop
    split
    · simp only
      split
      · exact ih _ _ hk1
      · rename_i chunk hf
        split
        · exact ih _ _ hk1
        · rename_i hs
          split
          · exact ih _ _ hk1
          · apply ih
            apply uniqueInv_push { w with m_missingMeshQueue := rest } _ pos chunk hk1 hf hs
            · intro q
              show find (setState w.m_chunks pos State.Complete) q = _
              rw [find_setState]
              by_cases hq : q = pos
              · rw [if_pos hq, if_pos hq]
                have hf2 : find w.m_chunks pos = some chunk := hf
                rw [hf2]
                rfl
              · rw [if_neg hq, if_neg hq]
            · exact positionsMatch_setState _ _ _ hk.2.1
            · rfl
    · exact hk

theorem applyQueue_createFold (l : List Coord) (acc : World × Int) :
    (l.foldl createBody acc).1.m_applyMeshQueue = acc.1.m_applyMeshQueue := by
  apply foldl_invariant (fun s : World × Int =>
    s.1.m_applyMeshQueue = acc.1.m_applyMeshQueue) createBody l acc rfl
  intro s a _ hs
  rw [← hs]
  exact applyQueue_TryCreateAndFillChunk s.1 a

/-- The create step keeps the invariant when it does not create a chunk at a coordinate
of the apply queue. -/
theorem uniqueInv_TryCreateAndFillChunk (w : World) (a : Coord) (hk : UniqueInv w)
    (hkept : a ∈ w.m_applyMeshQueue → (find w.m_chunks a).isSome) :
    UniqueInv (TryCreateAndFillChunk w a) := by
  obtain ⟨hnd, hpm, hps⟩ := hk
  refine ⟨by rw [applyQueue_TryCreateAndFillChunk]; exact hnd,
    positionsMatch_TryCreateAndFillChunk w a hpm, ?_⟩
  intro p hp d hd
  rw [applyQueue_TryCreateAndFillChunk] at hp
  rw [find_TryCreateAndFillChunk] at hd
  cases hf : find w.m_chunks p with
  | some c =>
    rw [hf] at hd
    exact hps p hp d (by rw [hf]; exact hd)
  | none =>
    rw [hf] at hd
    by_cases hpa : p = a
    · subst hpa
      have := hkept hp
      rw [hf] at this
      cases this
    · simp only [hpa, if_false] at hd
      cases hd

theorem uniqueInv_createPass (boundXZ boundY : Int) (chunkPos : Coord) (w : World)
    (hk : UniqueInv w)
    (hkept : ∀ p ∈ w.m_applyMeshQueue, InCuboid chunkPos boundXZ boundY p →
      (find w.m_chunks p).isSome) :
    UniqueInv (createPass boundXZ boundY chunkPos w) := by
  rw [createPass_eq_foldl]
  have h : UniqueInv ((boundCoords boundXZ boundY chunkPos 0).foldl createBody (w, 0)).1 ∧
      ((boundCoords boundXZ boundY chunkPos 0).foldl createBody (w, 0)).1.m_applyMeshQueue =
        w.m_applyMeshQueue ∧
      Advances w ((boundCoords boundXZ boundY chunkPos 0).foldl createBody (w, 0)).1 := by
    apply foldl_invariant (fun s : World × Int =>
      UniqueInv s.1 ∧ s.1.m_applyMeshQueue = w.m_applyMeshQueue ∧ Advances w s.1) createBody
    · exact ⟨hk, rfl, advances_refl w⟩
    · rintro s a ha ⟨hs, hq, hadv⟩
      refine ⟨?_, ?_, advances_trans hadv (advances_TryCreateAndFillChunk s.1 a)⟩
      · apply uniqueInv_TryCreateAndFillChunk s.1 a hs
        intro hmem
        rw [hq] at hmem
        exact present_of_advances hadv a
          (hkept a hmem ((mem_boundCoords_zero _ _ _ _).mp ha))
      · show (TryCreateAndFillChunk s.1 a).m_applyMeshQueue = _
        rw [applyQueue_TryCreateAndFillChunk, hq]
  exact h.1

theorem uniqueInv_UnloadFarChunks (center : Coord) (rXZ rY : Int) (w : World)
    (hk : UniqueInv w) : UniqueInv (UnloadFarChunks center rXZ rY w) := by
  obtain ⟨hnd, hpm, hps⟩ := hk
  have hq : (UnloadFarChunks center rXZ rY w).m_applyMeshQueue = w.m_applyMeshQueue :=
    applyQueue_unloadFold _ w
  refine ⟨by rw [hq]; exact hnd, ?_, ?_⟩
  · rw [chunks_UnloadFarChunks_inRange]
    exact positionsMatch_filter _ _ hpm
  · intro p hp d hd
    rw [hq] at hp
    rw [find_UnloadFarChunks] at hd
    split at hd
    · exact hps p hp d hd
    · cases hd

theorem positionsMatch_applyFold (l : List Coord) (w : World)
    (h : PositionsMatch w.m_chunks) : PositionsMatch (l.foldl applyStep w).m_chunks := by
  apply foldl_invariant (fun s : World => PositionsMatch s.m_chunks) applyStep l w h
  intro s a _ hs
  unfold applyStep
  cases find s.m_chunks a with
  | none => exact hs
  | some chunk =>
    simp only
    split
    · exact hs
    · exact positionsMatch_setMesh _ _ hs

theorem uniqueInv_OnUpdate (w : World) (hk : UniqueInv w) : UniqueInv (OnUpdate w) := by
  refine ⟨List.nodup_nil, positionsMatch_applyFold _ w hk.2.1, ?_⟩
  intro p hp
  cases hp

theorem uniqueInv_OnPlayerMove (cfg : Config) (w : World) (position : Coord)
    (hk : UniqueInv w) : UniqueInv (OnPlayerMove cfg w position) := by
  unfold OnPlayerMove
  simp only
  split
  · exact hk
  · exact hk

theorem uniqueInv_pipelineCycle (cfg : Config) (hv : cfg.codes.Ascending)
    (boundXZ boundY : Int) (w : World) (hk : UniqueInv w)
    (hkept : PendingKept boundXZ boundY w) :
    UniqueInv (pipelineCycle cfg boundXZ boundY w) := by
  unfold pipelineCycle
  apply uniqueInv_UnloadFarChunks
  apply uniqueInv_surfaceMeshPass
  apply uniqueInv_samplingPass cfg hv
  exact uniqueInv_createPass boundXZ boundY w.m_lastChunkPosSync
    { w with m_chunkPosChangedSync := false } hk hkept

theorem uniqueInv_runOps (cfg : Config) (hv : cfg.codes.Ascending) (boundXZ boundY : Int)
    (ops : List Op) (w : World) (hk : UniqueInv w)
    (hrun : NoPendingRecreation cfg boundXZ boundY ops w) :
    UniqueInv (runOps cfg boundXZ boundY ops w) := by
  induction ops generalizing w with
  | nil => exact hk
  | cons op ops ih =>
    rw [runOps_cons]
    obtain ⟨hop, hrest⟩ := hrun
    apply ih _ _ hrest
    cases op with
    | playerMove position => exact uniqueInv_OnPlayerMove cfg w position hk
    | threadStep =>
      rw [applyOp_threadStep]
      unfold threadIteration
      by_cases hflag : w.m_chunkPosChangedSync = true
      · simp only [hflag, Bool.not_true, Bool.false_eq_true, if_false]
        exact uniqueInv_pipelineCycle cfg hv boundXZ boundY w hk (hop rfl hflag)
      · have hf : w.m_chunkPosChangedSync = false := by
          cases h : w.m_chunkPosChangedSync
          · rfl
          · exact absurd h hflag
        simp only [hf, Bool.not_false, if_true]
        exact uniqueInv_missingMeshLoop cfg _ _ w hk
    | update => exact uniqueInv_OnUpdate w hk

theorem applyQueue_OnPlayerMove (cfg : Config) (w : World) (position : Coord) :
    (OnPlayerMove cfg w position).m_applyMeshQueue = w.m_applyMeshQueue := by
  unfold OnPlayerMove
  simp only
  split <;> rfl

/-- C11 (as amended): with the states numbered ascending, in every world reached from
the initial world (empty table, empty queues) by a sequence of `OnPlayerMove`, thread
iterations (pipeline cycles and idle retries) and `OnUpdate` in which no pipeline cycle
starts while a coordinate of its creation cuboid is in the apply queue without a chunk
in the table, no coordinate occurs more than once in the apply queue. -/
theorem applyQueue_unique (cfg : Config) (hv : cfg.codes.Ascending) (boundXZ boundY : Int)
    (lastChunkPos sync : Coord) (changed : Bool) (ops : List Op)
    (hrun : NoPendingRecreation cfg boundXZ boundY ops (initWorld lastChunkPos sync changed)) :
    (runOps cfg boundXZ boundY ops
      (initWorld lastChunkPos sync changed)).m_applyMeshQueue.Nodup := by
  have h0 : UniqueInv (initWorld lastChunkPos sync changed) := by
    refine ⟨List.nodup_nil, ?_, ?_⟩
    · intro e he
      cases he
    · intro p hp
      cases hp
  exact (uniqueInv_runOps cfg hv boundXZ boundY ops _ h0 hrun).1

/-! ## Lemmas on whole runs -/

theorem mem_boundCoords_iff_inBound (sizeXZ sizeY : Int) (center : Coord) (inset : Int)
    (p : Coord) :
    p ∈ boundCoords sizeXZ sizeY center inset ↔ InBound center sizeXZ sizeY inset p :=
  mem_boundCoords sizeXZ sizeY center inset p

theorem loopRange_cons (lo hi : Int) (h : lo ≤ hi) :
    loopRange lo hi = lo :: loopRange (lo + 1) hi := by
  unfold loopRange
  have hn : (hi + 1 - lo).toNat = (hi + 1 - (lo + 1)).toNat + 1 := by omega
  rw [hn, List.range_succ_eq_map, List.map_cons, List.map_map]
  congr 1
  · simp
  · apply List.map_congr_left
    intro i _
    simp only [Function.comp, Nat.cast_succ]
    ring

theorem boundCoords_cons (sizeXZ sizeY : Int) (center : Coord) (inset : Int)
    (hxz : inset ≤ sizeXZ) (hy : inset ≤ sizeY) :
    ∃ rest, boundCoords sizeXZ sizeY center inset =
      firstCoord sizeXZ sizeY center inset :: rest := by
  unfold boundCoords firstCoord
  rw [loopRange_cons (center.x - sizeXZ + inset) _ (by omega),
    loopRange_cons (center.y - sizeY + inset) _ (by omega),
    loopRange_cons (center.z - sizeXZ + inset) _ (by omega)]
  simp only [List.flatMap_cons, List.map_cons, List.cons_append]
  exact ⟨_, rfl⟩

theorem boundCoords_cons_cons (sizeXZ sizeY : Int) (center : Coord) (inset : Int)
    (hxz : inset + 1 ≤ sizeXZ) (hy : inset ≤ sizeY) :
    ∃ rest, boundCoords sizeXZ sizeY center inset =
      firstCoord sizeXZ sizeY center inset :: secondCoord sizeXZ sizeY center inset :: rest := by
  unfold boundCoords firstCoord secondCoord
  rw [loopRange_cons (center.x - sizeXZ + inset) _ (by omega),
    loopRange_cons (center.y - sizeY + inset) _ (by omega),
    loopRange_cons (center.z - sizeXZ + inset) _ (by omega),
    loopRange_cons (center.z - sizeXZ + inset + 1) _ (by omega)]
  simp only [List.flatMap_cons, List.map_cons, List.cons_append]
  exact ⟨_, rfl⟩

/-! ### Queues through the passes -/

theorem applyQueue_createPass (boundXZ boundY : Int) (chunkPos : Coord) (w : World) :
    (createPass boundXZ boundY chunkPos w).m_applyMeshQueue = w.m_applyMeshQueue := by
  rw [createPass_eq_foldl]
  exact applyQueue_createFold _ (w, 0)

theorem missingQueue_TryCreateAndFillChunk (w : World) (p : Coord) :
    (TryCreateAndFillChunk w p).m_missingMeshQueue = w.m_missingMeshQueue := by
  unfold TryCreateAndFillChunk
  cases find w.m_chunks p <;> rfl

theorem missingQueue_createPass (boundXZ boundY : Int) (chunkPos : Coord) (w : World) :
    (createPass boundXZ boundY chunkPos w).m_missingMeshQueue = w.m_missingMeshQueue := by
  rw [createPass_eq_foldl]
  apply foldl_invariant (fun s : World × Int =>
    s.1.m_missingMeshQueue = w.m_missingMeshQueue) createBody _ (w, 0) rfl
  intro s a _ hs
  rw [← hs]
  exact missingQueue_TryCreateAndFillChunk s.1 a

theorem queues_samplingPass (cfg : Config) (boundXZ boundY : Int) (chunkPos : Coord)
    (inset : Int) (w : World) :
    (samplingPass cfg boundXZ boundY chunkPos inset w).m_applyMeshQueue = w.m_applyMeshQueue ∧
    (samplingPass cfg boundXZ boundY chunkPos inset w).m_missingMeshQueue =
      w.m_missingMeshQueue := by
  rw [samplingPass_eq_foldl]
  apply foldl_invariant (fun s : World × Int =>
    s.1.m_applyMeshQueue = w.m_applyMeshQueue ∧
      s.1.m_missingMeshQueue = w.m_missingMeshQueue) _ _ (w, 0) ⟨rfl, rfl⟩
  rintro s a _ ⟨hs1, hs2⟩
  rcases runForChunkBody_cases cfg.codes State.Sampling State.GridData TrySamplingPass s a
    with h | ⟨chunk, _, _, _, hrun⟩
  · unfold samplingBody
    rw [h]
    exact ⟨hs1, hs2⟩
  · unfold samplingBody
    rw [hrun]
    exact ⟨hs1, hs2⟩

theorem queues_UnloadFarChunks (center : Coord) (rXZ rY : Int) (w : World) :
    (UnloadFarChunks center rXZ rY w).m_applyMeshQueue = w.m_applyMeshQueue ∧
    (UnloadFarChunks center rXZ rY w).m_missingMeshQueue = w.m_missingMeshQueue := by
  unfold UnloadFarChunks
  apply foldl_invariant (fun s : World =>
    s.m_applyMeshQueue = w.m_applyMeshQueue ∧ s.m_missingMeshQueue = w.m_missingMeshQueue)
    unloadStep _ w ⟨rfl, rfl⟩
  rintro s a _ ⟨hs1, hs2⟩
  unfold unloadStep
  cases find s.m_chunks a with
  | none => exact ⟨hs1, hs2⟩
  | some chunk => exact ⟨hs1, hs2⟩

/-- What `TrySurfacePassAndMesh` does to the two queues. -/
theorem queues_TrySurfacePassAndMesh (cfg : Config) (w : World) (pos chunk : Coord)
    (n : List (Option Chunk)) :
    (cfg.MAX_MESH_IN_APPLY_QUEUE ≤ w.m_applyMeshQueue.length →
      (TrySurfacePassAndMesh cfg w pos chunk n).m_applyMeshQueue = w.m_applyMeshQueue ∧
      (TrySurfacePassAndMesh cfg w pos chunk n).m_missingMeshQueue =
        w.m_missingMeshQueue ++ [pos]) ∧
    (w.m_applyMeshQueue.length < cfg.MAX_MESH_IN_APPLY_QUEUE →
      (TrySurfacePassAndMesh cfg w pos chunk n).m_applyMeshQueue =
        w.m_applyMeshQueue ++ [pos] ∧
      (TrySurfacePassAndMesh cfg w pos chunk n).m_missingMeshQueue =
        w.m_missingMeshQueue) := by
  constructor
  · intro h
    have hge : (w.m_applyMeshQueue.length : Int) ≥ (cfg.MAX_MESH_IN_APPLY_QUEUE : Int) := by
      omega
    unfold TrySurfacePassAndMesh
    simp only [if_pos hge, and_self]
  · intro h
    have hlt : ¬ (w.m_applyMeshQueue.length : Int) ≥ (cfg.MAX_MESH_IN_APPLY_QUEUE : Int) := by
      omega
    unfold TrySurfacePassAndMesh
    simp only [if_neg hlt, and_self]

/-- One step of the surface and mesh pass only appends to the two queues, at most one
coordinate to the apply queue. -/
theorem queues_surfaceMeshBody (cfg : Config) (acc : World × Int) (a : Coord) :
    ∃ t u : List Coord,
      (surfaceMeshBody cfg acc a).1.m_applyMeshQueue = acc.1.m_applyMeshQueue ++ t ∧
      t.length ≤ 1 ∧
      (surfaceMeshBody cfg acc a).1.m_missingMeshQueue = acc.1.m_missingMeshQueue ++ u := by
  rcases runForChunkBody_cases cfg.codes State.Complete State.Sampling
    (TrySurfacePassAndMesh cfg) acc a with h | ⟨chunk, _, _, _, hrun⟩
  · unfold surfaceMeshBody
    rw [h]
    exact ⟨[], [], by simp, by simp, by simp⟩
  · unfold surfaceMeshBody
    rw [hrun]
    have hq := queues_TrySurfacePassAndMesh cfg acc.1 chunk.chunkPosition a
      (GetChunkNeighbours cfg.codes acc.1.m_chunks chunk.chunkPosition
        (State.Complete.toInt cfg.codes)).1
    by_cases hfull : cfg.MAX_MESH_IN_APPLY_QUEUE ≤ acc.1.m_applyMeshQueue.length
    · obtain ⟨h1, h2⟩ := hq.1 hfull
      exact ⟨[], [chunk.chunkPosition], by rw [h1]; simp, by simp, h2⟩
    · obtain ⟨h1, h2⟩ := hq.2 (by omega)
      exact ⟨[chunk.chunkPosition], [], h1, by simp, by rw [h2]; simp⟩

theorem queues_surfaceMeshFold (cfg : Config) (l : List Coord) (acc : World × Int) :
    ∃ t u : List Coord,
      (l.foldl (surfaceMeshBody cfg) acc).1.m_applyMeshQueue = acc.1.m_applyMeshQueue ++ t ∧
      t.length ≤ l.length ∧
      (l.foldl (surfaceMeshBody cfg) acc).1.m_missingMeshQueue =
        acc.1.m_missingMeshQueue ++ u := by
  induction l generalizing acc with
  | nil => exact ⟨[], [], by simp, by simp, by simp⟩
  | cons a l ih =>
    rw [List.foldl_cons]
    obtain ⟨t1, u1, h1, hl1, h2⟩ := queues_surfaceMeshBody cfg acc a
    obtain ⟨t2, u2, h3, hl2, h4⟩ := ih (surfaceMeshBody cfg acc a)
    refine ⟨t1 ++ t2, u1 ++ u2, ?_, ?_, ?_⟩
    · rw [h3, h1, List.append_assoc]
    · simp only [List.length_append, List.length_cons]
      omega
    · rw [h4, h2, List.append_assoc]

/-- A pipeline cycle only appends to the apply queue and to the missing-mesh queue, and
to the apply queue at most as many coordinates as the inset-2 bound has. -/
theorem queues_pipelineCycle (cfg : Config) (boundXZ boundY : Int) (w : World) :
    ∃ t u : List Coord,
      (pipelineCycle cfg boundXZ boundY w).m_applyMeshQueue = w.m_applyMeshQueue ++ t ∧
      t.length ≤ (boundCoords boundXZ boundY w.m_lastChunkPosSync 2).length ∧
      (pipelineCycle cfg boundXZ boundY w).m_missingMeshQueue =
        w.m_missingMeshQueue ++ u := by
  unfold pipelineCycle
  simp only
  rw [(queues_UnloadFarChunks _ _ _ _).1, (queues_UnloadFarChunks _ _ _ _).2,
    surfaceMeshPass_eq_foldl]
  obtain ⟨t, u, h1, hl, h2⟩ := queues_surfaceMeshFold cfg
    (boundCoords boundXZ boundY w.m_lastChunkPosSync 2)
    (samplingPass cfg boundXZ boundY w.m_lastChunkPosSync 1
      (createPass boundXZ boundY w.m_lastChunkPosSync
        { w with m_chunkPosChangedSync := false }), 0)
  refine ⟨t, u, ?_, hl, ?_⟩
  · rw [h1]
    show (samplingPass cfg boundXZ boundY w.m_lastChunkPosSync 1 _).m_applyMeshQueue ++ t = _
    rw [(queues_samplingPass _ _ _ _ _ _).1, applyQueue_createPass]
  · rw [h2]
    show (samplingPass cfg boundXZ boundY w.m_lastChunkPosSync 1 _).m_missingMeshQueue ++ u = _
    rw [(queues_samplingPass _ _ _ _ _ _).2, missingQueue_createPass]

/-! ### The observer through a move and a cycle -/

theorem positionsMatch_pipelineCycle (cfg : Config) (boundXZ boundY : Int) (w : World)
    (h : PositionsMatch w.m_chunks) :
    PositionsMatch (pipelineCycle cfg boundXZ boundY w).m_chunks := by
  rw [chunks_pipelineCycle]
  apply positionsMatch_filter
  apply positionsMatch_surfaceMeshPass
  apply positionsMatch_samplingPass
  exact positionsMatch_createPass _ _ _ _ h

theorem observer_cycleAt (cfg : Config) (boundXZ boundY : Int) (c : Coord) (w : World) :
    (cycleAt cfg boundXZ boundY c w).lastChunkPos = c ∧
    (cycleAt cfg boundXZ boundY c w).m_lastChunkPosSync = c ∧
    (cycleAt cfg boundXZ boundY c w).m_chunkPosChangedSync = false :=
  observer_pipelineCycle cfg boundXZ boundY
    { w with lastChunkPos := c, m_lastChunkPosSync := c, m_chunkPosChangedSync := true }

/-- A reported position in a new chunk followed by a thread iteration is `cycleAt`. -/
theorem runOps_move_thread (cfg : Config) (boundXZ boundY : Int) (position : Coord)
    (ops : List Op) (w : World) (c : Coord) (hc : toChunkPos cfg position = c)
    (hne : c ≠ w.lastChunkPos) :
    runOps cfg boundXZ boundY (Op.playerMove position :: Op.threadStep :: ops) w =
      runOps cfg boundXZ boundY ops (cycleAt cfg boundXZ boundY c w) := by
  rw [runOps_cons, applyOp_playerMove, runOps_cons, applyOp_threadStep,
    OnPlayerMove_moved cfg w position (by rw [hc]; exact hne), hc,
    threadIteration_of_changed cfg boundXZ boundY _ rfl]
  rfl

/-! ### Lookups through the passes -/

theorem find_createFold (l : List Coord) (acc : World × Int) (p : Coord) :
    find (l.foldl createBody acc).1.m_chunks p =
      match find acc.1.m_chunks p with
      | some d => some d
      | none => if p ∈ l then some (chunkAt p State.GridData) else none := by
  induction l generalizing acc with
  | nil =>
    cases hf : find acc.1.m_chunks p <;> simp [hf]
  | cons a l ih =>
    rw [List.foldl_cons, ih]
    show (match find (TryCreateAndFillChunk acc.1 a).m_chunks p with
      | some d => some d
      | none => if p ∈ l then some (chunkAt p State.GridData) else none) = _
    rw [find_TryCreateAndFillChunk]
    cases hf : find acc.1.m_chunks p with
    | some d => rfl
    | none =>
      by_cases hpa : p = a
      · subst hpa
        simp
      · simp [hpa]

theorem find_createPass (boundXZ boundY : Int) (chunkPos : Coord) (w : World) (p : Coord) :
    find (createPass boundXZ boundY chunkPos w).m_chunks p =
      match find w.m_chunks p with
      | some d => some d
      | none => if InCuboid chunkPos boundXZ boundY p then some (chunkAt p State.GridData)
          else none := by
  rw [createPass_eq_foldl, find_createFold]
  cases find w.m_chunks p with
  | some d => rfl
  | none =>
    simp only
    by_cases h : InCuboid chunkPos boundXZ boundY p
    · rw [if_pos h, if_pos ((mem_boundCoords_zero _ _ _ _).mpr h)]
    · rw [if_neg h, if_neg (fun hm => h ((mem_boundCoords_zero _ _ _ _).mp hm))]

theorem find_samplingFold_of_not_mem (cfg : Config) (l : List Coord) (acc : World × Int)
    (p : Coord) (hp : p ∉ l) :
    find (l.foldl (samplingBody cfg) acc).1.m_chunks p = find acc.1.m_chunks p := by
  apply foldl_invariant (fun s : World × Int =>
    find s.1.m_chunks p = find acc.1.m_chunks p) _ l acc rfl
  intro s a ha hs
  rw [find_samplingBody_ne cfg s a p (fun h => hp (h ▸ ha)), hs]

theorem find_surfaceMeshBody_ne (cfg : Config) (acc : World × Int) (a q : Coord)
    (h : q ≠ a) :
    find (surfaceMeshBody cfg acc a).1.m_chunks q = find acc.1.m_chunks q := by
  rcases runForChunkBody_cases cfg.codes State.Complete State.Sampling
    (TrySurfacePassAndMesh cfg) acc a with h1 | ⟨chunk, _, _, _, hrun⟩
  · unfold surfaceMeshBody
    rw [h1]
  · unfold surfaceMeshBody
    rw [hrun, find_TrySurfacePassAndMesh_ne _ _ _ _ _ _ h]

theorem find_surfaceMeshFold_of_not_mem (cfg : Config) (l : List Coord) (acc : World × Int)
    (p : Coord) (hp : p ∉ l) :
    find (l.foldl (surfaceMeshBody cfg) acc).1.m_chunks p = find acc.1.m_chunks p := by
  apply foldl_invariant (fun s : World × Int =>
    find s.1.m_chunks p = find acc.1.m_chunks p) _ l acc rfl
  intro s a ha hs
  rw [find_surfaceMeshBody_ne cfg s a p (fun h => hp (h ▸ ha)), hs]

theorem samplingFold_keeps (cfg : Config) (l : List Coord) (acc : World × Int) (p : Coord)
    (c : Chunk) (hc : find acc.1.m_chunks p = some c) (hs : c.state = State.Sampling) :
    find (l.foldl (samplingBody cfg) acc).1.m_chunks p = some c := by
  apply foldl_invariant (fun s : World × Int => find s.1.m_chunks p = some c) _ l acc hc
  intro s a _ h
  exact samplingBody_keeps_sampled cfg s a p c h hs

/-- The sampling loop moves a chunk at GridData of the bound to Sampling when the 26
coordinates around it hold chunks. -/
theorem samplingFold_promotes (cfg : Config) (hv : cfg.codes.Ascending) (l : List Coord)
    (acc : World × Int) (p : Coord) (c : Chunk) (hp : p ∈ l)
    (hc : find acc.1.m_chunks p = some c) (hpos : c.chunkPosition = p)
    (hstate : c.state = State.GridData)
    (hready : NeighboursReady acc.1.m_chunks p State.GridData) :
    find (l.foldl (samplingBody cfg) acc).1.m_chunks p =
      some { c with state := State.Sampling } := by
  induction l generalizing acc with
  | nil => cases hp
  | cons a l ih =>
    rw [List.foldl_cons]
    by_cases hpa : p = a
    · subst hpa
      exact samplingFold_keeps cfg l _ p _
        (samplingBody_promotes cfg hv acc p c hc hpos hstate hready) rfl
    · rcases List.mem_cons.mp hp with h | hl
      · exact absurd h hpa
      · apply ih _ hl
        · rw [find_samplingBody_ne cfg acc a p hpa]
          exact hc
        · exact neighboursReady_gridData_of_advances (advances_samplingBody cfg hv acc a) p
            hready

/-- The sampling loop leaves the state of a chunk as it is or sets it to Sampling. -/
theorem samplingFold_state (cfg : Config) (l : List Coord) (acc : World × Int) (p : Coord)
    (d : Chunk) (hd : find acc.1.m_chunks p = some d) :
    ∃ d2, find (l.foldl (samplingBody cfg) acc).1.m_chunks p = some d2 ∧
      (d2.state = d.state ∨ d2.state = State.Sampling) := by
  apply foldl_invariant (fun s : World × Int =>
    ∃ d2, find s.1.m_chunks p = some d2 ∧ (d2.state = d.state ∨ d2.state = State.Sampling))
    _ l acc ⟨d, hd, Or.inl rfl⟩
  rintro s a _ ⟨d2, hd2, hst⟩
  by_cases hpa : p = a
  · subst hpa
    rcases runForChunkBody_cases cfg.codes State.Sampling State.GridData TrySamplingPass s p
      with h | ⟨chunk, hf, _, _, hrun⟩
    · unfold samplingBody
      rw [h]
      exact ⟨d2, hd2, hst⟩
    · unfold samplingBody
      rw [hrun, find_TrySamplingPass, if_pos rfl, hd2]
      exact ⟨_, rfl, Or.inr rfl⟩
  · rw [find_samplingBody_ne cfg s a p hpa]
    exact ⟨d2, hd2, hst⟩

/-- The surface and mesh step at `a` runs `TrySurfacePassAndMesh` when the chunk at `a`
is not Complete and the 27 coordinates around `a` hold chunks at Sampling or later. -/
theorem surfaceMeshBody_eq_of_ready (cfg : Config) (hv : cfg.codes.Ascending)
    (acc : World × Int) (a : Coord) (c : Chunk) (hpm : PositionsMatch acc.1.m_chunks)
    (hc : find acc.1.m_chunks a = some c) (hs : c.state ≠ State.Complete)
    (hready : ∀ o ∈ neighbourOffsets, AtLeast acc.1.m_chunks (a.offset o) State.Sampling) :
    (surfaceMeshBody cfg acc a).1 =
      TrySurfacePassAndMesh cfg acc.1 a a
        (GetChunkNeighbours cfg.codes acc.1.m_chunks a (State.Complete.toInt cfg.codes)).1 := by
  have h0 : ((0, 0, 0) : Int × Int × Int) ∈ neighbourOffsets := by decide
  have hself := hready _ h0
  rw [offset_zero] at hself
  obtain ⟨c2, hc2, hrank⟩ := hself
  rw [Option.mem_def, hc] at hc2
  cases hc2
  have hpos := positionsMatch_find hpm hc
  have hge : ¬ c.state.toInt cfg.codes ≥ State.Complete.toInt cfg.codes := by
    intro h
    have h3 := (toInt_le_iff_rank cfg.codes hv _ _).mp h
    apply hs
    cases hcs : c.state <;> rw [hcs] at h3 <;> simp [State.rank] at h3
  have hgate := gate_open_of_ready cfg.codes hv acc.1.m_chunks a State.Sampling c hc
    hrank (fun o ho => hready o (mem_block26 o ho))
  unfold surfaceMeshBody runForChunkBody
  rw [hc]
  simp only [if_neg hge, hpos]
  rw [if_pos hgate]

/-! ### Lookups through a pipeline cycle -/

theorem pipelineCycle_eq_unload (cfg : Config) (boundXZ boundY : Int) (w : World) :
    pipelineCycle cfg boundXZ boundY w =
      UnloadFarChunks w.m_lastChunkPosSync (boundXZ + 1) (boundXZ + 1)
        (afterPasses cfg boundXZ boundY w) := rfl

theorem find_pipelineCycle (cfg : Config) (boundXZ boundY : Int) (w : World) (p : Coord) :
    find (pipelineCycle cfg boundXZ boundY w).m_chunks p =
      if InRange w.m_lastChunkPosSync (boundXZ + 1) (boundXZ + 1) p then
        find (afterPasses cfg boundXZ boundY w).m_chunks p
      else none := by
  rw [pipelineCycle_eq_unload, find_UnloadFarChunks]

theorem not_inBound_succ (c : Coord) (sizeXZ sizeY k : Int) (p : Coord)
    (h : ¬ InBound c sizeXZ sizeY k p) : ¬ InBound c sizeXZ sizeY (k + 1) p := by
  intro h2
  apply h
  unfold InBound at *
  obtain ⟨⟨a1, a2⟩, ⟨a3, a4⟩, a5, a6⟩ := h2
  refine ⟨⟨?_, ?_⟩, ⟨?_, ?_⟩, ?_, ?_⟩ <;> omega

theorem find_afterPasses_of_not_inBound (cfg : Config) (boundXZ boundY : Int) (w : World)
    (p : Coord) (h : ¬ InBound w.m_lastChunkPosSync boundXZ boundY 2 p) :
    find (afterPasses cfg boundXZ boundY w).m_chunks p =
      find (afterSampling cfg boundXZ boundY w).m_chunks p := by
  unfold afterPasses
  rw [surfaceMeshPass_eq_foldl]
  exact find_surfaceMeshFold_of_not_mem cfg _ (afterSampling cfg boundXZ boundY w, 0) p
    (fun hm => h ((mem_boundCoords_iff_inBound _ _ _ _ _).mp hm))

/-- A coordinate without chunk on the outer ring of the creation cuboid holds after the
cycle a fresh chunk at GridData. -/
theorem cycle_creates_on_ring (cfg : Config) (boundXZ boundY : Int) (w : World) (p : Coord)
    (habs : find w.m_chunks p = none)
    (hin : InCuboid w.m_lastChunkPosSync boundXZ boundY p)
    (hring : ¬ InBound w.m_lastChunkPosSync boundXZ boundY 1 p)
    (hrange : InRange w.m_lastChunkPosSync (boundXZ + 1) (boundXZ + 1) p) :
    find (pipelineCycle cfg boundXZ boundY w).m_chunks p = some (chunkAt p State.GridData) := by
  have h2 : ¬ InBound w.m_lastChunkPosSync boundXZ boundY 2 p :=
    not_inBound_succ _ _ _ 1 p hring
  rw [find_pipelineCycle, if_pos hrange, find_afterPasses_of_not_inBound cfg _ _ w p h2]
  unfold afterSampling
  rw [samplingPass_eq_foldl, find_samplingFold_of_not_mem cfg _ _ p
    (fun hm => hring ((mem_boundCoords_iff_inBound _ _ _ _ _).mp hm))]
  show find (createPass boundXZ boundY w.m_lastChunkPosSync _).m_chunks p = _
  rw [find_createPass]
  have habs2 : find ({ w with m_chunkPosChangedSync := false } : World).m_chunks p = none :=
    habs
  rw [habs2]
  simp only [if_pos hin]

/-- A coordinate without chunk on the boundary of the inset-1 bound holds after the
cycle a fresh chunk at Sampling. -/
theorem cycle_samples_on_boundary (cfg : Config) (hv : cfg.codes.Ascending)
    (boundXZ boundY : Int) (w : World) (p : Coord)
    (habs : find w.m_chunks p = none)
    (hin : InBound w.m_lastChunkPosSync boundXZ boundY 1 p)
    (hout : ¬ InBound w.m_lastChunkPosSync boundXZ boundY 2 p)
    (hrange : InRange w.m_lastChunkPosSync (boundXZ + 1) (boundXZ + 1) p) :
    find (pipelineCycle cfg boundXZ boundY w).m_chunks p = some (chunkAt p State.Sampling) := by
  have hmem : p ∈ boundCoords boundXZ boundY w.m_lastChunkPosSync 1 :=
    (mem_boundCoords_iff_inBound _ _ _ _ _).mpr hin
  have hmem0 : ∀ o ∈ neighbourOffsets,
      p.offset o ∈ boundCoords boundXZ boundY w.m_lastChunkPosSync 0 :=
    fun o ho => offset_mem_boundCoords _ _ _ 0 p (by simpa using hmem) o ho
  have hcreated : find (createPass boundXZ boundY w.m_lastChunkPosSync
      { w with m_chunkPosChangedSync := false }).m_chunks p =
      some (chunkAt p State.GridData) := by
    rw [find_createPass]
    have habs2 : find ({ w with m_chunkPosChangedSync := false } : World).m_chunks p = none :=
      habs
    rw [habs2]
    have h0 := hmem0 (0, 0, 0) (by decide)
    rw [offset_zero, mem_boundCoords_zero] at h0
    simp only [if_pos h0]
  have hready : NeighboursReady (createPass boundXZ boundY w.m_lastChunkPosSync
      { w with m_chunkPosChangedSync := false }).m_chunks p State.GridData := by
    intro o ho
    have hpres : (find (createPass boundXZ boundY w.m_lastChunkPosSync
        { w with m_chunkPosChangedSync := false }).m_chunks (p.offset o)).isSome := by
      rw [createPass_eq_foldl]
      exact present_createFold _ _ _ (hmem0 o (mem_block26 o ho))
    obtain ⟨d, hd⟩ := Option.isSome_iff_exists.mp hpres
    exact ⟨d, hd, Nat.zero_le _⟩
  rw [find_pipelineCycle, if_pos hrange, find_afterPasses_of_not_inBound cfg _ _ w p hout]
  unfold afterSampling
  rw [samplingPass_eq_foldl]
  exact samplingFold_promotes cfg hv _ (createPass boundXZ boundY w.m_lastChunkPosSync
    { w with m_chunkPosChangedSync := false }, 0) p (chunkAt p State.GridData) hmem hcreated
    rfl rfl hready

/-- A chunk at Sampling outside the inset-2 bound and within the unload range is kept as
it is by the cycle. -/
theorem cycle_keeps_sampled (cfg : Config) (boundXZ boundY : Int) (w : World) (p : Coord)
    (c : Chunk) (hc : find w.m_chunks p = some c) (hs : c.state = State.Sampling)
    (hout : ¬ InBound w.m_lastChunkPosSync boundXZ boundY 2 p)
    (hrange : InRange w.m_lastChunkPosSync (boundXZ + 1) (boundXZ + 1) p) :
    find (pipelineCycle cfg boundXZ boundY w).m_chunks p = some c := by
  rw [find_pipelineCycle, if_pos hrange, find_afterPasses_of_not_inBound cfg _ _ w p hout]
  unfold afterSampling
  rw [samplingPass_eq_foldl]
  apply samplingFold_keeps cfg _ (createPass boundXZ boundY w.m_lastChunkPosSync
    { w with m_chunkPosChangedSync := false }, 0) p c _ hs
  show find (createPass boundXZ boundY w.m_lastChunkPosSync _).m_chunks p = _
  rw [find_createPass]
  have hc2 : find ({ w with m_chunkPosChangedSync := false } : World).m_chunks p = some c := hc
  rw [hc2]

theorem positionsMatch_afterSampling (cfg : Config) (boundXZ boundY : Int) (w : World)
    (hpm : PositionsMatch w.m_chunks) :
    PositionsMatch (afterSampling cfg boundXZ boundY w).m_chunks :=
  positionsMatch_samplingPass cfg _ _ _ _ _ (positionsMatch_createPass _ _ _ _ hpm)

theorem atLeast_afterSampling (cfg : Config) (hv : cfg.codes.Ascending)
    (boundXZ boundY : Int) (w : World) (hpm : PositionsMatch w.m_chunks) (p : Coord)
    (hin : InBound w.m_lastChunkPosSync boundXZ boundY 1 p) :
    AtLeast (afterSampling cfg boundXZ boundY w).m_chunks p State.Sampling :=
  atLeast_sampling_after_passes cfg hv boundXZ boundY w.m_lastChunkPosSync
    { w with m_chunkPosChangedSync := false } hpm p
    ((mem_boundCoords_iff_inBound _ _ _ _ _).mpr hin)

/-- After the cycle every coordinate of the inset-1 bound within the unload range holds
a chunk at Sampling or later. -/
theorem cycle_atLeast_sampling (cfg : Config) (hv : cfg.codes.Ascending)
    (boundXZ boundY : Int) (w : World) (hpm : PositionsMatch w.m_chunks) (p : Coord)
    (hin : InBound w.m_lastChunkPosSync boundXZ boundY 1 p)
    (hrange : InRange w.m_lastChunkPosSync (boundXZ + 1) (boundXZ + 1) p) :
    AtLeast (pipelineCycle cfg boundXZ boundY w).m_chunks p State.Sampling := by
  obtain ⟨c, hc, hle⟩ := atLeast_of_advances (advances_surfaceMeshPass cfg hv boundXZ boundY
    w.m_lastChunkPosSync 2 (afterSampling cfg boundXZ boundY w)) p _
    (atLeast_afterSampling cfg hv boundXZ boundY w hpm p hin)
  refine ⟨c, ?_, hle⟩
  rw [Option.mem_def, find_pipelineCycle, if_pos hrange]
  exact hc

/-- A chunk within the unload range is after the cycle at its state or a later one. -/
theorem cycle_atLeast_kept (cfg : Config) (hv : cfg.codes.Ascending)
    (boundXZ boundY : Int) (w : World) (p : Coord) (s : State)
    (hp : AtLeast w.m_chunks p s)
    (hrange : InRange w.m_lastChunkPosSync (boundXZ + 1) (boundXZ + 1) p) :
    AtLeast (pipelineCycle cfg boundXZ boundY w).m_chunks p s := by
  have hadv : Advances w (afterPasses cfg boundXZ boundY w) :=
    advances_trans (@advances_of_chunks_eq w { w with m_chunkPosChangedSync := false } rfl)
      (advances_pipelinePasses cfg hv boundXZ boundY _ _)
  obtain ⟨c, hc, hle⟩ := atLeast_of_advances hadv p s hp
  refine ⟨c, ?_, hle⟩
  rw [Option.mem_def, find_pipelineCycle, if_pos hrange]
  exact hc

theorem cycle_unloads (cfg : Config) (boundXZ boundY : Int) (w : World) (p : Coord)
    (hrange : ¬ InRange w.m_lastChunkPosSync (boundXZ + 1) (boundXZ + 1) p) :
    find (pipelineCycle cfg boundXZ boundY w).m_chunks p = none := by
  rw [find_pipelineCycle, if_neg hrange]

/-! ### The first steps of the surface and mesh pass of a cycle -/

/-- Before the surface and mesh pass of a cycle, a coordinate `p` of the inset-2 bound
whose chunk was not Complete when the cycle began holds a chunk that is not Complete,
and the 27 coordinates around it hold chunks at Sampling or later. -/
theorem afterSampling_ready (cfg : Config) (hv : cfg.codes.Ascending)
    (boundXZ boundY : Int) (w : World) (hpm : PositionsMatch w.m_chunks) (p : Coord)
    (hin : InBound w.m_lastChunkPosSync boundXZ boundY 2 p)
    (hnc : ∀ d, find w.m_chunks p = some d → d.state ≠ State.Complete) :
    (∀ o ∈ neighbourOffsets,
      AtLeast (afterSampling cfg boundXZ boundY w).m_chunks (p.offset o) State.Sampling) ∧
    ∃ c, find (afterSampling cfg boundXZ boundY w).m_chunks p = some c ∧
      c.state ≠ State.Complete := by
  have hmem : p ∈ boundCoords boundXZ boundY w.m_lastChunkPosSync (1 + 1) :=
    (mem_boundCoords_iff_inBound _ _ _ _ _).mpr hin
  have hready : ∀ o ∈ neighbourOffsets,
      AtLeast (afterSampling cfg boundXZ boundY w).m_chunks (p.offset o) State.Sampling := by
    intro o ho
    apply atLeast_afterSampling cfg hv boundXZ boundY w hpm
    exact (mem_boundCoords_iff_inBound _ _ _ _ _).mp
      (offset_mem_boundCoords _ _ _ 1 p hmem o ho)
  refine ⟨hready, ?_⟩
  -- the chunk at `p` after the create pass
  have hcreated : ∃ d1, find (createPass boundXZ boundY w.m_lastChunkPosSync
      { w with m_chunkPosChangedSync := false }).m_chunks p = some d1 ∧
      d1.state ≠ State.Complete := by
    rw [find_createPass]
    cases hf : find ({ w with m_chunkPosChangedSync := false } : World).m_chunks p with
    | some d => exact ⟨d, rfl, hnc d hf⟩
    | none =>
      have hcub : InCuboid w.m_lastChunkPosSync boundXZ boundY p := by
        have h0 := offset_mem_boundCoords _ _ _ 0 p
          (by
            have := offset_mem_boundCoords _ _ _ 1 p hmem (0, 0, 0) (by decide)
            rw [offset_zero] at this
            simpa using this) (0, 0, 0) (by decide)
        rw [offset_zero, mem_boundCoords_zero] at h0
        exact h0
      simp only [if_pos hcub]
      exact ⟨_, rfl, by simp [chunkAt]⟩
  obtain ⟨d1, hd1, hs1⟩ := hcreated
  unfold afterSampling
  rw [samplingPass_eq_foldl]
  obtain ⟨d2, hd2, hst⟩ := samplingFold_state cfg
    (boundCoords boundXZ boundY w.m_lastChunkPosSync 1)
    (createPass boundXZ boundY w.m_lastChunkPosSync
      { w with m_chunkPosChangedSync := false }, 0) p d1 hd1
  refine ⟨d2, hd2, ?_⟩
  rcases hst with h | h
  · rw [h]
    exact hs1
  · rw [h]
    simp

theorem queues_afterSampling (cfg : Config) (boundXZ boundY : Int) (w : World) :
    (afterSampling cfg boundXZ boundY w).m_applyMeshQueue = w.m_applyMeshQueue ∧
    (afterSampling cfg boundXZ boundY w).m_missingMeshQueue = w.m_missingMeshQueue := by
  unfold afterSampling
  rw [(queues_samplingPass _ _ _ _ _ _).1, (queues_samplingPass _ _ _ _ _ _).2,
    applyQueue_createPass, missingQueue_createPass]
  exact ⟨rfl, rfl⟩

theorem queues_pipelineCycle_eq (cfg : Config) (boundXZ boundY : Int) (w : World) :
    (pipelineCycle cfg boundXZ boundY w).m_applyMeshQueue =
      (afterPasses cfg boundXZ boundY w).m_applyMeshQueue ∧
    (pipelineCycle cfg boundXZ boundY w).m_missingMeshQueue =
      (afterPasses cfg boundXZ boundY w).m_missingMeshQueue := by
  rw [pipelineCycle_eq_unload]
  exact queues_UnloadFarChunks _ _ _ _

/-- With capacity left in the apply queue, a cycle appends to it the first coordinate of
its inset-2 bound, if the chunk there was not Complete when the cycle began. -/
theorem cycle_pushes_first (cfg : Config) (hv : cfg.codes.Ascending) (boundXZ boundY : Int)
    (w : World) (hpm : PositionsMatch w.m_chunks) (hxz : 2 ≤ boundXZ) (hy : 2 ≤ boundY)
    (hlen : w.m_applyMeshQueue.length < cfg.MAX_MESH_IN_APPLY_QUEUE)
    (hnc : ∀ d, find w.m_chunks (firstCoord boundXZ boundY w.m_lastChunkPosSync 2) = some d →
      d.state ≠ State.Complete) :
    ∃ t, (pipelineCycle cfg boundXZ boundY w).m_applyMeshQueue =
      w.m_applyMeshQueue ++ firstCoord boundXZ boundY w.m_lastChunkPosSync 2 :: t := by
  obtain ⟨rest, hL⟩ := boundCoords_cons boundXZ boundY w.m_lastChunkPosSync 2 hxz hy
  have hin : InBound w.m_lastChunkPosSync boundXZ boundY 2
      (firstCoord boundXZ boundY w.m_lastChunkPosSync 2) := by
    rw [← mem_boundCoords_iff_inBound, hL]
    exact List.mem_cons_self _ _
  obtain ⟨hready, c, hc, hs⟩ := afterSampling_ready cfg hv boundXZ boundY w hpm _ hin hnc
  have hq := queues_afterSampling cfg boundXZ boundY w
  rw [(queues_pipelineCycle_eq cfg boundXZ boundY w).1]
  unfold afterPasses
  rw [surfaceMeshPass_eq_foldl, hL, List.foldl_cons]
  obtain ⟨t, u, h1, _, _⟩ := queues_surfaceMeshFold cfg rest
    (surfaceMeshBody cfg (afterSampling cfg boundXZ boundY w, 0)
      (firstCoord boundXZ boundY w.m_lastChunkPosSync 2))
  refine ⟨t, ?_⟩
  rw [h1, surfaceMeshBody_eq_of_ready cfg hv (afterSampling cfg boundXZ boundY w, 0) _ c
    (positionsMatch_afterSampling cfg boundXZ boundY w hpm) hc hs hready,
    ((queues_TrySurfacePassAndMesh cfg _ _ _ _).2 (by rw [hq.1]; exact hlen)).1, hq.1,
    List.append_assoc]
  rfl

/-! ### Cycles started by a report of the observer -/

theorem find_OnUpdate (w : World) (p : Coord) :
    find (OnUpdate w).m_chunks p = (find w.m_chunks p).map (afterApply w.m_applyMeshQueue p) :=
  find_applyFold w.m_applyMeshQueue w p

theorem find_cycleAt_created (cfg : Config) (boundXZ boundY : Int) (c : Coord) (w : World)
    (p : Coord) (habs : find w.m_chunks p = none) (hin : InCuboid c boundXZ boundY p)
    (hring : ¬ InBound c boundXZ boundY 1 p)
    (hrange : InRange c (boundXZ + 1) (boundXZ + 1) p) :
    find (cycleAt cfg boundXZ boundY c w).m_chunks p = some (chunkAt p State.GridData) :=
  cycle_creates_on_ring cfg boundXZ boundY
    { w with lastChunkPos := c, m_lastChunkPosSync := c, m_chunkPosChangedSync := true } p
    habs hin hring hrange

theorem find_cycleAt_sampled (cfg : Config) (hv : cfg.codes.Ascending) (boundXZ boundY : Int)
    (c : Coord) (w : World) (p : Coord) (habs : find w.m_chunks p = none)
    (hin : InBound c boundXZ boundY 1 p) (hout : ¬ InBound c boundXZ boundY 2 p)
    (hrange : InRange c (boundXZ + 1) (boundXZ + 1) p) :
    find (cycleAt cfg boundXZ boundY c w).m_chunks p = some (chunkAt p State.Sampling) :=
  cycle_samples_on_boundary cfg hv boundXZ boundY
    { w with lastChunkPos := c, m_lastChunkPosSync := c, m_chunkPosChangedSync := true } p
    habs hin hout hrange

theorem find_cycleAt_keeps_sampled (cfg : Config) (boundXZ boundY : Int) (c : Coord)
    (w : World) (p : Coord) (d : Chunk) (hd : find w.m_chunks p = some d)
    (hs : d.state = State.Sampling) (hout : ¬ InBound c boundXZ boundY 2 p)
    (hrange : InRange c (boundXZ + 1) (boundXZ + 1) p) :
    find (cycleAt cfg boundXZ boundY c w).m_chunks p = some d :=
  cycle_keeps_sampled cfg boundXZ boundY
    { w with lastChunkPos := c, m_lastChunkPosSync := c, m_chunkPosChangedSync := true } p d
    hd hs hout hrange

theorem find_cycleAt_unloaded (cfg : Config) (boundXZ boundY : Int) (c : Coord) (w : World)
    (p : Coord) (hrange : ¬ InRange c (boundXZ + 1) (boundXZ + 1) p) :
    find (cycleAt cfg boundXZ boundY c w).m_chunks p = none :=
  cycle_unloads cfg boundXZ boundY
    { w with lastChunkPos := c, m_lastChunkPosSync := c, m_chunkPosChangedSync := true } p
    hrange

theorem atLeast_cycleAt_sampling (cfg : Config) (hv : cfg.codes.Ascending)
    (boundXZ boundY : Int) (c : Coord) (w : World) (hpm : PositionsMatch w.m_chunks)
    (p : Coord) (hin : InBound c boundXZ boundY 1 p)
    (hrange : InRange c (boundXZ + 1) (boundXZ + 1) p) :
    AtLeast (cycleAt cfg boundXZ boundY c w).m_chunks p State.Sampling :=
  cycle_atLeast_sampling cfg hv boundXZ boundY
    { w with lastChunkPos := c, m_lastChunkPosSync := c, m_chunkPosChangedSync := true } hpm p
    hin hrange

theorem atLeast_cycleAt_kept (cfg : Config) (hv : cfg.codes.Ascending)
    (boundXZ boundY : Int) (c : Coord) (w : World) (p : Coord) (s : State)
    (hp : AtLeast w.m_chunks p s) (hrange : InRange c (boundXZ + 1) (boundXZ + 1) p) :
    AtLeast (cycleAt cfg boundXZ boundY c w).m_chunks p s :=
  cycle_atLeast_kept cfg hv boundXZ boundY
    { w with lastChunkPos := c, m_lastChunkPosSync := c, m_chunkPosChangedSync := true } p s
    hp hrange

theorem positionsMatch_cycleAt (cfg : Config) (boundXZ boundY : Int) (c : Coord) (w : World)
    (h : PositionsMatch w.m_chunks) :
    PositionsMatch (cycleAt cfg boundXZ boundY c w).m_chunks :=
  positionsMatch_pipelineCycle cfg boundXZ boundY
    { w with lastChunkPos := c, m_lastChunkPosSync := c, m_chunkPosChangedSync := true } h

theorem queues_cycleAt (cfg : Config) (boundXZ boundY : Int) (c : Coord) (w : World) :
    ∃ t u : List Coord,
      (cycleAt cfg boundXZ boundY c w).m_applyMeshQueue = w.m_applyMeshQueue ++ t ∧
      t.length ≤ (boundCoords boundXZ boundY c 2).length ∧
      (cycleAt cfg boundXZ boundY c w).m_missingMeshQueue = w.m_missingMeshQueue ++ u :=
  queues_pipelineCycle cfg boundXZ boundY
    { w with lastChunkPos := c, m_lastChunkPosSync := c, m_chunkPosChangedSync := true }

theorem mem_applyQueue_cycleAt (cfg : Config) (boundXZ boundY : Int) (c : Coord) (w : World)
    (p : Coord) (h : p ∈ w.m_applyMeshQueue) :
    p ∈ (cycleAt cfg boundXZ boundY c w).m_applyMeshQueue := by
  obtain ⟨t, u, h1, _, _⟩ := queues_cycleAt cfg boundXZ boundY c w
  rw [h1]
  exact List.mem_append_left _ h

theorem cycleAt_pushes_first (cfg : Config) (hv : cfg.codes.Ascending) (boundXZ boundY : Int)
    (c : Coord) (w : World) (hpm : PositionsMatch w.m_chunks) (hxz : 2 ≤ boundXZ)
    (hy : 2 ≤ boundY) (hlen : w.m_applyMeshQueue.length < cfg.MAX_MESH_IN_APPLY_QUEUE)
    (hnc : ∀ d, find w.m_chunks (firstCoord boundXZ boundY c 2) = some d →
      d.state ≠ State.Complete) :
    ∃ t, (cycleAt cfg boundXZ boundY c w).m_applyMeshQueue =
      w.m_applyMeshQueue ++ firstCoord boundXZ boundY c 2 :: t :=
  cycle_pushes_first cfg hv boundXZ boundY
    { w with lastChunkPos := c, m_lastChunkPosSync := c, m_chunkPosChangedSync := true } hpm
    hxz hy hlen hnc

/-- A coordinate that is in the apply queue and holds no chunk when the observer reports
chunk `c`, and that lies on the outer ring of the creation cuboid around `c`: after the
cycle and `OnUpdate` it holds a render-ready chunk at GridData. -/
theorem stale_entry_marks_fresh_chunk (cfg : Config) (boundXZ boundY : Int) (c : Coord)
    (w : World) (p : Coord) (hq : p ∈ w.m_applyMeshQueue) (habs : find w.m_chunks p = none)
    (hin : InCuboid c boundXZ boundY p) (hring : ¬ InBound c boundXZ boundY 1 p)
    (hrange : InRange c (boundXZ + 1) (boundXZ + 1) p) :
    find (OnUpdate (cycleAt cfg boundXZ boundY c w)).m_chunks p =
      some { chunkPosition := p, state := State.GridData, canRender := true } := by
  rw [find_OnUpdate, find_cycleAt_created cfg boundXZ boundY c w p habs hin hring hrange]
  simp only [Option.map_some', afterApply,
    if_pos (mem_applyQueue_cycleAt cfg boundXZ boundY c w p hq), chunkAt]

theorem ascending_cfgOf (n : Nat) : (cfgOf n).codes.Ascending := by
  show (0 : Int) ≤ 1 ∧ (1 : Int) < 2 ∧ (2 : Int) < 3 ∧ (3 : Int) < 4
  decide

/-- Claim C19, which the code does not keep (render-ready implies Complete in every
reachable state): with capacity 1 and the bounds 16 and 6 of `ThreadUpdate`, the run
`returnOps` from the initial world ends with a render-ready chunk at GridData at
(-13,-4,-14). The first cycle queues the coordinate for upload, the second unloads its
chunk and leaves the queue entry, the third creates a fresh chunk there, and `OnUpdate`
uploads a mesh for it. -/
theorem update_marks_recreated_chunk :
    find (runOps (cfgOf 1) 16 6 returnOps
        (initWorld ⟨0, 0, 0⟩ ⟨0, 0, 0⟩ false)).m_chunks ⟨-13, -4, -14⟩ =
      some { chunkPosition := ⟨-13, -4, -14⟩, state := State.GridData, canRender := true } := by
  have hv := ascending_cfgOf 1
  -- the first cycle queues the coordinate
  have h1 : (⟨-13, -4, -14⟩ : Coord) ∈
      (cycleAt (cfgOf 1) 16 6 ⟨1, 0, 0⟩
        (initWorld ⟨0, 0, 0⟩ ⟨0, 0, 0⟩ false)).m_applyMeshQueue := by
    obtain ⟨t, ht⟩ := cycleAt_pushes_first (cfgOf 1) hv 16 6 ⟨1, 0, 0⟩
      (initWorld ⟨0, 0, 0⟩ ⟨0, 0, 0⟩ false) (by intro e he; cases he) (by decide) (by decide)
      (by decide) (by intro d hd; cases hd)
    rw [ht]
    exact List.mem_append_right _ (List.mem_cons_self _ _)
  -- the second cycle unloads the chunk and keeps the entry
  have h2 := mem_applyQueue_cycleAt (cfgOf 1) 16 6 ⟨100, 0, 0⟩ _ _ h1
  have h2abs := find_cycleAt_unloaded (cfgOf 1) 16 6 ⟨100, 0, 0⟩
    (cycleAt (cfgOf 1) 16 6 ⟨1, 0, 0⟩ (initWorld ⟨0, 0, 0⟩ ⟨0, 0, 0⟩ false))
    ⟨-13, -4, -14⟩ (by decide)
  -- the third cycle creates a fresh chunk, which `OnUpdate` marks
  have h3 := stale_entry_marks_fresh_chunk (cfgOf 1) 16 6 ⟨3, 0, 0⟩ _ ⟨-13, -4, -14⟩ h2 h2abs
    (by decide) (by decide) (by decide)
  unfold returnOps
  rw [runOps_move_thread (cfgOf 1) 16 6 ⟨16, 0, 0⟩ _ _ ⟨1, 0, 0⟩ (by decide) (by decide),
    runOps_move_thread (cfgOf 1) 16 6 ⟨1600, 0, 0⟩ _ _ ⟨100, 0, 0⟩ (by decide)
      (by rw [(observer_cycleAt _ _ _ _ _).1]; decide),
    runOps_move_thread (cfgOf 1) 16 6 ⟨48, 0, 0⟩ _ _ ⟨3, 0, 0⟩ (by decide)
      (by rw [(observer_cycleAt _ _ _ _ _).1]; decide),
    runOps_cons, runOps_nil, applyOp_update]
  exact h3

theorem not_nodup_append_of_mem {α : Type} (l t : List α) (a : α) (h : a ∈ l) :
    ¬ (l ++ a :: t).Nodup := by
  intro hn
  rw [List.nodup_append] at hn
  exact hn.2.2 h (List.mem_cons_self a t) 

theorem length_cycleAt_queue (cfg : Config) (c : Coord) (w : World) :
    (cycleAt cfg 16 6 c w).m_applyMeshQueue.length ≤ w.m_applyMeshQueue.length + 7569 := by
  obtain ⟨t, u, h1, h2, _⟩ := queues_cycleAt cfg 16 6 c w
  rw [h1, List.length_append]
  rw [length_boundCoords] at h2
  have e1 : (c.x + 16 - 2 + 1 - (c.x - 16 + 2)).toNat = 29 := by
    have : c.x + 16 - 2 + 1 - (c.x - 16 + 2) = 29 := by ring
    rw [this]
    rfl
  have e2 : (c.y + 6 - 2 + 1 - (c.y - 6 + 2)).toNat = 9 := by
    have : c.y + 6 - 2 + 1 - (c.y - 6 + 2) = 9 := by ring
    rw [this]
    rfl
  have e3 : (c.z + 16 - 2 + 1 - (c.z - 16 + 2)).toNat = 29 := by
    have : c.z + 16 - 2 + 1 - (c.z - 16 + 2) = 29 := by ring
    rw [this]
    rfl
  rw [e1, e2, e3] at h2
  omega

/-- Claim C11 as stated fails: with capacity 20000 and the bounds 16 and 6 of
`ThreadUpdate`, after the run `roundTripOps` from the initial world the coordinate
(-13,-4,-14) occurs twice in the apply queue. The first cycle queues it, the second
unloads its chunk and leaves the entry, the third creates the chunk again, brings it to
Complete and queues the coordinate a second time. -/
theorem applyQueue_unique_counterexample :
    ¬ (runOps (cfgOf 20000) 16 6 roundTripOps
        (initWorld ⟨0, 0, 0⟩ ⟨0, 0, 0⟩ false)).m_applyMeshQueue.Nodup := by
  have hv := ascending_cfgOf 20000
  have hpm0 : PositionsMatch (initWorld ⟨0, 0, 0⟩ ⟨0, 0, 0⟩ false).m_chunks := by
    intro e he
    cases he
  -- the first cycle queues the coordinate
  have h1 : (⟨-13, -4, -14⟩ : Coord) ∈
      (cycleAt (cfgOf 20000) 16 6 ⟨1, 0, 0⟩
        (initWorld ⟨0, 0, 0⟩ ⟨0, 0, 0⟩ false)).m_applyMeshQueue := by
    obtain ⟨t, ht⟩ := cycleAt_pushes_first (cfgOf 20000) hv 16 6 ⟨1, 0, 0⟩
      (initWorld ⟨0, 0, 0⟩ ⟨0, 0, 0⟩ false) hpm0 (by decide) (by decide)
      (by decide) (by intro d hd; cases hd)
    rw [ht]
    exact List.mem_append_right _ (List.mem_cons_self _ _)
  have hl1 := length_cycleAt_queue (cfgOf 20000) ⟨1, 0, 0⟩
    (initWorld ⟨0, 0, 0⟩ ⟨0, 0, 0⟩ false)
  have hpm1 := positionsMatch_cycleAt (cfgOf 20000) 16 6 ⟨1, 0, 0⟩ _ hpm0
  -- the second cycle unloads the chunk and keeps the entry
  have h2 := mem_applyQueue_cycleAt (cfgOf 20000) 16 6 ⟨100, 0, 0⟩ _ _ h1
  have h2abs := find_cycleAt_unloaded (cfgOf 20000) 16 6 ⟨100, 0, 0⟩
    (cycleAt (cfgOf 20000) 16 6 ⟨1, 0, 0⟩ (initWorld ⟨0, 0, 0⟩ ⟨0, 0, 0⟩ false))
    ⟨-13, -4, -14⟩ (by decide)
  have hl2 := length_cycleAt_queue (cfgOf 20000) ⟨100, 0, 0⟩
    (cycleAt (cfgOf 20000) 16 6 ⟨1, 0, 0⟩ (initWorld ⟨0, 0, 0⟩ ⟨0, 0, 0⟩ false))
  have hpm2 := positionsMatch_cycleAt (cfgOf 20000) 16 6 ⟨100, 0, 0⟩ _ hpm1
  -- the third cycle queues the coordinate again
  obtain ⟨t, ht⟩ := cycleAt_pushes_first (cfgOf 20000) hv 16 6 ⟨1, 0, 0⟩ _ hpm2
    (by decide) (by decide)
    (by
      show _ < 20000
      have h0 : (initWorld ⟨0, 0, 0⟩ ⟨0, 0, 0⟩ false).m_applyMeshQueue.length = 0 := rfl
      omega)
    (by
      intro d hd
      have hf : firstCoord 16 6 ⟨1, 0, 0⟩ 2 = ⟨-13, -4, -14⟩ := by decide
      rw [hf, h2abs] at hd
      cases hd)
  unfold roundTripOps
  rw [runOps_move_thread (cfgOf 20000) 16 6 ⟨16, 0, 0⟩ _ _ ⟨1, 0, 0⟩ (by decide) (by decide),
    runOps_move_thread (cfgOf 20000) 16 6 ⟨1600, 0, 0⟩ _ _ ⟨100, 0, 0⟩ (by decide)
      (by rw [(observer_cycleAt _ _ _ _ _).1]; decide),
    runOps_move_thread (cfgOf 20000) 16 6 ⟨16, 0, 0⟩ _ _ ⟨1, 0, 0⟩ (by decide)
      (by rw [(observer_cycleAt _ _ _ _ _).1]; decide),
    runOps_nil, ht]
  exact not_nodup_append_of_mem _ _ _ h2

/-! ### The first deferral of a cycle and the retry of a deferred coordinate -/

theorem secondCoord_ne_firstCoord (sizeXZ sizeY : Int) (center : Coord) (inset : Int) :
    secondCoord sizeXZ sizeY center inset ≠ firstCoord sizeXZ sizeY center inset := by
  intro h
  have hz := congrArg Coord.z h
  simp only [secondCoord, firstCoord] at hz
  omega

/-- With room for exactly one more coordinate in the apply queue, a cycle defers the
second coordinate of its inset-2 bound: it appends it to the missing-mesh queue before
any other coordinate, if the chunks at the first two coordinates were not Complete when
the cycle began. -/
theorem cycle_defers_second (cfg : Config) (hv : cfg.codes.Ascending) (boundXZ boundY : Int)
    (w : World) (hpm : PositionsMatch w.m_chunks) (hxz : 3 ≤ boundXZ) (hy : 2 ≤ boundY)
    (hfull : w.m_applyMeshQueue.length + 1 = cfg.MAX_MESH_IN_APPLY_QUEUE)
    (hnca : ∀ d, find w.m_chunks (firstCoord boundXZ boundY w.m_lastChunkPosSync 2) = some d →
      d.state ≠ State.Complete)
    (hncb : ∀ d, find w.m_chunks (secondCoord boundXZ boundY w.m_lastChunkPosSync 2) = some d →
      d.state ≠ State.Complete) :
    ∃ u, (pipelineCycle cfg boundXZ boundY w).m_missingMeshQueue =
      w.m_missingMeshQueue ++ secondCoord boundXZ boundY w.m_lastChunkPosSync 2 :: u := by
  obtain ⟨rest, hL⟩ := boundCoords_cons_cons boundXZ boundY w.m_lastChunkPosSync 2
    (by omega) hy
  have hina : InBound w.m_lastChunkPosSync boundXZ boundY 2
      (firstCoord boundXZ boundY w.m_lastChunkPosSync 2) := by
    rw [← mem_boundCoords_iff_inBound, hL]
    exact List.mem_cons_self _ _
  have hinb : InBound w.m_lastChunkPosSync boundXZ boundY 2
      (secondCoord boundXZ boundY w.m_lastChunkPosSync 2) := by
    rw [← mem_boundCoords_iff_inBound, hL]
    exact List.mem_cons_of_mem _ (List.mem_cons_self _ _)
  obtain ⟨hra, ca, hca, hsa⟩ := afterSampling_ready cfg hv boundXZ boundY w hpm _ hina hnca
  obtain ⟨hrb, cb, hcb, hsb⟩ := afterSampling_ready cfg hv boundXZ boundY w hpm _ hinb hncb
  have hq := queues_afterSampling cfg boundXZ boundY w
  have hpm2 := positionsMatch_afterSampling cfg boundXZ boundY w hpm
  -- the step at the first coordinate
  have e1 := surfaceMeshBody_eq_of_ready cfg hv (afterSampling cfg boundXZ boundY w, 0) _ ca
    hpm2 hca hsa hra
  have hq1 := (queues_TrySurfacePassAndMesh cfg (afterSampling cfg boundXZ boundY w)
    (firstCoord boundXZ boundY w.m_lastChunkPosSync 2)
    (firstCoord boundXZ boundY w.m_lastChunkPosSync 2)
    (GetChunkNeighbours cfg.codes (afterSampling cfg boundXZ boundY w).m_chunks
      (firstCoord boundXZ boundY w.m_lastChunkPosSync 2)
      (State.Complete.toInt cfg.codes)).1).2 (by rw [hq.1]; omega)
  rw [← e1] at hq1
  -- the step at the second coordinate
  have hpm3 := positionsMatch_surfaceMeshBody cfg (afterSampling cfg boundXZ boundY w, 0)
    (firstCoord boundXZ boundY w.m_lastChunkPosSync 2) hpm2
  have hcb3 : find (surfaceMeshBody cfg (afterSampling cfg boundXZ boundY w, 0)
      (firstCoord boundXZ boundY w.m_lastChunkPosSync 2)).1.m_chunks
      (secondCoord boundXZ boundY w.m_lastChunkPosSync 2) = some cb := by
    rw [e1, find_TrySurfacePassAndMesh_ne cfg _ _ _ _ _
      (secondCoord_ne_firstCoord boundXZ boundY w.m_lastChunkPosSync 2)]
    exact hcb
  have hrb3 : ∀ o ∈ neighbourOffsets,
      AtLeast (surfaceMeshBody cfg (afterSampling cfg boundXZ boundY w, 0)
        (firstCoord boundXZ boundY w.m_lastChunkPosSync 2)).1.m_chunks
        ((secondCoord boundXZ boundY w.m_lastChunkPosSync 2).offset o) State.Sampling :=
    fun o ho => atLeast_of_advances
      (advances_surfaceMeshBody cfg hv (afterSampling cfg boundXZ boundY w, 0) _) _ _
      (hrb o ho)
  have e2 := surfaceMeshBody_eq_of_ready cfg hv
    (surfaceMeshBody cfg (afterSampling cfg boundXZ boundY w, 0)
      (firstCoord boundXZ boundY w.m_lastChunkPosSync 2)) _ cb hpm3 hcb3 hsb hrb3
  have hq2 := (queues_TrySurfacePassAndMesh cfg
    (surfaceMeshBody cfg (afterSampling cfg boundXZ boundY w, 0)
      (firstCoord boundXZ boundY w.m_lastChunkPosSync 2)).1
    (secondCoord boundXZ boundY w.m_lastChunkPosSync 2)
    (secondCoord boundXZ boundY w.m_lastChunkPosSync 2)
    (GetChunkNeighbours cfg.codes
      (surfaceMeshBody cfg (afterSampling cfg boundXZ boundY w, 0)
        (firstCoord boundXZ boundY w.m_lastChunkPosSync 2)).1.m_chunks
      (secondCoord boundXZ boundY w.m_lastChunkPosSync 2)
      (State.Complete.toInt cfg.codes)).1).1
    (by rw [hq1.1, List.length_append, hq.1]; simp only [List.length_singleton]; omega)
  rw [← e2] at hq2
  -- the rest of the pass
  rw [(queues_pipelineCycle_eq cfg boundXZ boundY w).2]
  unfold afterPasses
  rw [surfaceMeshPass_eq_foldl, hL, List.foldl_cons, List.foldl_cons]
  obtain ⟨t, u, _, _, h3⟩ := queues_surfaceMeshFold cfg rest
    (surfaceMeshBody cfg (surfaceMeshBody cfg (afterSampling cfg boundXZ boundY w, 0)
      (firstCoord boundXZ boundY w.m_lastChunkPosSync 2))
      (secondCoord boundXZ boundY w.m_lastChunkPosSync 2))
  refine ⟨u, ?_⟩
  rw [h3, hq2.2, hq1.2, hq.2, List.append_assoc]
  rfl

theorem cycleAt_defers_second (cfg : Config) (hv : cfg.codes.Ascending) (boundXZ boundY : Int)
    (c : Coord) (w : World) (hpm : PositionsMatch w.m_chunks) (hxz : 3 ≤ boundXZ)
    (hy : 2 ≤ boundY)
    (hfull : w.m_applyMeshQueue.length + 1 = cfg.MAX_MESH_IN_APPLY_QUEUE)
    (hnca : ∀ d, find w.m_chunks (firstCoord boundXZ boundY c 2) = some d →
      d.state ≠ State.Complete)
    (hncb : ∀ d, find w.m_chunks (secondCoord boundXZ boundY c 2) = some d →
      d.state ≠ State.Complete) :
    ∃ u, (cycleAt cfg boundXZ boundY c w).m_missingMeshQueue =
      w.m_missingMeshQueue ++ secondCoord boundXZ boundY c 2 :: u :=
  cycle_defers_second cfg hv boundXZ boundY
    { w with lastChunkPos := c, m_lastChunkPosSync := c, m_chunkPosChangedSync := true } hpm
    hxz hy hfull hnca hncb

theorem head_missing_cycleAt (cfg : Config) (boundXZ boundY : Int) (c : Coord) (w : World)
    (b : Coord) (h : ∃ r, w.m_missingMeshQueue = b :: r) :
    ∃ r, (cycleAt cfg boundXZ boundY c w).m_missingMeshQueue = b :: r := by
  obtain ⟨r, hr⟩ := h
  obtain ⟨t, u, _, _, h3⟩ := queues_cycleAt cfg boundXZ boundY c w
  exact ⟨r ++ u, by rw [h3, hr]; rfl⟩

/-- A cycle that starts with a full apply queue leaves the apply queue as it is. -/
theorem applyQueue_cycleAt_of_full (cfg : Config) (boundXZ boundY : Int) (c : Coord)
    (w : World) (h : w.m_applyMeshQueue.length = cfg.MAX_MESH_IN_APPLY_QUEUE) :
    (cycleAt cfg boundXZ boundY c w).m_applyMeshQueue = w.m_applyMeshQueue := by
  obtain ⟨t, u, h1, _, _⟩ := queues_cycleAt cfg boundXZ boundY c w
  have hb : QueueBounded cfg (cycleAt cfg boundXZ boundY c w) :=
    queueBounded_pipelineCycle cfg boundXZ boundY
      { w with lastChunkPos := c, m_lastChunkPosSync := c, m_chunkPosChangedSync := true }
      (by unfold QueueBounded; exact le_of_eq h)
  unfold QueueBounded at hb
  rw [h1, List.length_append] at hb
  have ht : t = [] := List.eq_nil_of_length_eq_zero (by omega)
  rw [h1, ht, List.append_nil]

theorem frame_applyFold (l : List Coord) (w : World) :
    (l.foldl applyStep w).m_missingMeshQueue = w.m_missingMeshQueue ∧
    (l.foldl applyStep w).m_chunkPosChangedSync = w.m_chunkPosChangedSync := by
  induction l generalizing w with
  | nil => exact ⟨rfl, rfl⟩
  | cons a l ih =>
    rw [List.foldl_cons]
    have hstep : (applyStep w a).m_missingMeshQueue = w.m_missingMeshQueue ∧
        (applyStep w a).m_chunkPosChangedSync = w.m_chunkPosChangedSync := by
      unfold applyStep
      split
      · exact ⟨rfl, rfl⟩
      · split <;> exact ⟨rfl, rfl⟩
    rw [(ih _).1, (ih _).2]
    exact hstep

theorem frame_OnUpdate (w : World) :
    (OnUpdate w).m_applyMeshQueue = [] ∧
    (OnUpdate w).m_missingMeshQueue = w.m_missingMeshQueue ∧
    (OnUpdate w).m_chunkPosChangedSync = w.m_chunkPosChangedSync :=
  ⟨rfl, (frame_applyFold w.m_applyMeshQueue w).1, (frame_applyFold w.m_applyMeshQueue w).2⟩

theorem missingMeshLoop_of_full (cfg : Config) (queue : List Coord) (n : Int) (w : World)
    (h : (cfg.MAX_MESH_IN_APPLY_QUEUE : Int) ≤ n) : missingMeshLoop cfg queue n w = w := by
  cases queue with
  | nil => rfl
  | cons pos rest =>
    unfold missingMeshLoop
    rw [if_neg (by omega)]

/-- The retry at the head of the missing-mesh queue: with room for exactly one more
coordinate in the apply queue, a chunk that is not Complete at the head coordinate, and
the 27 coordinates around it at Sampling or later, `TryGeneratingMissingMesh` generates
the mesh of that chunk and sets it to Complete, whatever its state was. -/
theorem retry_completes_head (cfg : Config) (hv : cfg.codes.Ascending) (w : World)
    (b : Coord) (rest : List Coord) (c : Chunk)
    (hfull : w.m_applyMeshQueue.length + 1 = cfg.MAX_MESH_IN_APPLY_QUEUE)
    (hq : w.m_missingMeshQueue = b :: rest) (hc : find w.m_chunks b = some c)
    (hs : c.state ≠ State.Complete)
    (hready : ∀ o ∈ neighbourOffsets, AtLeast w.m_chunks (b.offset o) State.Sampling) :
    find (TryGeneratingMissingMesh cfg w).m_chunks b = some { c with state := State.Complete } ∧
    (TryGeneratingMissingMesh cfg w).generatedMeshes = w.generatedMeshes ++ [b] ∧
    (TryGeneratingMissingMesh cfg w).m_applyMeshQueue = w.m_applyMeshQueue ++ [b] := by
  have h0 : ((0, 0, 0) : Int × Int × Int) ∈ neighbourOffsets := by decide
  have hself := hready _ h0
  rw [offset_zero] at hself
  obtain ⟨c2, hc2, hrank⟩ := hself
  rw [Option.mem_def, hc] at hc2
  cases hc2
  have hgate := gate_open_of_ready cfg.codes hv w.m_chunks b State.Sampling c hc
    hrank (fun o ho => hready o (mem_block26 o ho))
  have hrun : TryGeneratingMissingMesh cfg w =
      { w with
        m_missingMeshQueue := rest
        generatedMeshes := w.generatedMeshes ++ [b]
        m_chunks := setState w.m_chunks b State.Complete
        m_applyMeshQueue := w.m_applyMeshQueue ++ [b] } := by
    unfold TryGeneratingMissingMesh
    rw [hq]
    unfold missingMeshLoop
    rw [if_pos (by omega)]
    simp only [hc, if_neg hs, if_neg (not_lt.mpr hgate)]
    exact missingMeshLoop_of_full cfg rest _ _ (by omega)
  rw [hrun]
  refine ⟨?_, rfl, rfl⟩
  show find (setState w.m_chunks b State.Complete) b = _
  rw [find_setState, if_pos rfl, hc]
  rfl

/-- A stale entry of the missing-mesh queue. The coordinate `b` heads the missing-mesh
queue of `w` and holds no chunk, the apply queue is full with capacity 1. The observer
reports chunk `y` and then chunk `z`, with `b` on the boundary of the inset-1 bound of
both and the 27 coordinates around `b` covered by the inset-1 bounds of the two cycles;
then `OnUpdate` runs. Afterwards `b` holds a chunk at Sampling, and the idle retry sets
it to Complete. -/
theorem stale_retry_completes_sampled (cfg : Config) (hv : cfg.codes.Ascending)
    (hone : cfg.MAX_MESH_IN_APPLY_QUEUE = 1) (boundXZ boundY : Int) (w : World) (b y z : Coord)
    (hpm : PositionsMatch w.m_chunks) (hfull : w.m_applyMeshQueue.length = 1)
    (hnq : b ∉ w.m_applyMeshQueue) (hhead : ∃ r, w.m_missingMeshQueue = b :: r)
    (habs : find w.m_chunks b = none)
    (hy1 : InBound y boundXZ boundY 1 b) (hy2 : ¬ InBound y boundXZ boundY 2 b)
    (hyr : InRange y (boundXZ + 1) (boundXZ + 1) b)
    (hz2 : ¬ InBound z boundXZ boundY 2 b) (hzr : InRange z (boundXZ + 1) (boundXZ + 1) b)
    (hnb : ∀ o ∈ neighbourOffsets,
      (InBound z boundXZ boundY 1 (b.offset o) ∧
        InRange z (boundXZ + 1) (boundXZ + 1) (b.offset o)) ∨
      (InBound y boundXZ boundY 1 (b.offset o) ∧
        InRange y (boundXZ + 1) (boundXZ + 1) (b.offset o) ∧
        InRange z (boundXZ + 1) (boundXZ + 1) (b.offset o))) :
    (OnUpdate (cycleAt cfg boundXZ boundY z
      (cycleAt cfg boundXZ boundY y w))).m_chunkPosChangedSync = false ∧
    find (OnUpdate (cycleAt cfg boundXZ boundY z
      (cycleAt cfg boundXZ boundY y w))).m_chunks b = some (chunkAt b State.Sampling) ∧
    find (TryGeneratingMissingMesh cfg (OnUpdate (cycleAt cfg boundXZ boundY z
      (cycleAt cfg boundXZ boundY y w)))).m_chunks b = some (chunkAt b State.Complete) ∧
    (TryGeneratingMissingMesh cfg (OnUpdate (cycleAt cfg boundXZ boundY z
      (cycleAt cfg boundXZ boundY y w)))).generatedMeshes =
      (OnUpdate (cycleAt cfg boundXZ boundY z
        (cycleAt cfg boundXZ boundY y w))).generatedMeshes ++ [b] := by
  -- the cycle at `y`
  have hq3 := applyQueue_cycleAt_of_full cfg boundXZ boundY y w (by rw [hfull, hone])
  have hm3 := head_missing_cycleAt cfg boundXZ boundY y w b hhead
  have hb3 := find_cycleAt_sampled cfg hv boundXZ boundY y w b habs hy1 hy2 hyr
  have hpm3 := positionsMatch_cycleAt cfg boundXZ boundY y w hpm
  -- the cycle at `z`
  have hq4 := applyQueue_cycleAt_of_full cfg boundXZ boundY z
    (cycleAt cfg boundXZ boundY y w) (by rw [hq3, hfull, hone])
  have hm4 := head_missing_cycleAt cfg boundXZ boundY z _ b hm3
  have hb4 := find_cycleAt_keeps_sampled cfg boundXZ boundY z _ b _ hb3 rfl hz2 hzr
  have hr4 : ∀ o ∈ neighbourOffsets,
      AtLeast (cycleAt cfg boundXZ boundY z (cycleAt cfg boundXZ boundY y w)).m_chunks
        (b.offset o) State.Sampling := by
    intro o ho
    rcases hnb o ho with ⟨h1, h2⟩ | ⟨h1, h2, h3⟩
    · exact atLeast_cycleAt_sampling cfg hv boundXZ boundY z _ hpm3 _ h1 h2
    · exact atLeast_cycleAt_kept cfg hv boundXZ boundY z _ _ _
        (atLeast_cycleAt_sampling cfg hv boundXZ boundY y w hpm _ h1 h2) h3
  have hf4 := (observer_cycleAt cfg boundXZ boundY z (cycleAt cfg boundXZ boundY y w)).2.2
  -- `OnUpdate`
  obtain ⟨hq5, hm5, hf5⟩ := frame_OnUpdate
    (cycleAt cfg boundXZ boundY z (cycleAt cfg boundXZ boundY y w))
  have hb5 : find (OnUpdate (cycleAt cfg boundXZ boundY z
      (cycleAt cfg boundXZ boundY y w))).m_chunks b = some (chunkAt b State.Sampling) := by
    rw [find_OnUpdate, hb4, hq4, hq3]
    simp only [Option.map_some', afterApply, if_neg hnq]
  have hr5 : ∀ o ∈ neighbourOffsets,
      AtLeast (OnUpdate (cycleAt cfg boundXZ boundY z
        (cycleAt cfg boundXZ boundY y w))).m_chunks (b.offset o) State.Sampling :=
    fun o ho => atLeast_of_advances (advances_OnUpdate _) _ _ (hr4 o ho)
  obtain ⟨r, hr⟩ := hm4
  -- the retry
  obtain ⟨hb6, hg6, _⟩ := retry_completes_head cfg hv
    (OnUpdate (cycleAt cfg boundXZ boundY z (cycleAt cfg boundXZ boundY y w))) b r
    (chunkAt b State.Sampling) (by rw [hq5, hone]; rfl) (by rw [hm5, hr]) hb5
    (by simp [chunkAt]) hr5
  exact ⟨by rw [hf5, hf4], hb5, hb6, hg6⟩

/-- Claim C20, which the code does not keep (the retry sets to Complete only chunks at
Surface): with capacity 1 and the bounds 16 and 6 of `ThreadUpdate`, after the run
`strollOps` from the initial world no position change is pending, the chunk at
(-13,-4,-13) is at Sampling, and the next iteration of the pipeline thread, which is
the idle retry `TryGeneratingMissingMesh`, generates its mesh and sets it to Complete.
The first cycle defers the coordinate, the second unloads its chunk and leaves the entry
in the missing-mesh queue, the third and fourth create the chunk again and bring it and
the 26 chunks around it to Sampling without running the surface pass on it. -/
theorem retry_completes_sampled_chunk :
    (runOps (cfgOf 1) 16 6 strollOps
      (initWorld ⟨0, 0, 0⟩ ⟨0, 0, 0⟩ false)).m_chunkPosChangedSync = false ∧
    find (runOps (cfgOf 1) 16 6 strollOps
      (initWorld ⟨0, 0, 0⟩ ⟨0, 0, 0⟩ false)).m_chunks ⟨-13, -4, -13⟩ =
      some (chunkAt ⟨-13, -4, -13⟩ State.Sampling) ∧
    find (TryGeneratingMissingMesh (cfgOf 1) (runOps (cfgOf 1) 16 6 strollOps
      (initWorld ⟨0, 0, 0⟩ ⟨0, 0, 0⟩ false))).m_chunks ⟨-13, -4, -13⟩ =
      some (chunkAt ⟨-13, -4, -13⟩ State.Complete) ∧
    (TryGeneratingMissingMesh (cfgOf 1) (runOps (cfgOf 1) 16 6 strollOps
      (initWorld ⟨0, 0, 0⟩ ⟨0, 0, 0⟩ false))).generatedMeshes =
      (runOps (cfgOf 1) 16 6 strollOps
        (initWorld ⟨0, 0, 0⟩ ⟨0, 0, 0⟩ false)).generatedMeshes ++ [⟨-13, -4, -13⟩] := by
  have hv := ascending_cfgOf 1
  have hpm0 : PositionsMatch (initWorld ⟨0, 0, 0⟩ ⟨0, 0, 0⟩ false).m_chunks := by
    intro e he
    cases he
  -- the first cycle queues (-13,-4,-14) for upload and defers (-13,-4,-13)
  have hq1 : (cycleAt (cfgOf 1) 16 6 ⟨1, 0, 0⟩
      (initWorld ⟨0, 0, 0⟩ ⟨0, 0, 0⟩ false)).m_applyMeshQueue = [⟨-13, -4, -14⟩] := by
    obtain ⟨t, ht⟩ := cycleAt_pushes_first (cfgOf 1) hv 16 6 ⟨1, 0, 0⟩
      (initWorld ⟨0, 0, 0⟩ ⟨0, 0, 0⟩ false) hpm0 (by decide) (by decide)
      (by decide) (by intro d hd; cases hd)
    have hb : QueueBounded (cfgOf 1) (cycleAt (cfgOf 1) 16 6 ⟨1, 0, 0⟩
        (initWorld ⟨0, 0, 0⟩ ⟨0, 0, 0⟩ false)) :=
      queueBounded_pipelineCycle (cfgOf 1) 16 6 _ (by decide)
    unfold QueueBounded at hb
    rw [ht] at hb ⊢
    have hlen : t.length = 0 := by
      have h1 : (cfgOf 1).MAX_MESH_IN_APPLY_QUEUE = 1 := rfl
      rw [h1, List.length_append, List.length_cons] at hb
      omega
    rw [List.eq_nil_of_length_eq_zero hlen]
    rfl
  have hm1 : ∃ r, (cycleAt (cfgOf 1) 16 6 ⟨1, 0, 0⟩
      (initWorld ⟨0, 0, 0⟩ ⟨0, 0, 0⟩ false)).m_missingMeshQueue = ⟨-13, -4, -13⟩ :: r := by
    obtain ⟨u, hu⟩ := cycleAt_defers_second (cfgOf 1) hv 16 6 ⟨1, 0, 0⟩
      (initWorld ⟨0, 0, 0⟩ ⟨0, 0, 0⟩ false) hpm0 (by decide) (by decide) (by decide)
      (by intro d hd; cases hd) (by intro d hd; cases hd)
    exact ⟨u, hu⟩
  have hpm1 := positionsMatch_cycleAt (cfgOf 1) 16 6 ⟨1, 0, 0⟩ _ hpm0
  -- the second cycle unloads the chunk and keeps the entry
  have hq2 := applyQueue_cycleAt_of_full (cfgOf 1) 16 6 ⟨100, 0, 0⟩
    (cycleAt (cfgOf 1) 16 6 ⟨1, 0, 0⟩ (initWorld ⟨0, 0, 0⟩ ⟨0, 0, 0⟩ false))
    (by rw [hq1]; rfl)
  have hm2 := head_missing_cycleAt (cfgOf 1) 16 6 ⟨100, 0, 0⟩ _ _ hm1
  have hb2 := find_cycleAt_unloaded (cfgOf 1) 16 6 ⟨100, 0, 0⟩
    (cycleAt (cfgOf 1) 16 6 ⟨1, 0, 0⟩ (initWorld ⟨0, 0, 0⟩ ⟨0, 0, 0⟩ false))
    ⟨-13, -4, -13⟩ (by decide)
  have hpm2 := positionsMatch_cycleAt (cfgOf 1) 16 6 ⟨100, 0, 0⟩ _ hpm1
  -- the third and fourth cycles, `OnUpdate` and the retry
  have h := stale_retry_completes_sampled (cfgOf 1) hv rfl 16 6
    (cycleAt (cfgOf 1) 16 6 ⟨100, 0, 0⟩
      (cycleAt (cfgOf 1) 16 6 ⟨1, 0, 0⟩ (initWorld ⟨0, 0, 0⟩ ⟨0, 0, 0⟩ false)))
    ⟨-13, -4, -13⟩ ⟨2, -4, -13⟩ ⟨-28, -4, -13⟩ hpm2 (by rw [hq2, hq1]; rfl)
    (by rw [hq2, hq1]; decide) hm2 hb2 (by decide) (by decide) (by decide) (by decide)
    (by decide) (by decide)
  unfold strollOps
  rw [runOps_move_thread (cfgOf 1) 16 6 ⟨16, 0, 0⟩ _ _ ⟨1, 0, 0⟩ (by decide) (by decide),
    runOps_move_thread (cfgOf 1) 16 6 ⟨1600, 0, 0⟩ _ _ ⟨100, 0, 0⟩ (by decide)
      (by rw [(observer_cycleAt _ _ _ _ _).1]; decide),
    runOps_move_thread (cfgOf 1) 16 6 ⟨32, -64, -208⟩ _ _ ⟨2, -4, -13⟩ (by decide)
      (by rw [(observer_cycleAt _ _ _ _ _).1]; decide),
    runOps_move_thread (cfgOf 1) 16 6 ⟨-448, -64, -208⟩ _ _ ⟨-28, -4, -13⟩ (by decide)
      (by rw [(observer_cycleAt _ _ _ _ _).1]; decide),
    runOps_cons, runOps_nil, applyOp_update]
  exact h

/-! ### The coordinates a cycle appends to the apply queue -/

theorem pushed_surfaceMeshBody (cfg : Config) (acc : World × Int) (a : Coord)
    (hpm : PositionsMatch acc.1.m_chunks) :
    ∃ t : List Coord,
      (surfaceMeshBody cfg acc a).1.m_applyMeshQueue = acc.1.m_applyMeshQueue ++ t ∧
      ∀ p ∈ t, p = a := by
  rcases runForChunkBody_cases cfg.codes State.Complete State.Sampling
    (TrySurfacePassAndMesh cfg) acc a with h | ⟨chunk, hf, _, _, hrun⟩
  · unfold surfaceMeshBody
    rw [h]
    exact ⟨[], by simp, by simp⟩
  · unfold surfaceMeshBody
    rw [hrun]
    have hpos := positionsMatch_find hpm hf
    have hq := queues_TrySurfacePassAndMesh cfg acc.1 chunk.chunkPosition a
      (GetChunkNeighbours cfg.codes acc.1.m_chunks chunk.chunkPosition
        (State.Complete.toInt cfg.codes)).1
    by_cases hfull : cfg.MAX_MESH_IN_APPLY_QUEUE ≤ acc.1.m_applyMeshQueue.length
    · obtain ⟨h1, _⟩ := hq.1 hfull
      exact ⟨[], by rw [h1]; simp, by simp⟩
    · obtain ⟨h1, _⟩ := hq.2 (by omega)
      exact ⟨[chunk.chunkPosition], h1, by
        intro p hp
        rw [List.mem_singleton] at hp
        rw [hp, hpos]⟩

theorem pushed_surfaceMeshFold (cfg : Config) (l : List Coord) (acc : World × Int)
    (hpm : PositionsMatch acc.1.m_chunks) :
    ∃ t : List Coord,
      (l.foldl (surfaceMeshBody cfg) acc).1.m_applyMeshQueue = acc.1.m_applyMeshQueue ++ t ∧
      ∀ p ∈ t, p ∈ l := by
  induction l generalizing acc with
  | nil => exact ⟨[], by simp, by simp⟩
  | cons a l ih =>
    rw [List.foldl_cons]
    obtain ⟨t1, h1, hm1⟩ := pushed_surfaceMeshBody cfg acc a hpm
    obtain ⟨t2, h2, hm2⟩ := ih (surfaceMeshBody cfg acc a)
      (positionsMatch_surfaceMeshBody cfg acc a hpm)
    refine ⟨t1 ++ t2, by rw [h2, h1, List.append_assoc], ?_⟩
    intro p hp
    rcases List.mem_append.mp hp with h | h
    · rw [hm1 p h]
      exact List.mem_cons_self _ _
    · exact List.mem_cons_of_mem _ (hm2 p h)

/-- The coordinates a cycle appends to the apply queue lie in its inset-2 bound. -/
theorem pushed_pipelineCycle (cfg : Config) (boundXZ boundY : Int) (w : World)
    (hpm : PositionsMatch w.m_chunks) :
    ∃ t : List Coord,
      (pipelineCycle cfg boundXZ boundY w).m_applyMeshQueue = w.m_applyMeshQueue ++ t ∧
      ∀ p ∈ t, InBound w.m_lastChunkPosSync boundXZ boundY 2 p := by
  obtain ⟨t, h1, hm⟩ := pushed_surfaceMeshFold cfg
    (boundCoords boundXZ boundY w.m_lastChunkPosSync 2)
    (afterSampling cfg boundXZ boundY w, 0)
    (positionsMatch_afterSampling cfg boundXZ boundY w hpm)
  refine ⟨t, ?_, fun p hp => (mem_boundCoords_iff_inBound _ _ _ _ _).mp (hm p hp)⟩
  rw [(queues_pipelineCycle_eq cfg boundXZ boundY w).1]
  unfold afterPasses
  rw [surfaceMeshPass_eq_foldl, h1, (queues_afterSampling cfg boundXZ boundY w).1]

theorem inRange_of_inBound_two (c : Coord) (boundXZ boundY : Int) (p : Coord)
    (hy : boundY ≤ boundXZ + 3) (h : InBound c boundXZ boundY 2 p) :
    InRange c (boundXZ + 1) (boundXZ + 1) p := by
  obtain ⟨⟨hx1, hx2⟩, ⟨hy1, hy2⟩, hz1, hz2⟩ := h
  unfold InRange
  refine ⟨abs_le.mpr ⟨by omega, by omega⟩, max_le (abs_le.mpr ⟨by omega, by omega⟩)
    (abs_le.mpr ⟨by omega, by omega⟩)⟩

/-- After a cycle that started with an empty apply queue, every coordinate of the apply
queue holds a chunk. -/
theorem pending_present_pipelineCycle (cfg : Config) (hv : cfg.codes.Ascending)
    (boundXZ boundY : Int) (w : World) (hpm : PositionsMatch w.m_chunks)
    (hy : boundY ≤ boundXZ + 3) (hq : w.m_applyMeshQueue = []) :
    ∀ p ∈ (pipelineCycle cfg boundXZ boundY w).m_applyMeshQueue,
      (find (pipelineCycle cfg boundXZ boundY w).m_chunks p).isSome := by
  obtain ⟨t, h1, hm⟩ := pushed_pipelineCycle cfg boundXZ boundY w hpm
  intro p hp
  rw [h1, hq, List.nil_append] at hp
  have h2 := hm p hp
  have h1b : InBound w.m_lastChunkPosSync boundXZ boundY 1 p := by
    by_contra hn
    exact not_inBound_succ _ _ _ 1 p hn h2
  obtain ⟨c, hc, _⟩ := cycle_atLeast_sampling cfg hv boundXZ boundY w hpm p h1b
    (inRange_of_inBound_two _ _ _ p hy h2)
  rw [Option.mem_def] at hc
  rw [hc]
  rfl

theorem pending_present_cycleAt (cfg : Config) (hv : cfg.codes.Ascending)
    (boundXZ boundY : Int) (c : Coord) (w : World) (hpm : PositionsMatch w.m_chunks)
    (hy : boundY ≤ boundXZ + 3) (hq : w.m_applyMeshQueue = []) :
    ∀ p ∈ (cycleAt cfg boundXZ boundY c w).m_applyMeshQueue,
      (find (cycleAt cfg boundXZ boundY c w).m_chunks p).isSome :=
  pending_present_pipelineCycle cfg hv boundXZ boundY
    { w with lastChunkPos := c, m_lastChunkPosSync := c, m_chunkPosChangedSync := true } hpm
    hy hq

theorem pendingKept_OnPlayerMove (cfg : Config) (boundXZ boundY : Int) (w : World)
    (position : Coord)
    (h : ∀ p ∈ w.m_applyMeshQueue, (find w.m_chunks p).isSome) :
    PendingKept boundXZ boundY (OnPlayerMove cfg w position) := by
  intro p hp _
  rw [applyQueue_OnPlayerMove] at hp
  rw [keys_OnPlayerMove]
  exact h p hp

theorem applyOp_move_thread (cfg : Config) (boundXZ boundY : Int) (position : Coord)
    (w : World) (c : Coord) (hc : toChunkPos cfg position = c) (hne : c ≠ w.lastChunkPos) :
    applyOp cfg boundXZ boundY (applyOp cfg boundXZ boundY w (Op.playerMove position))
      Op.threadStep = cycleAt cfg boundXZ boundY c w := by
  rw [applyOp_playerMove, applyOp_threadStep,
    OnPlayerMove_moved cfg w position (by rw [hc]; exact hne), hc,
    threadIteration_of_changed cfg boundXZ boundY _ rfl]
  rfl

/-- With capacity left for two coordinates in the apply queue, a cycle appends to it the
first two coordinates of its inset-2 bound, if the chunks there were not Complete when
the cycle began. -/
theorem cycle_pushes_first_two (cfg : Config) (hv : cfg.codes.Ascending)
    (boundXZ boundY : Int) (w : World) (hpm : PositionsMatch w.m_chunks) (hxz : 3 ≤ boundXZ)
    (hy : 2 ≤ boundY)
    (hlen : w.m_applyMeshQueue.length + 1 < cfg.MAX_MESH_IN_APPLY_QUEUE)
    (hnca : ∀ d, find w.m_chunks (firstCoord boundXZ boundY w.m_lastChunkPosSync 2) = some d →
      d.state ≠ State.Complete)
    (hncb : ∀ d, find w.m_chunks (secondCoord boundXZ boundY w.m_lastChunkPosSync 2) = some d →
      d.state ≠ State.Complete) :
    ∃ t, (pipelineCycle cfg boundXZ boundY w).m_applyMeshQueue =
      w.m_applyMeshQueue ++ firstCoord boundXZ boundY w.m_lastChunkPosSync 2 ::
        secondCoord boundXZ boundY w.m_lastChunkPosSync 2 :: t := by
  obtain ⟨rest, hL⟩ := boundCoords_cons_cons boundXZ boundY w.m_lastChunkPosSync 2
    (by omega) hy
  have hina : InBound w.m_lastChunkPosSync boundXZ boundY 2
      (firstCoord boundXZ boundY w.m_lastChunkPosSync 2) := by
    rw [← mem_boundCoords_iff_inBound, hL]
    exact List.mem_cons_self _ _
  have hinb : InBound w.m_lastChunkPosSync boundXZ boundY 2
      (secondCoord boundXZ boundY w.m_lastChunkPosSync 2) := by
    rw [← mem_boundCoords_iff_inBound, hL]
    exact List.mem_cons_of_mem _ (List.mem_cons_self _ _)
  obtain ⟨hra, ca, hca, hsa⟩ := afterSampling_ready cfg hv boundXZ boundY w hpm _ hina hnca
  obtain ⟨hrb, cb, hcb, hsb⟩ := afterSampling_ready cfg hv boundXZ boundY w hpm _ hinb hncb
  have hq := queues_afterSampling cfg boundXZ boundY w
  have hpm2 := positionsMatch_afterSampling cfg boundXZ boundY w hpm
  -- the step at the first coordinate
  have e1 := surfaceMeshBody_eq_of_ready cfg hv (afterSampling cfg boundXZ boundY w, 0) _ ca
    hpm2 hca hsa hra
  have hq1 := (queues_TrySurfacePassAndMesh cfg (afterSampling cfg boundXZ boundY w)
    (firstCoord boundXZ boundY w.m_lastChunkPosSync 2)
    (firstCoord boundXZ boundY w.m_lastChunkPosSync 2)
    (GetChunkNeighbours cfg.codes (afterSampling cfg boundXZ boundY w).m_chunks
      (firstCoord boundXZ boundY w.m_lastChunkPosSync 2)
      (State.Complete.toInt cfg.codes)).1).2 (by rw [hq.1]; omega)
  rw [← e1] at hq1
  -- the step at the second coordinate
  have hpm3 := positionsMatch_surfaceMeshBody cfg (afterSampling cfg boundXZ boundY w, 0)
    (firstCoord boundXZ boundY w.m_lastChunkPosSync 2) hpm2
  have hcb3 : find (surfaceMeshBody cfg (afterSampling cfg boundXZ boundY w, 0)
      (firstCoord boundXZ boundY w.m_lastChunkPosSync 2)).1.m_chunks
      (secondCoord boundXZ boundY w.m_lastChunkPosSync 2) = some cb := by
    rw [e1, find_TrySurfacePassAndMesh_ne cfg _ _ _ _ _
      (secondCoord_ne_firstCoord boundXZ boundY w.m_lastChunkPosSync 2)]
    exact hcb
  have hrb3 : ∀ o ∈ neighbourOffsets,
      AtLeast (surfaceMeshBody cfg (afterSampling cfg boundXZ boundY w, 0)
        (firstCoord boundXZ boundY w.m_lastChunkPosSync 2)).1.m_chunks
        ((secondCoord boundXZ boundY w.m_lastChunkPosSync 2).offset o) State.Sampling :=
    fun o ho => atLeast_of_advances
      (advances_surfaceMeshBody cfg hv (afterSampling cfg boundXZ boundY w, 0) _) _ _
      (hrb o ho)
  have e2 := surfaceMeshBody_eq_of_ready cfg hv
    (surfaceMeshBody cfg (afterSampling cfg boundXZ boundY w, 0)
      (firstCoord boundXZ boundY w.m_lastChunkPosSync 2)) _ cb hpm3 hcb3 hsb hrb3
  have hq2 := (queues_TrySurfacePassAndMesh cfg
    (surfaceMeshBody cfg (afterSampling cfg boundXZ boundY w, 0)
      (firstCoord boundXZ boundY w.m_lastChunkPosSync 2)).1
    (secondCoord boundXZ boundY w.m_lastChunkPosSync 2)
    (secondCoord boundXZ boundY w.m_lastChunkPosSync 2)
    (GetChunkNeighbours cfg.codes
      (surfaceMeshBody cfg (afterSampling cfg boundXZ boundY w, 0)
        (firstCoord boundXZ boundY w.m_lastChunkPosSync 2)).1.m_chunks
      (secondCoord boundXZ boundY w.m_lastChunkPosSync 2)
      (State.Complete.toInt cfg.codes)).1).2
    (by rw [hq1.1, List.length_append, hq.1]; simp only [List.length_singleton]; omega)
  rw [← e2] at hq2
  -- the rest of the pass
  rw [(queues_pipelineCycle_eq cfg boundXZ boundY w).1]
  unfold afterPasses
  rw [surfaceMeshPass_eq_foldl, hL, List.foldl_cons, List.foldl_cons]
  obtain ⟨t, u, h3, _, _⟩ := queues_surfaceMeshFold cfg rest
    (surfaceMeshBody cfg (surfaceMeshBody cfg (afterSampling cfg boundXZ boundY w, 0)
      (firstCoord boundXZ boundY w.m_lastChunkPosSync 2))
      (secondCoord boundXZ boundY w.m_lastChunkPosSync 2))
  refine ⟨t, ?_⟩
  rw [h3, hq2.1, hq1.1, hq.1, List.append_assoc, List.append_assoc]
  rfl

theorem cycleAt_pushes_first_two (cfg : Config) (hv : cfg.codes.Ascending)
    (boundXZ boundY : Int) (c : Coord) (w : World) (hpm : PositionsMatch w.m_chunks)
    (hxz : 3 ≤ boundXZ) (hy : 2 ≤ boundY)
    (hlen : w.m_applyMeshQueue.length + 1 < cfg.MAX_MESH_IN_APPLY_QUEUE)
    (hnca : ∀ d, find w.m_chunks (firstCoord boundXZ boundY c 2) = some d →
      d.state ≠ State.Complete)
    (hncb : ∀ d, find w.m_chunks (secondCoord boundXZ boundY c 2) = some d →
      d.state ≠ State.Complete) :
    ∃ t, (cycleAt cfg boundXZ boundY c w).m_applyMeshQueue =
      w.m_applyMeshQueue ++ firstCoord boundXZ boundY c 2 ::
        secondCoord boundXZ boundY c 2 :: t :=
  cycle_pushes_first_two cfg hv boundXZ boundY
    { w with lastChunkPos := c, m_lastChunkPosSync := c, m_chunkPosChangedSync := true } hpm
    hxz hy hlen hnca hncb

/-- In the run `nearbyOps` with capacity 20000 the first cycle queues (-13,-4,-14) and
(-13,-4,-13), every coordinate it queues holds a chunk, and the second cycle starts
with these coordinates pending. -/
theorem nearbyOps_facts :
    NoPendingRecreation (cfgOf 20000) 16 6 nearbyOps (initWorld ⟨0, 0, 0⟩ ⟨0, 0, 0⟩ false) ∧
    (⟨-13, -4, -14⟩ : Coord) ∈ (runOps (cfgOf 20000) 16 6
      [Op.playerMove ⟨16, 0, 0⟩, Op.threadStep, Op.playerMove ⟨32, 0, 0⟩]
      (initWorld ⟨0, 0, 0⟩ ⟨0, 0, 0⟩ false)).m_applyMeshQueue ∧
    (runOps (cfgOf 20000) 16 6
      [Op.playerMove ⟨16, 0, 0⟩, Op.threadStep, Op.playerMove ⟨32, 0, 0⟩]
      (initWorld ⟨0, 0, 0⟩ ⟨0, 0, 0⟩ false)).m_lastChunkPosSync = ⟨2, 0, 0⟩ ∧
    (⟨-13, -4, -14⟩ : Coord) ∈ (runOps (cfgOf 20000) 16 6 nearbyOps
      (initWorld ⟨0, 0, 0⟩ ⟨0, 0, 0⟩ false)).m_applyMeshQueue ∧
    (⟨-13, -4, -13⟩ : Coord) ∈ (runOps (cfgOf 20000) 16 6 nearbyOps
      (initWorld ⟨0, 0, 0⟩ ⟨0, 0, 0⟩ false)).m_applyMeshQueue := by
  have hv := ascending_cfgOf 20000
  have hpm0 : PositionsMatch (initWorld ⟨0, 0, 0⟩ ⟨0, 0, 0⟩ false).m_chunks := by
    intro e he
    cases he
  -- the first cycle
  obtain ⟨t, ht⟩ := cycleAt_pushes_first_two (cfgOf 20000) hv 16 6 ⟨1, 0, 0⟩
    (initWorld ⟨0, 0, 0⟩ ⟨0, 0, 0⟩ false) hpm0 (by decide) (by decide) (by decide)
    (by intro d hd; cases hd) (by intro d hd; cases hd)
  have ha1 : (⟨-13, -4, -14⟩ : Coord) ∈ (cycleAt (cfgOf 20000) 16 6 ⟨1, 0, 0⟩
      (initWorld ⟨0, 0, 0⟩ ⟨0, 0, 0⟩ false)).m_applyMeshQueue := by
    rw [ht]
    exact List.mem_append_right _ (List.mem_cons_self _ _)
  have hb1 : (⟨-13, -4, -13⟩ : Coord) ∈ (cycleAt (cfgOf 20000) 16 6 ⟨1, 0, 0⟩
      (initWorld ⟨0, 0, 0⟩ ⟨0, 0, 0⟩ false)).m_applyMeshQueue := by
    rw [ht]
    exact List.mem_append_right _ (List.mem_cons_of_mem _ (List.mem_cons_self _ _))
  have hpres := pending_present_cycleAt (cfgOf 20000) hv 16 6 ⟨1, 0, 0⟩
    (initWorld ⟨0, 0, 0⟩ ⟨0, 0, 0⟩ false) hpm0 (by decide) rfl
  have hne2 : (⟨2, 0, 0⟩ : Coord) ≠ (cycleAt (cfgOf 20000) 16 6 ⟨1, 0, 0⟩
      (initWorld ⟨0, 0, 0⟩ ⟨0, 0, 0⟩ false)).lastChunkPos := by
    rw [(observer_cycleAt _ _ _ _ _).1]
    decide
  have hmove : OnPlayerMove (cfgOf 20000) (cycleAt (cfgOf 20000) 16 6 ⟨1, 0, 0⟩
      (initWorld ⟨0, 0, 0⟩ ⟨0, 0, 0⟩ false)) ⟨32, 0, 0⟩ =
      { cycleAt (cfgOf 20000) 16 6 ⟨1, 0, 0⟩ (initWorld ⟨0, 0, 0⟩ ⟨0, 0, 0⟩ false) with
        lastChunkPos := ⟨2, 0, 0⟩, m_lastChunkPosSync := ⟨2, 0, 0⟩,
        m_chunkPosChangedSync := true } :=
    OnPlayerMove_moved (cfgOf 20000) _ ⟨32, 0, 0⟩ hne2
  refine ⟨?_, ?_, ?_, ?_, ?_⟩
  · refine ⟨fun h => Op.noConfusion h, ⟨?_, ⟨fun h => Op.noConfusion h, ⟨?_, trivial⟩⟩⟩⟩
    · intro _ _ p hp _
      rw [applyOp_playerMove, applyQueue_OnPlayerMove] at hp
      cases hp
    · intro _ _
      rw [applyOp_move_thread (cfgOf 20000) 16 6 ⟨16, 0, 0⟩ _ ⟨1, 0, 0⟩ (by decide)
        (by decide), applyOp_playerMove]
      exact pendingKept_OnPlayerMove (cfgOf 20000) 16 6 _ _ hpres
  · rw [runOps_move_thread (cfgOf 20000) 16 6 ⟨16, 0, 0⟩ _ _ ⟨1, 0, 0⟩ (by decide)
      (by decide), runOps_cons, runOps_nil, applyOp_playerMove, applyQueue_OnPlayerMove]
    exact ha1
  · rw [runOps_move_thread (cfgOf 20000) 16 6 ⟨16, 0, 0⟩ _ _ ⟨1, 0, 0⟩ (by decide)
      (by decide), runOps_cons, runOps_nil, applyOp_playerMove, hmove]
  · unfold nearbyOps
    rw [runOps_move_thread (cfgOf 20000) 16 6 ⟨16, 0, 0⟩ _ _ ⟨1, 0, 0⟩ (by decide)
      (by decide),
      runOps_move_thread (cfgOf 20000) 16 6 ⟨32, 0, 0⟩ _ _ ⟨2, 0, 0⟩ (by decide) hne2,
      runOps_nil]
    exact mem_applyQueue_cycleAt _ _ _ _ _ _ ha1
  · unfold nearbyOps
    rw [runOps_move_thread (cfgOf 20000) 16 6 ⟨16, 0, 0⟩ _ _ ⟨1, 0, 0⟩ (by decide)
      (by decide),
      runOps_move_thread (cfgOf 20000) 16 6 ⟨32, 0, 0⟩ _ _ ⟨2, 0, 0⟩ (by decide) hne2,
      runOps_nil]
    exact mem_applyQueue_cycleAt _ _ _ _ _ _ hb1
/-- Witness of `applyQueue_unique`: capacity 20000, the bounds 16 and 6 of
`ThreadUpdate`, the run `nearbyOps`. The cycle at chunk (1,0,0) queues (-13,-4,-14),
(-13,-4,-13) and more; the cycle at chunk (2,0,0) starts with these coordinates pending,
inside its creation cuboid and each holding a chunk, so no pending coordinate is created
again; the queue after the run holds both coordinates, and no coordinate twice. -/
theorem applyQueue_unique_witness :
    (cfgOf 20000).codes.Ascending ∧
    NoPendingRecreation (cfgOf 20000) 16 6 nearbyOps (initWorld ⟨0, 0, 0⟩ ⟨0, 0, 0⟩ false) ∧
    (⟨-13, -4, -14⟩ : Coord) ∈ (runOps (cfgOf 20000) 16 6
      [Op.playerMove ⟨16, 0, 0⟩, Op.threadStep, Op.playerMove ⟨32, 0, 0⟩]
      (initWorld ⟨0, 0, 0⟩ ⟨0, 0, 0⟩ false)).m_applyMeshQueue ∧
    InCuboid (runOps (cfgOf 20000) 16 6
      [Op.playerMove ⟨16, 0, 0⟩, Op.threadStep, Op.playerMove ⟨32, 0, 0⟩]
      (initWorld ⟨0, 0, 0⟩ ⟨0, 0, 0⟩ false)).m_lastChunkPosSync 16 6 ⟨-13, -4, -14⟩ ∧
    (⟨-13, -4, -14⟩ : Coord) ∈ (runOps (cfgOf 20000) 16 6 nearbyOps
      (initWorld ⟨0, 0, 0⟩ ⟨0, 0, 0⟩ false)).m_applyMeshQueue ∧
    (⟨-13, -4, -13⟩ : Coord) ∈ (runOps (cfgOf 20000) 16 6 nearbyOps
      (initWorld ⟨0, 0, 0⟩ ⟨0, 0, 0⟩ false)).m_applyMeshQueue ∧
    (runOps (cfgOf 20000) 16 6 nearbyOps
      (initWorld ⟨0, 0, 0⟩ ⟨0, 0, 0⟩ false)).m_applyMeshQueue.Nodup :=
  ⟨ascending_cfgOf 20000, nearbyOps_facts.1, nearbyOps_facts.2.1,
    by rw [nearbyOps_facts.2.2.1]; decide,
    nearbyOps_facts.2.2.2.1, nearbyOps_facts.2.2.2.2,
    applyQueue_unique (cfgOf 20000) (ascending_cfgOf 20000) 16 6 ⟨0, 0, 0⟩ ⟨0, 0, 0⟩ false
      nearbyOps nearbyOps_facts.1⟩

end TerrainExplorer
